import Mathlib

/-!
# Streaming cache core of the HTTP proxy (proxy.c)

A shallow embedding of the stream buffer and of the LRU cache of proxy.c.

* size_t is the 64-bit unsigned type: sums and products of size_t values are
  taken modulo 2^64.
* A call that does not return normally (a loop that never exits, a write outside
  the allocated block, a dereference of a freed node) has result none.
* Locks, condition variables and logging have no effect on the data and are
  left out; the results of malloc, realloc and time are arguments.
-/

namespace Proxy

/-! ## Constants -/

def BUFFER_SIZE : Nat := 4096

def MAX_CACHE_SIZE : Nat := 50

def MAX_RESPONSE_SIZE : Nat := 100 * 1024 * 1024

def CACHE_TTL : Int := 300

/-- Number of values of size_t (64-bit). -/
def SIZE_MOD : Nat := 18446744073709551616

/-! ## Stream buffer -/

/-- The struct stream_buffer_t without its lock and condition variable. The field
data is the whole allocated block (its length is the allocated size). -/
structure stream_buffer_t where
  data : List Nat
  size : Nat
  capacity : Nat
  complete : Int
  error : Int
  readers : Int

/-- The block returned by a successful malloc or realloc of n bytes that keeps
the first bytes of old; the bytes past old are whatever the allocator left
there, given by junk. -/
def alloc_block (old : List Nat) (n : Nat) (junk : Nat → Nat) : List Nat :=
  old.take n ++ (List.range (n - old.length)).map junk

/-- Function create_stream_buffer. The arguments are the results of the two malloc
calls: struct_ok tells whether the first succeeded, block is none when the
second failed and otherwise gives the contents of the fresh block. The
result none is the NULL return. -/
def create_stream_buffer (struct_ok : Bool) (block : Option (Nat → Nat)) :
    Option stream_buffer_t :=
  if struct_ok then
    match block with
    | none => none
    | some junk =>
      some { data := alloc_block [] (BUFFER_SIZE * 4) junk
             size := 0
             capacity := BUFFER_SIZE * 4
             complete := 0
             error := 0
             readers := 0 }
  else none

/-- The loop `while (new_capacity < buf->size + len) new_capacity *= 2;` run for at
most fuel tests of the condition; need is the value of `buf->size + len`. The
result none means that the condition still held at the last test. -/
def grow_loop : Nat → Nat → Nat → Option Nat
  | 0, _, _ => none
  | fuel + 1, new_capacity, need =>
    if new_capacity < need then grow_loop fuel ((new_capacity * 2) % SIZE_MOD) need
    else some new_capacity

/-- The tail of stream_buffer_append from the memcpy on: copy the chunk to
offset size and advance size. A copy that does not fit in the block writes
outside it (no normal return). -/
def append_copy (buf : stream_buffer_t) (data : List Nat) : Option (stream_buffer_t × Int) :=
  if buf.size + data.length ≤ buf.data.length then
    some ({ buf with
              data := buf.data.take buf.size ++ data ++ buf.data.drop (buf.size + data.length)
              size := (buf.size + data.length) % SIZE_MOD }, 0)
  else none

/-- Function stream_buffer_append. The chunk is the list data (len is its length);
new_data is the result of the realloc call, should it be made: none for
NULL, otherwise the contents of the bytes the block gained. The result pairs
the buffer after the call with the returned int. After 65 tests of the loop
condition the candidate capacity is 0 for good, so 65 tests decide whether
the loop exits. -/
def stream_buffer_append (buf : stream_buffer_t) (data : List Nat)
    (new_data : Option (Nat → Nat)) : Option (stream_buffer_t × Int) :=
  let need := (buf.size + data.length) % SIZE_MOD
  if need > MAX_RESPONSE_SIZE then
    some ({ buf with error := 1 }, -1)
  else if need > buf.capacity then
    match grow_loop 65 ((buf.capacity * 2) % SIZE_MOD) need with
    | none => none
    | some new_capacity =>
      match new_data with
      | none => some ({ buf with error := 1 }, -1)
      | some junk =>
        append_copy { buf with data := alloc_block buf.data new_capacity junk
                               capacity := new_capacity } data
  else append_copy buf data

/-- Function stream_buffer_complete. -/
def stream_buffer_complete (buf : stream_buffer_t) : stream_buffer_t :=
  { buf with complete := 1 }

/-- Buffers that the program can hold: made by create_stream_buffer and then
passed through any calls of stream_buffer_append and stream_buffer_complete
that return. -/
inductive BufReachable : stream_buffer_t → Prop
  | create (struct_ok : Bool) (block : Option (Nat → Nat)) (b : stream_buffer_t) :
      create_stream_buffer struct_ok block = some b → BufReachable b
  | append (b : stream_buffer_t) (data : List Nat) (new_data : Option (Nat → Nat))
      (b2 : stream_buffer_t) (ret : Int) :
      BufReachable b → stream_buffer_append b data new_data = some (b2, ret) →
      BufReachable b2
  | complete (b : stream_buffer_t) :
      BufReachable b → BufReachable (stream_buffer_complete b)

/-- Buffers reachable from create_stream_buffer by calls of stream_buffer_append
alone. -/
inductive AppendReachable : stream_buffer_t → Prop
  | create (struct_ok : Bool) (block : Option (Nat → Nat)) (b : stream_buffer_t) :
      create_stream_buffer struct_ok block = some b → AppendReachable b
  | append (b : stream_buffer_t) (data : List Nat) (new_data : Option (Nat → Nat))
      (b2 : stream_buffer_t) (ret : Int) :
      AppendReachable b → stream_buffer_append b data new_data = some (b2, ret) →
      AppendReachable b2

/-- A small buffer used in examples: four bytes allocated, two stored. -/
def buf_small : stream_buffer_t :=
  { data := [7, 8, 0, 0], size := 2, capacity := 4, complete := 0, error := 0, readers := 0 }

/-- The buffer create_stream_buffer returns when both malloc calls succeed (the
fresh block filled with zeros). -/
def buf_fresh : stream_buffer_t :=
  { data := alloc_block [] (BUFFER_SIZE * 4) (fun _ => 0), size := 0,
    capacity := BUFFER_SIZE * 4, complete := 0, error := 0, readers := 0 }

/-! ## Reader: stream_to_client -/

/-- How a run of stream_to_client stands: it has returned (done at the break,
write_failed after a write gave n <= 0, buffer_error after error was seen), it
sits in pthread_cond_wait (no other thread runs in this model, so it stays
there), or it is still running because the fuel ran out. -/
inductive stream_status
  | done
  | write_failed
  | buffer_error
  | waiting
  | running
  deriving DecidableEq

/-- The state of a run of stream_to_client: the buffer, the local sent and the
bytes written to the client socket so far, in order. -/
structure stream_result where
  status : stream_status
  buf : stream_buffer_t
  sent : Nat
  out : List Nat

/-- The loop `while (sent < buf->size)` of stream_to_client for at most fuel writes.
The socket is the function sink: the call number calls of write, offered
to_send bytes, returns `sink calls to_send`. The bytes that reach the client
are the first n of those offered; write returns at most what it was offered,
so `sent += n` stays within size. The first component is none when the loop
ends because its condition is false. -/
def send_loop (sink : Nat → Nat → Int) (buf : stream_buffer_t) :
    Nat → Nat → Nat → List Nat → Option stream_status × Nat × Nat × List Nat
  | 0, sent, calls, out =>
    if sent < buf.size then (some stream_status.running, sent, calls, out)
    else (none, sent, calls, out)
  | fuel + 1, sent, calls, out =>
    if sent < buf.size then
      let to_send := buf.size - sent
      let n := sink calls to_send
      if n ≤ 0 then (some stream_status.write_failed, sent, calls + 1, out)
      else
        send_loop sink buf fuel (sent + n.toNat) (calls + 1)
          (out ++ ((buf.data.drop sent).take to_send).take n.toNat)
    else (none, sent, calls, out)

/-- The loop `while (1)` of stream_to_client for at most fuel rounds: the wait for
data, the test of error, the loop of writes, the test for the break. -/
def stream_loop (sink : Nat → Nat → Int) (buf : stream_buffer_t) :
    Nat → Nat → Nat → List Nat → stream_status × Nat × Nat × List Nat
  | 0, sent, calls, out => (stream_status.running, sent, calls, out)
  | fuel + 1, sent, calls, out =>
    if sent ≥ buf.size ∧ buf.complete = 0 ∧ buf.error = 0 then
      (stream_status.waiting, sent, calls, out)
    else if buf.error ≠ 0 then (stream_status.buffer_error, sent, calls, out)
    else
      match send_loop sink buf fuel sent calls out with
      | (some st, r) => (st, r)
      | (none, sent2, calls2, out2) =>
        if buf.complete ≠ 0 ∧ sent2 ≥ buf.size then (stream_status.done, sent2, calls2, out2)
        else stream_loop sink buf fuel sent2 calls2 out2

/-- Function stream_to_client, the client socket given by sink: readers is
incremented, the loop runs, and on each of the three ways out readers is
decremented. -/
def stream_to_client (fuel : Nat) (sink : Nat → Nat → Int) (buf : stream_buffer_t) :
    stream_result :=
  let b1 : stream_buffer_t := { buf with readers := buf.readers + 1 }
  match stream_loop sink b1 fuel 0 0 [] with
  | (stream_status.running, sent, _, out) =>
    { status := stream_status.running, buf := b1, sent := sent, out := out }
  | (stream_status.waiting, sent, _, out) =>
    { status := stream_status.waiting, buf := b1, sent := sent, out := out }
  | (st, sent, _, out) =>
    { status := st, buf := { b1 with readers := b1.readers - 1 }, sent := sent, out := out }

/-- A completed buffer of five bytes used in examples. -/
def buf_done : stream_buffer_t :=
  { data := [10, 20, 30, 40, 50, 0, 0, 0], size := 5, capacity := 8, complete := 1,
    error := 0, readers := 0 }

/-- A socket that takes two bytes in each write (one when only one is offered). -/
def sink_two : Nat → Nat → Int :=
  fun _ offered => if offered ≥ 2 then 2 else 1

/-! ## Producer: download_thread -/

/-- The way download_thread leaves: after gethostbyname, socket or connect failed,
after stream_buffer_append failed, or after the loop of reads ended. -/
inductive dl_exit
  | resolve_failed
  | socket_failed
  | connect_failed
  | append_failed
  | read_end
  deriving DecidableEq

/-- The loop `while ((n = read(sock, buffer, BUFFER_SIZE)) > 0)` of download_thread.
The results of the reads are listed in reads: none is a negative n, some
chunk is n = length of chunk with those bytes (the empty chunk is end of
file); after the last listed read the next one never returns. new_data k is
the result of realloc in append number k. The result is the buffer when the
loop is left and the way it is left. -/
def download_loop (new_data : Nat → Option (Nat → Nat)) :
    List (Option (List Nat)) → Nat → stream_buffer_t → Option (stream_buffer_t × dl_exit)
  | [], _, _ => none
  | none :: _, _, buf => some (buf, dl_exit.read_end)
  | some chunk :: rest, k, buf =>
    if (chunk.length : Int) > 0 then
      match stream_buffer_append buf chunk (new_data k) with
      | none => none
      | some (b2, ret) =>
        if ret < 0 then some (b2, dl_exit.append_failed)
        else download_loop new_data rest (k + 1) b2
    else some (buf, dl_exit.read_end)

/-- Function download_thread on the buffer of its argument. server_ok tells whether
gethostbyname found the host, sock and conn are the results of socket and
connect. The result is the buffer at the return and the way taken. -/
def download_thread (server_ok : Bool) (sock conn : Int) (reads : List (Option (List Nat)))
    (new_data : Nat → Option (Nat → Nat)) (buf : stream_buffer_t) :
    Option (stream_buffer_t × dl_exit) :=
  if server_ok = false then
    some (stream_buffer_complete { buf with error := 1 }, dl_exit.resolve_failed)
  else if sock < 0 then
    some (stream_buffer_complete { buf with error := 1 }, dl_exit.socket_failed)
  else if conn < 0 then
    some (stream_buffer_complete { buf with error := 1 }, dl_exit.connect_failed)
  else
    match download_loop new_data reads 0 buf with
    | none => none
    | some (b2, way) => some (stream_buffer_complete b2, way)

/-- The buffer that download_thread leaves when started on buf_small with an
origin that sends the two bytes 72, 84 and then closes. -/
def buf_downloaded : stream_buffer_t :=
  match download_thread true 3 0 [some [72, 84], some []] (fun _ => none) buf_small with
  | some r => r.1
  | none => buf_small

/-! ## Request parsing -/

/-- The offset at which strstr finds needle in hay: that of the first occurrence;
none when strstr returns NULL. -/
def strstr_index (needle : List Char) : List Char → Option Nat
  | [] => if needle.isPrefixOf [] then some 0 else none
  | c :: hay =>
    if needle.isPrefixOf (c :: hay) then some 0
    else (strstr_index needle hay).map (· + 1)

/-- The offset at which strchr finds the character c in s; none when strchr returns
NULL. -/
def strchr_index (c : Char) : List Char → Option Nat
  | [] => none
  | d :: s => if d = c then some 0 else (strchr_index c s).map (· + 1)

/-- The characters isspace accepts: space and the codes 9 to 13. -/
def isspace (c : Char) : Bool :=
  c.toNat = 32 ∨ (9 ≤ c.toNat ∧ c.toNat ≤ 13)

/-- The digits at the start of s read as a decimal number on top of acc. -/
def atoi_digits : List Char → Nat → Nat
  | [], acc => acc
  | c :: s, acc =>
    if 48 ≤ c.toNat ∧ c.toNat ≤ 57 then atoi_digits s (acc * 10 + (c.toNat - 48)) else acc

/-- Function atoi: white space is skipped, a sign is read, then the digits. A value
outside int has no defined result. -/
def atoi (s : List Char) : Option Int :=
  let t := s.dropWhile isspace
  let v : Int :=
    match t with
    | '-' :: r => -(atoi_digits r 0 : Int)
    | '+' :: r => (atoi_digits r 0 : Int)
    | _ => (atoi_digits t 0 : Int)
  if -2147483648 ≤ v ∧ v ≤ 2147483647 then some v else none

/-- What parse_http_request returns: bad is the return of -1, ok is the return of 0
with the strings left in host and path and the number left in port. -/
inductive parse_result
  | bad
  | ok (host path : List Char) (port : Int)
  deriving DecidableEq

/-- Lines 79-87 of parse_http_request: the port is cut off the host at the first
colon. -/
def split_port (host path : List Char) : Option parse_result :=
  match strchr_index ':' host with
  | some j =>
    match atoi (host.drop (j + 1)) with
    | none => none
    | some v => some (parse_result.ok (host.take j) path v)
  | none => some (parse_result.ok host path 80)

/-- Lines 63-87 of parse_http_request, the work on the copy url of the text between
"GET " and " HTTP/": the prefix "http://" is skipped, the path starts at the
first slash, the host lies before it. host_cap and path_cap are the sizes of
the arrays that host and path point to; a copy that does not fit its array
writes outside it (result none). -/
def parse_url (url : List Char) (host_cap path_cap : Nat) : Option parse_result :=
  let url_start := if "http://".toList.isPrefixOf url then url.drop 7 else url
  match strchr_index '/' url_start with
  | some host_len =>
    let path := url_start.drop host_len
    if path.length + 1 ≤ path_cap ∧ host_len + 1 ≤ host_cap then
      split_port (url_start.take host_len) path
    else none
  | none =>
    if 2 ≤ path_cap ∧ url_start.length + 1 ≤ host_cap then split_port url_start ['/']
    else none

/-- Function parse_http_request. The request is the string up to its terminating
zero; host_cap and path_cap are the sizes of the arrays that host and path
point to. -/
def parse_http_request (request : List Char) (host_cap path_cap : Nat) :
    Option parse_result :=
  match strstr_index "GET ".toList request with
  | none => some parse_result.bad
  | some i =>
    let start := request.drop (i + 4)
    match strstr_index " HTTP/".toList start with
    | none => some parse_result.bad
    | some url_len =>
      if url_len ≥ 2048 then some parse_result.bad
      else parse_url (start.take url_len) host_cap path_cap

/-- The text printf writes for an int under %d. -/
def fmt_int (v : Int) : List Char :=
  if v < 0 then '-' :: Nat.toDigits 10 v.natAbs else Nat.toDigits 10 v.toNat

/-- Line 411 of handle_client: the cache key
`snprintf(url, sizeof(url), "%s:%d%s", host, port, path)`, cut to the 2047
characters that fit the array. -/
def make_key (host : List Char) (port : Int) (path : List Char) : String :=
  String.mk ((host ++ ':' :: fmt_int port ++ path).take 2047)

/-- The number that a string of decimal digits denotes. -/
def decimal_value (digits : List Char) : Nat :=
  digits.foldl (fun acc c => acc * 10 + (c.toNat - 48)) 0

/-- The text `:P` of an optional port. -/
def port_text (P : Option (List Char)) : List Char :=
  match P with
  | none => []
  | some d => ':' :: d

/-- The text `/PATH` of an optional path. -/
def path_text (Q : Option (List Char)) : List Char :=
  match Q with
  | none => []
  | some q => '/' :: q

/-- The port an absolute URL names: 80 when it has none. -/
def port_number (P : Option (List Char)) : Int :=
  match P with
  | none => 80
  | some d => (decimal_value d : Int)

/-- The path an absolute URL names: the root when it has none. -/
def path_or_root (Q : Option (List Char)) : List Char :=
  match Q with
  | none => ['/']
  | some q => '/' :: q

/-- A request that starts `GET http://H[:P][/PATH] HTTP/` and goes on with rest. -/
def absolute_get (H : List Char) (P Q : Option (List Char)) (rest : List Char) : List Char :=
  "GET ".toList ++ (("http://".toList ++ (H ++ port_text P) ++ path_text Q) ++
    (" HTTP/".toList ++ rest))

/-- Carriage return and line feed, the end of a line of a request. -/
def crlf : List Char := [Char.ofNat 13, Char.ofNat 10]

/-! ## Cache -/

/-- The struct cache_entry_t. A pointer to an entry is the address of its node,
none is NULL; buffer is the address of the stream buffer. -/
structure cache_entry_t where
  url : String
  buffer : Nat
  timestamp : Int
  prev : Option Nat
  next : Option Nat

/-- The struct cache_t without its lock. -/
structure cache_t where
  head : Option Nat
  tail : Option Nat
  count : Nat

/-- The memory the cache functions work on: the heap of cache entries and the heap
of stream buffers (none at an address that is not allocated) and the
variable global_cache. -/
structure Memory where
  entries : Nat → Option cache_entry_t
  buffers : Nat → Option stream_buffer_t
  global_cache : cache_t

/-- The assignment `p->next = v`. -/
def set_next (m : Memory) (p : Nat) (v : Option Nat) : Option Memory :=
  match m.entries p with
  | none => none
  | some e => some { m with entries := Function.update m.entries p (some { e with next := v }) }

/-- The assignment `p->prev = v`. -/
def set_prev (m : Memory) (p : Nat) (v : Option Nat) : Option Memory :=
  match m.entries p with
  | none => none
  | some e => some { m with entries := Function.update m.entries p (some { e with prev := v }) }

/-- Line 176: `if (entry->prev) entry->prev->next = entry->next;`. -/
def unlink_prev (entry : Nat) (m : Memory) : Option Memory :=
  match m.entries entry with
  | none => none
  | some e =>
    match e.prev with
    | none => some m
    | some q => set_next m q e.next

/-- Line 177: `if (entry->next) entry->next->prev = entry->prev;`. -/
def unlink_next (entry : Nat) (m : Memory) : Option Memory :=
  match m.entries entry with
  | none => none
  | some e =>
    match e.next with
    | none => some m
    | some q => set_prev m q e.prev

/-- Line 178: `if (entry == global_cache.head) global_cache.head = entry->next;`. -/
def unlink_head (entry : Nat) (m : Memory) : Option Memory :=
  if m.global_cache.head = some entry then
    match m.entries entry with
    | none => none
    | some e => some { m with global_cache := { m.global_cache with head := e.next } }
  else some m

/-- Lines 180-181: `entry->prev = global_cache.tail; entry->next = NULL;`. -/
def link_entry (entry : Nat) (m : Memory) : Option Memory :=
  match set_prev m entry m.global_cache.tail with
  | none => none
  | some m1 => set_next m1 entry none

/-- Line 182: `if (global_cache.tail) global_cache.tail->next = entry;`. -/
def link_tail (entry : Nat) (m : Memory) : Option Memory :=
  match m.global_cache.tail with
  | none => some m
  | some t => set_next m t (some entry)

/-- Lines 183-184: `global_cache.tail = entry; if (!global_cache.head)
global_cache.head = entry;`. -/
def set_tail (entry : Nat) (m : Memory) : Memory :=
  let m1 := { m with global_cache := { m.global_cache with tail := some entry } }
  if m1.global_cache.head = none then
    { m1 with global_cache := { m1.global_cache with head := some entry } }
  else m1

/-- Lines 175-185 of cache_find: the promotion of entry to the tail. -/
def move_to_tail (m : Memory) (entry : Nat) : Option Memory :=
  if some entry ≠ m.global_cache.tail then
    match unlink_prev entry m with
    | none => none
    | some m1 =>
      match unlink_next entry m1 with
      | none => none
      | some m2 =>
        match unlink_head entry m2 with
        | none => none
        | some m3 =>
          match link_entry entry m3 with
          | none => none
          | some m4 =>
            match link_tail entry m4 with
            | none => none
            | some m5 => some (set_tail entry m5)
  else some m

/-- The loop of cache_find from the node entry on, for at most fuel nodes; now is
the value of time(NULL). The result is the memory after the call and the
returned pointer. -/
def cache_find_loop (url : String) (now : Int) (m : Memory) :
    Nat → Option Nat → Option (Memory × Option Nat)
  | _, none => some (m, none)
  | 0, some _ => none
  | fuel + 1, some entry =>
    match m.entries entry with
    | none => none
    | some e =>
      if e.url = url then
        if now - e.timestamp > CACHE_TTL then some (m, none)
        else
          match move_to_tail m entry with
          | none => none
          | some m1 => some (m1, some entry)
      else cache_find_loop url now m fuel e.next

/-- Function cache_find; fuel bounds the number of nodes visited and now is the
value of time(NULL). -/
def cache_find (fuel : Nat) (url : String) (now : Int) (m : Memory) :
    Option (Memory × Option Nat) :=
  cache_find_loop url now m fuel m.global_cache.head

/-- Lines 201-207 of cache_add: the head node old is taken off the list,
`global_cache.head = old->next; if (global_cache.head) global_cache.head->prev = NULL;
else global_cache.tail = NULL;`. -/
def unlink_front (m : Memory) (old : Nat) : Option Memory :=
  match m.entries old with
  | none => none
  | some oe =>
    let m1 : Memory := { m with global_cache := { m.global_cache with head := oe.next } }
    match m1.global_cache.head with
    | some h => set_prev m1 h none
    | none => some { m1 with global_cache := { m1.global_cache with tail := none } }

/-- The size_t value n after `n--`: below 0 it wraps to the largest value. -/
def size_dec (n : Nat) : Nat :=
  if n = 0 then SIZE_MOD - 1 else n - 1

/-- Function free_stream_buffer for the buffer at address buf: the block and the
struct are released. -/
def free_stream_buffer (m : Memory) (buf : Nat) : Memory :=
  { m with buffers := Function.update m.buffers buf none }

/-- Lines 209-220 of cache_add: wait until the buffer of old has no readers, then
free the buffer and the node and decrement count. No other thread runs in
this model, so a wait that finds readers > 0 never ends. -/
def release_old (m : Memory) (old : Nat) : Option Memory :=
  match m.entries old with
  | none => none
  | some oe =>
    match m.buffers oe.buffer with
    | none => none
    | some b =>
      if b.readers > 0 then none
      else
        some { free_stream_buffer m oe.buffer with
               entries := Function.update m.entries old none
               global_cache :=
                 { m.global_cache with
                   count := size_dec m.global_cache.count } }

/-- The body of the eviction loop of cache_add (lines 201-220) for the head node
old. -/
def evict_head (m : Memory) (old : Nat) : Option Memory :=
  match unlink_front m old with
  | none => none
  | some m1 => release_old m1 old

/-- The eviction loop of cache_add, lines 200-221, for at most fuel rounds. -/
def evict_loop : Nat → Memory → Option Memory
  | 0, m =>
    if MAX_CACHE_SIZE ≤ m.global_cache.count ∧ m.global_cache.head ≠ none then none
    else some m
  | fuel + 1, m =>
    if MAX_CACHE_SIZE ≤ m.global_cache.count then
      match m.global_cache.head with
      | none => some m
      | some old =>
        match evict_head m old with
        | none => none
        | some m1 => evict_loop fuel m1
    else some m

/-- Lines 229-244 of cache_add: the node entry that malloc returned is filled in
and linked behind the tail; strdup is taken to succeed. -/
def install_entry (url : String) (buffer : Nat) (now : Int) (entry : Nat) (m : Memory) :
    Option (Memory × Option Nat) :=
  let m1 : Memory :=
    { m with
      entries := Function.update m.entries entry
        (some { url := url, buffer := buffer, timestamp := now,
                prev := m.global_cache.tail, next := none }) }
  let linked_in : Option Memory :=
    match m1.global_cache.tail with
    | some t => set_next m1 t (some entry)
    | none => some { m1 with global_cache := { m1.global_cache with head := some entry } }
  match linked_in with
  | none => none
  | some m2 =>
    some ({ m2 with
            global_cache :=
              { m2.global_cache with
                tail := some entry
                count := (m2.global_cache.count + 1) % SIZE_MOD } },
          some entry)

/-- Function cache_add; now is the value of time(NULL) and new_entry the result of
malloc (none for NULL). Every round of the eviction loop starts with
count >= 50 and lowers count by one, so count rounds are enough. malloc
never returns the address of a live node: such an argument describes no
run. -/
def cache_add (url : String) (buffer : Nat) (now : Int) (new_entry : Option Nat)
    (m : Memory) : Option (Memory × Option Nat) :=
  match evict_loop m.global_cache.count m with
  | none => none
  | some m1 =>
    match new_entry with
    | none => some (m1, none)
    | some entry =>
      match m1.entries entry with
      | some _ => none
      | none => install_entry url buffer now entry m1

/-! ## Cache: the list a memory represents -/

/-- The node o is allocated and has the given prev and next pointers. -/
def linked (o : Option cache_entry_t) (pv nx : Option Nat) : Prop :=
  match o with
  | none => False
  | some e => e.prev = pv ∧ e.next = nx

instance linked_decidable (o : Option cache_entry_t) (pv nx : Option Nat) :
    Decidable (linked o pv nx) := by
  cases o with
  | none => exact isFalse (fun h => h)
  | some e => exact inferInstanceAs (Decidable (e.prev = pv ∧ e.next = nx))

/-- The nodes ps form a doubly linked chain in the heap h: the first has prev
pointer prev, the last has next pointer nxt, and neighbours point at each
other. -/
def seg (h : Nat → Option cache_entry_t) : Option Nat → List Nat → Option Nat → Prop
  | _, [], _ => True
  | prev, p :: rest, nxt => linked (h p) prev (rest.head?.or nxt) ∧ seg h (some p) rest nxt

instance seg_decidable (h : Nat → Option cache_entry_t) :
    (prev : Option Nat) → (ps : List Nat) → (nxt : Option Nat) → Decidable (seg h prev ps nxt)
  | _, [], _ => isTrue trivial
  | prev, p :: rest, nxt =>
    match linked_decidable (h p) prev (rest.head?.or nxt), seg_decidable h (some p) rest nxt with
    | isTrue h1, isTrue h2 => isTrue ⟨h1, h2⟩
    | isFalse h1, _ => isFalse (fun hh => h1 hh.1)
    | _, isFalse h2 => isFalse (fun hh => h2 hh.2)

/-- The memory m is well formed and its LRU list, from head (least recently used)
to tail (most recently used), is the list of nodes ps. -/
def LruList (m : Memory) (ps : List Nat) : Prop :=
  m.global_cache.head = ps.head? ∧ m.global_cache.tail = ps.getLast? ∧ ps.Nodup ∧
    seg m.entries none ps none

instance LruList_decidable (m : Memory) (ps : List Nat) : Decidable (LruList m ps) :=
  inferInstanceAs (Decidable (_ ∧ _ ∧ _ ∧ _))

/-- The url, buffer and timestamp of the node at address p. -/
def payload (m : Memory) (p : Nat) : Option (String × Nat × Int) :=
  (m.entries p).map fun e => (e.url, e.buffer, e.timestamp)

/-- The memory m2 differs from m at most in prev and next pointers of nodes and in
head and tail: the buffers, count and the url, buffer and timestamp of every
node are the same. -/
def SameData (m m2 : Memory) : Prop :=
  m2.buffers = m.buffers ∧ m2.global_cache.count = m.global_cache.count ∧
    ∀ q, payload m2 q = payload m q

/-- Memories the program can reach: it starts with an empty cache, calls
cache_find and cache_add (every call that returns is a step), and between
calls the rest of the program may change the stream buffers. -/
inductive CacheReachable : Memory → Prop
  | init (entries : Nat → Option cache_entry_t) (buffers : Nat → Option stream_buffer_t) :
      CacheReachable
        { entries := entries, buffers := buffers,
          global_cache := { head := none, tail := none, count := 0 } }
  | find (fuel : Nat) (url : String) (now : Int) (m m2 : Memory) (r : Option Nat) :
      CacheReachable m → cache_find fuel url now m = some (m2, r) → CacheReachable m2
  | add (url : String) (buffer : Nat) (now : Int) (new_entry : Option Nat) (m m2 : Memory)
      (r : Option Nat) :
      CacheReachable m → cache_add url buffer now new_entry m = some (m2, r) →
      CacheReachable m2
  | env (m : Memory) (buffers : Nat → Option stream_buffer_t) :
      CacheReachable m → CacheReachable { m with buffers := buffers }

/-- A memory whose cache lists node 1 (url "u", stored at time 0) before node 2
(url "v", stored at time 5); the buffers at 100 and 200 have no readers. -/
def mem_two : Memory :=
  { entries := fun a =>
      if a = 1 then
        some { url := "u", buffer := 100, timestamp := 0, prev := none, next := some 2 }
      else if a = 2 then
        some { url := "v", buffer := 200, timestamp := 5, prev := some 1, next := none }
      else none
    buffers := fun a =>
      if a = 100 ∨ a = 200 then
        some { data := [], size := 0, capacity := 0, complete := 0, error := 0, readers := 0 }
      else none
    global_cache := { head := some 1, tail := some 2, count := 2 } }

/-- The memory that cache_find("u") at time 10 leaves when started in mem_two. -/
def mem_two_promoted : Memory :=
  match cache_find 5 "u" 10 mem_two with
  | some r => r.1
  | none => mem_two

/-- A memory whose cache is full: the nodes 1, ..., 50 in this order, node a with
url "u", timestamp 0 and the buffer at 1000 + a, which has no readers. -/
def mem_full : Memory :=
  { entries := fun a =>
      if 1 ≤ a ∧ a ≤ 50 then
        some { url := "u", buffer := 1000 + a, timestamp := 0
               prev := if a = 1 then none else some (a - 1)
               next := if a = 50 then none else some (a + 1) }
      else none
    buffers := fun a =>
      if 1001 ≤ a ∧ a ≤ 1050 then
        some { data := [], size := 0, capacity := 0, complete := 1, error := 0, readers := 0 }
      else none
    global_cache := { head := some 1, tail := some 50, count := 50 } }

/-- The memory at program start: nothing allocated, the cache empty. -/
def mem_empty : Memory :=
  { entries := fun _ => none, buffers := fun _ => none,
    global_cache := { head := none, tail := none, count := 0 } }

/-- A memory where each of the addresses 100 and 200 holds a fresh stream buffer. -/
def mem_two_buffers : Memory :=
  { mem_empty with
    buffers := fun a =>
      if a = 100 ∨ a = 200 then
        some { data := [], size := 0, capacity := 0, complete := 0, error := 0, readers := 0 }
      else none }

/-- The memory after the first request for "u": cache_add("u", buffer 100) at time
0 with the fresh node 1, started in mem_two_buffers. -/
def mem_first_add : Memory :=
  match cache_add "u" 100 0 (some 1) mem_two_buffers with
  | some r => r.1
  | none => mem_two_buffers

/-- The memory after the second request for "u", made once the first entry has
expired: cache_add("u", buffer 200) at time 301 with the fresh node 2. -/
def mem_second_add : Memory :=
  match cache_add "u" 200 301 (some 2) mem_first_add with
  | some r => r.1
  | none => mem_first_add

/-! ## Client handler: handle_client -/

/-- The results of the library calls in one run of handle_client: fuel bounds the
walk of cache_find, find_time and add_time are the values of time(NULL) in
cache_find and cache_add, struct_ok and block are the results of the two
malloc calls of create_stream_buffer and buffer_addr the address of the new
struct, new_entry is the result of malloc in cache_add, dl_args_ok tells
whether malloc of the download arguments succeeded and thread_ok whether
pthread_create returned 0. -/
structure client_env where
  fuel : Nat
  find_time : Int
  add_time : Int
  struct_ok : Bool
  block : Option (Nat → Nat)
  buffer_addr : Nat
  new_entry : Option Nat
  dl_args_ok : Bool
  thread_ok : Bool

/-- How a run of handle_client ends for its client. closed: nothing was read, the
socket is closed (line 394). bad_request: the 400 answer (line 405).
serve_cached: the complete buffer is written from the cache (lines 415-427).
stream: stream_to_client on the buffer of an entry that is still being
downloaded (lines 429-434). internal_error: the 500 answer (lines 439, 448).
dropped: the socket is closed without an answer after malloc of the download
arguments or pthread_create failed (lines 455-459, 468-477). download: a
download_thread for the new buffer was started and the client streams from
it (lines 478-481). -/
inductive client_outcome
  | closed
  | bad_request
  | serve_cached (buffer : Nat)
  | stream (buffer : Nat)
  | internal_error
  | dropped
  | download (buffer : Nat)
  deriving DecidableEq

/-- Where handle_client stands after lines 404-434: answered already, or on its
way to the miss path with the key url. -/
inductive lookup_result
  | answered (outcome : client_outcome)
  | miss (url : String)
  deriving DecidableEq

/-- Lines 404-434 of handle_client: the request is parsed, the key is printed into
url, cache_find is called and the flags of the buffer found decide the
branch. An entry whose buffer is complete with the error flag set falls
through to the miss path. Reading through a pointer to freed memory gives the
result none. -/
def client_lookup (env : client_env) (request : List Char) (m : Memory) :
    Option (Memory × lookup_result) :=
  match parse_http_request request 256 1024 with
  | none => none
  | some parse_result.bad => some (m, lookup_result.answered client_outcome.bad_request)
  | some (parse_result.ok host path port) =>
    let url := make_key host port path
    match cache_find env.fuel url env.find_time m with
    | none => none
    | some (m1, none) => some (m1, lookup_result.miss url)
    | some (m1, some cached) =>
      match m1.entries cached with
      | none => none
      | some e =>
        match m1.buffers e.buffer with
        | none => none
        | some b =>
          if b.complete ≠ 0 ∧ b.error = 0 then
            some (m1, lookup_result.answered (client_outcome.serve_cached e.buffer))
          else if b.complete = 0 then
            some (m1, lookup_result.answered (client_outcome.stream e.buffer))
          else some (m1, lookup_result.miss url)

/-- Lines 436-481 of handle_client, the miss path: a buffer is created and added to
the cache under url, the download arguments are allocated and the download
thread is started. malloc never returns the address of a live buffer: such
an argument describes no run. -/
def client_install (env : client_env) (url : String) (m : Memory) :
    Option (Memory × client_outcome) :=
  match create_stream_buffer env.struct_ok env.block with
  | none => some (m, client_outcome.internal_error)
  | some b =>
    match m.buffers env.buffer_addr with
    | some _ => none
    | none =>
      let m1 : Memory := { m with buffers := Function.update m.buffers env.buffer_addr (some b) }
      match cache_add url env.buffer_addr env.add_time env.new_entry m1 with
      | none => none
      | some (m2, none) =>
        some (free_stream_buffer m2 env.buffer_addr, client_outcome.internal_error)
      | some (m2, some _) =>
        if env.dl_args_ok then
          if env.thread_ok then some (m2, client_outcome.download env.buffer_addr)
          else some (free_stream_buffer m2 env.buffer_addr, client_outcome.dropped)
        else some (free_stream_buffer m2 env.buffer_addr, client_outcome.dropped)

/-- Function handle_client run without another thread in between: total is the
number of bytes read from the socket and request the string they form. The
result is the memory after the run and the way the client was answered; the
bytes written to the socket are those of stream_to_client for the buffer
named in the outcome. -/
def handle_client (env : client_env) (total : Nat) (request : List Char) (m : Memory) :
    Option (Memory × client_outcome) :=
  if total = 0 then some (m, client_outcome.closed)
  else
    match client_lookup env request m with
    | none => none
    | some (m1, lookup_result.answered o) => some (m1, o)
    | some (m1, lookup_result.miss url) => client_install env url m1

/-! ## Client handlers running side by side -/

/-- Where a thread running handle_client stands: before the call of cache_find,
between the return of cache_find (a miss for url) and the call of cache_add,
or at its end. -/
inductive client_state
  | start
  | missed (url : String)
  | finished (outcome : client_outcome)
  deriving DecidableEq

/-- A thread running handle_client. -/
structure client where
  env : client_env
  total : Nat
  request : List Char
  state : client_state

/-- One step of a client thread. cache_find and cache_add each hold the lock of
global_cache from entry to return and handle_client holds no lock between
them, so a thread runs lines 404-434 as one step and lines 436-481 as the
next, and other threads may run between the two. -/
def client_step (c : client) (m : Memory) : Option (Memory × client) :=
  match c.state with
  | client_state.start =>
    if c.total = 0 then some (m, { c with state := client_state.finished client_outcome.closed })
    else
      match client_lookup c.env c.request m with
      | none => none
      | some (m1, lookup_result.answered o) =>
        some (m1, { c with state := client_state.finished o })
      | some (m1, lookup_result.miss url) => some (m1, { c with state := client_state.missed url })
  | client_state.missed url =>
    match client_install c.env url m with
    | none => none
    | some (m1, o) => some (m1, { c with state := client_state.finished o })
  | client_state.finished _ => some (m, c)

/-- The memory and the client threads of the proxy. -/
structure proxy_state where
  mem : Memory
  clients : List client

/-- The thread number i takes its next step. -/
def sched_step (s : proxy_state) (i : Nat) : Option proxy_state :=
  match s.clients.get? i with
  | none => none
  | some c =>
    match client_step c s.mem with
    | none => none
    | some (m, c2) => some { mem := m, clients := s.clients.set i c2 }

/-- The threads step in the order the schedule lists them. -/
def run_schedule : List Nat → proxy_state → Option proxy_state
  | [], s => some s
  | i :: rest, s =>
    match sched_step s i with
    | none => none
    | some s2 => run_schedule rest s2

/-- The states of the client threads. -/
def client_states (s : proxy_state) : List client_state :=
  s.clients.map fun c => c.state

/-- The number of download threads the clients have started. -/
def producers_started (s : proxy_state) : Nat :=
  (s.clients.filter fun c =>
    match c.state with
    | client_state.finished (client_outcome.download _) => true
    | _ => false).length

/-- The nodes among ps whose key is url. -/
def entries_for (url : String) (m : Memory) (ps : List Nat) : List Nat :=
  ps.filter fun p =>
    match m.entries p with
    | some e => decide (e.url = url)
    | none => false

/-- The library results for the client number k of the examples: the buffer at
address 100 * k and the node at address k. -/
def env_of (k : Nat) (dl_args_ok thread_ok : Bool) : client_env :=
  { fuel := 60, find_time := 0, add_time := 0, struct_ok := true,
    block := some (fun _ => 0), buffer_addr := 100 * k, new_entry := some k,
    dl_args_ok := dl_args_ok, thread_ok := thread_ok }

/-- The request of the examples. -/
def request_a : List Char :=
  "GET http://example.test/a HTTP/1.0".toList ++ crlf ++ crlf

/-- Two clients that ask for the same URL while the cache is empty. -/
def two_clients : proxy_state :=
  { mem := mem_empty
    clients :=
      [{ env := env_of 1 true true, total := 38, request := request_a,
         state := client_state.start },
       { env := env_of 2 true true, total := 38, request := request_a,
         state := client_state.start }] }

/-- The proxy after both clients of two_clients have looked the URL up before
either has added it. -/
def two_clients_raced : proxy_state :=
  match run_schedule [0, 1, 0, 1] two_clients with
  | some s => s
  | none => two_clients

/-- The proxy after the clients of two_clients have run one after the other. -/
def two_clients_in_turn : proxy_state :=
  match run_schedule [0, 0, 1, 1] two_clients with
  | some s => s
  | none => two_clients

/-- The memory after a client asked for the URL of request_a while the cache was
empty and pthread_create failed. -/
def mem_thread_failed : Memory :=
  match handle_client (env_of 1 true false) 38 request_a mem_empty with
  | some r => r.1
  | none => mem_empty

/-! ## Stream buffer: auxiliary facts -/

theorem length_alloc_block (old : List Nat) (n : Nat) (junk : Nat → Nat) :
    (alloc_block old n junk).length = n := by
  simp [alloc_block]
  omega

theorem take_alloc_block (old : List Nat) (n k : Nat) (junk : Nat → Nat)
    (hk : k ≤ old.length) (hn : old.length ≤ n) :
    (alloc_block old n junk).take k = old.take k := by
  unfold alloc_block
  rw [List.take_of_length_le hn, List.take_append_of_le_length hk]

theorem grow_loop_ge (fuel c need n : Nat) (h : grow_loop fuel c need = some n) : need ≤ n := by
  induction fuel generalizing c with
  | zero => simp [grow_loop] at h
  | succ f ih =>
    unfold grow_loop at h
    split_ifs at h with hc
    · exact ih _ h
    · simp at h; omega

theorem grow_loop_shape (fuel c need n : Nat) (h : grow_loop fuel c need = some n)
    (hc : c < 2 * need) (hm : 2 * need ≤ SIZE_MOD) :
    n < 2 * need ∧ ∃ k, n = c * 2 ^ k := by
  induction fuel generalizing c with
  | zero => simp [grow_loop] at h
  | succ f ih =>
    unfold grow_loop at h
    split_ifs at h with hlt
    · have hmod : (c * 2) % SIZE_MOD = c * 2 := Nat.mod_eq_of_lt (by omega)
      rw [hmod] at h
      obtain ⟨h1, k, hk⟩ := ih (c * 2) h (by omega)
      exact ⟨h1, k + 1, by rw [hk, pow_succ]; ring⟩
    · simp at h
      subst h
      exact ⟨hc, 0, by simp⟩

theorem grow_loop_returns (fuel c need : Nat) (h0 : 0 < c) (hc : c < 2 * need)
    (hm : 2 * need ≤ SIZE_MOD) (hf : need ≤ c * 2 ^ fuel) :
    ∃ n, grow_loop (fuel + 1) c need = some n := by
  induction fuel generalizing c with
  | zero =>
    refine ⟨c, ?_⟩
    unfold grow_loop
    simp at hf
    simp [Nat.not_lt.mpr hf]
  | succ f ih =>
    unfold grow_loop
    split_ifs with hlt
    · have hmod : (c * 2) % SIZE_MOD = c * 2 := Nat.mod_eq_of_lt (by omega)
      rw [hmod]
      apply ih (c * 2) (by omega) (by omega)
      rw [pow_succ] at hf
      calc need ≤ c * (2 ^ f * 2) := hf
        _ = c * 2 * 2 ^ f := by ring
    · exact ⟨c, rfl⟩

theorem grow_loop_zero (need : Nat) (h : 0 < need) (fuel : Nat) :
    grow_loop fuel 0 need = none := by
  induction fuel with
  | zero => rfl
  | succ f ih =>
    unfold grow_loop
    rw [if_pos h]
    simpa using ih

theorem grow_loop_fuel_aux (need : Nat) (k : Nat) :
    ∀ j c, k + j = 64 → 2 ^ j ∣ c → c < SIZE_MOD →
      ∀ f, k + 1 ≤ f → grow_loop f c need = grow_loop (k + 1) c need := by
  have hS : SIZE_MOD = 2 ^ 64 := by norm_num [SIZE_MOD]
  induction k with
  | zero =>
    intro j c hj hdvd hc f hf
    have hj64 : j = 64 := by omega
    subst hj64
    have hc0 : c = 0 := Nat.eq_zero_of_dvd_of_lt hdvd (by rw [← hS]; exact hc)
    subst hc0
    obtain ⟨f2, rfl⟩ : ∃ f2, f = f2 + 1 := ⟨f - 1, by omega⟩
    unfold grow_loop
    by_cases hn : 0 < need
    · rw [if_pos hn, if_pos hn]
      simp only [Nat.zero_mul, Nat.zero_mod]
      rw [grow_loop_zero need hn, grow_loop_zero need hn]
    · rw [if_neg hn, if_neg hn]
  | succ k ih =>
    intro j c hj hdvd hc f hf
    obtain ⟨f2, rfl⟩ : ∃ f2, f = f2 + 1 := ⟨f - 1, by omega⟩
    unfold grow_loop
    by_cases hn : c < need
    · rw [if_pos hn, if_pos hn]
      apply ih (j + 1) ((c * 2) % SIZE_MOD) (by omega)
      · have h1 : 2 ^ (j + 1) ∣ SIZE_MOD := by
          rw [hS]
          exact pow_dvd_pow 2 (by omega)
        rw [Nat.dvd_mod_iff h1, pow_succ]
        exact Nat.mul_dvd_mul_right hdvd 2
      · exact Nat.mod_lt _ (by rw [hS]; positivity)
      · omega
    · rw [if_neg hn, if_neg hn]

/-- The bound of 65 tests in stream_buffer_append loses nothing: with more fuel the
loop gives the same result, so the result none stands for a loop that never
exits. -/
theorem grow_loop_fuel (c need fuel : Nat) (hc : c < SIZE_MOD) (hf : 65 ≤ fuel) :
    grow_loop fuel c need = grow_loop 65 c need :=
  grow_loop_fuel_aux need 64 0 c rfl (by simp) hc fuel hf

/-- What a returning stream_buffer_append did: either it failed and only set
error, or it stored the chunk, with the capacity kept or grown by the loop. -/
theorem append_cases (b b2 : stream_buffer_t) (chunk : List Nat) (nd : Option (Nat → Nat))
    (ret : Int) (h : stream_buffer_append b chunk nd = some (b2, ret)) :
    (ret = -1 ∧ b2 = { b with error := 1 } ∧
      (MAX_RESPONSE_SIZE < (b.size + chunk.length) % SIZE_MOD ∨ nd = none)) ∨
    (ret = 0 ∧ (b.size + chunk.length) % SIZE_MOD ≤ MAX_RESPONSE_SIZE ∧
      b2.size = (b.size + chunk.length) % SIZE_MOD ∧
      b2.complete = b.complete ∧ b2.error = b.error ∧ b2.readers = b.readers ∧
      ((b2.capacity = b.capacity ∧ (b.size + chunk.length) % SIZE_MOD ≤ b.capacity) ∨
       (b.capacity < (b.size + chunk.length) % SIZE_MOD ∧
        grow_loop 65 ((b.capacity * 2) % SIZE_MOD) ((b.size + chunk.length) % SIZE_MOD)
          = some b2.capacity))) := by
  unfold stream_buffer_append at h
  simp only [gt_iff_lt] at h
  split_ifs at h with h1 h2
  · simp only [Option.some.injEq, Prod.mk.injEq] at h
    exact Or.inl ⟨h.2.symm, h.1.symm, Or.inl h1⟩
  · cases hg : grow_loop 65 ((b.capacity * 2) % SIZE_MOD) ((b.size + chunk.length) % SIZE_MOD) with
    | none => simp [hg] at h
    | some n =>
      simp only [hg] at h
      cases nd with
      | none =>
        simp only [Option.some.injEq, Prod.mk.injEq] at h
        exact Or.inl ⟨h.2.symm, h.1.symm, Or.inr rfl⟩
      | some junk =>
        simp only [append_copy] at h
        split_ifs at h with h3
        simp only [Option.some.injEq, Prod.mk.injEq] at h
        obtain ⟨hb, hr⟩ := h
        subst hb
        exact Or.inr ⟨hr.symm, Nat.le_of_not_lt h1, rfl, rfl, rfl, rfl, Or.inr ⟨h2, rfl⟩⟩
  · simp only [append_copy] at h
    split_ifs at h with h3
    simp only [Option.some.injEq, Prod.mk.injEq] at h
    obtain ⟨hb, hr⟩ := h
    subst hb
    exact Or.inr ⟨hr.symm, Nat.le_of_not_lt h1, rfl, rfl, rfl, rfl, Or.inl ⟨rfl, Nat.le_of_not_lt h2⟩⟩

/-- C1: for a buffer b and a chunk whose lengths add up without leaving size_t (both
are objects of one 64-bit address space), and realloc succeeding,
stream_buffer_append returns -1 exactly when size + len exceeds
MAX_RESPONSE_SIZE = 104857600; the buffer it leaves then has error = 1 and
the old size, capacity and bytes. -/
theorem C1_append_fails_iff_over_limit (b : stream_buffer_t) (chunk : List Nat)
    (junk : Nat → Nat) (hfit : b.size + chunk.length < SIZE_MOD) :
    MAX_RESPONSE_SIZE = 104857600 ∧
    ((∃ b2, stream_buffer_append b chunk (some junk) = some (b2, -1)) ↔
      b.size + chunk.length > MAX_RESPONSE_SIZE) ∧
    (∀ b2, stream_buffer_append b chunk (some junk) = some (b2, -1) →
      b2.error = 1 ∧ b2.size = b.size ∧ b2.capacity = b.capacity ∧ b2.data = b.data ∧
      b2.data.take b2.size = b.data.take b.size) := by
  have hneed : (b.size + chunk.length) % SIZE_MOD = b.size + chunk.length :=
    Nat.mod_eq_of_lt hfit
  refine ⟨rfl, ⟨?_, ?_⟩, ?_⟩
  · rintro ⟨b2, h⟩
    rcases append_cases b b2 chunk (some junk) (-1) h with ⟨_, _, h3⟩ | ⟨h1, _⟩
    · rcases h3 with h3 | h3
      · rw [hneed] at h3
        exact h3
      · cases h3
    · cases h1
  · intro hgt
    refine ⟨{ b with error := 1 }, ?_⟩
    unfold stream_buffer_append
    simp only [hneed, gt_iff_lt]
    rw [if_pos hgt]
  · intro b2 h
    rcases append_cases b b2 chunk (some junk) (-1) h with ⟨_, h2, _⟩ | ⟨h1, _⟩
    · subst h2
      exact ⟨rfl, rfl, rfl, rfl, rfl⟩
    · cases h1

/-- Witness of C1: a chunk of three bytes offered to a buffer holding two. -/
theorem C1_append_fails_iff_over_limit_witness :
    MAX_RESPONSE_SIZE = 104857600 ∧
    ((∃ b2, stream_buffer_append buf_small [1, 2, 3] (some fun _ => 0) = some (b2, -1)) ↔
      buf_small.size + [1, 2, 3].length > MAX_RESPONSE_SIZE) ∧
    (∀ b2, stream_buffer_append buf_small [1, 2, 3] (some fun _ => 0) = some (b2, -1) →
      b2.error = 1 ∧ b2.size = buf_small.size ∧ b2.capacity = buf_small.capacity ∧
      b2.data = buf_small.data ∧ b2.data.take b2.size = buf_small.data.take buf_small.size) :=
  C1_append_fails_iff_over_limit buf_small [1, 2, 3] (fun _ => 0) (by decide)

/-- The bytes written by the memcpy of stream_buffer_append: the chunk lands at
offset size and the bytes before it stay. -/
theorem copy_bytes (data chunk : List Nat) (size : Nat)
    (hfit : size + chunk.length ≤ data.length) :
    (data.take size ++ chunk ++ data.drop (size + chunk.length)).take size = data.take size ∧
    ((data.take size ++ chunk ++ data.drop (size + chunk.length)).drop size).take chunk.length
      = chunk ∧
    (data.take size ++ chunk ++ data.drop (size + chunk.length)).length = data.length := by
  have hlen : (data.take size).length = size := by
    rw [List.length_take]
    omega
  refine ⟨?_, ?_, ?_⟩
  · rw [List.append_assoc, List.take_left' hlen]
  · rw [List.append_assoc, List.drop_left' hlen, List.take_left' rfl]
  · simp only [List.length_append, List.length_take, List.length_drop]
    omega

/-- A chunk that fits under MAX_RESPONSE_SIZE makes stream_buffer_append return 0 on
a well-formed buffer: the chunk is copied into a block blk of cap bytes that
starts with the old bytes (the old block, or the one realloc returned). -/
theorem append_returns (b : stream_buffer_t) (c : List Nat) (junk : Nat → Nat)
    (hblock : b.data.length = b.capacity) (hsize : b.size ≤ b.capacity)
    (hcap : 0 < b.capacity) (hmax : b.size + c.length ≤ MAX_RESPONSE_SIZE) :
    ∃ (blk : List Nat) (cap : Nat), blk.length = cap ∧ b.size + c.length ≤ cap ∧
      blk.take b.size = b.data.take b.size ∧
      stream_buffer_append b c (some junk) =
        some ({ b with
                data := blk.take b.size ++ c ++ blk.drop (b.size + c.length)
                capacity := cap
                size := b.size + c.length }, 0) := by
  have hM : MAX_RESPONSE_SIZE = 104857600 := rfl
  have hS : SIZE_MOD = 18446744073709551616 := rfl
  have hneed : (b.size + c.length) % SIZE_MOD = b.size + c.length :=
    Nat.mod_eq_of_lt (by omega)
  unfold stream_buffer_append
  simp only [hneed, gt_iff_lt]
  rw [if_neg (by omega)]
  split_ifs with hgrow
  · have hdouble : (b.capacity * 2) % SIZE_MOD = b.capacity * 2 :=
      Nat.mod_eq_of_lt (by omega)
    obtain ⟨n, hn⟩ := grow_loop_returns 64 (b.capacity * 2) (b.size + c.length)
      (by omega) (by omega) (by omega)
      (by
        have h1 : 1 ≤ b.capacity * 2 := by omega
        calc b.size + c.length ≤ 1 * 2 ^ 64 := by norm_num; omega
          _ ≤ b.capacity * 2 * 2 ^ 64 := Nat.mul_le_mul_right _ h1)
    have hge := grow_loop_ge _ _ _ _ hn
    rw [hdouble, hn]
    simp only [append_copy, length_alloc_block, hneed]
    rw [if_pos hge]
    exact ⟨alloc_block b.data n junk, n, length_alloc_block _ _ _, hge,
      take_alloc_block b.data n b.size junk (by omega) (by omega), rfl⟩
  · have hfit : b.size + c.length ≤ b.data.length := by omega
    simp only [append_copy, hneed]
    rw [if_pos hfit]
    exact ⟨b.data, b.capacity, hblock, by omega, rfl, rfl⟩

/-- C2: for a well-formed buffer b (the block has capacity bytes, size is within
it, capacity is positive) and a chunk c with size + |c| within
MAX_RESPONSE_SIZE, realloc succeeding, stream_buffer_append returns 0; after
it size = old size + |c|, the bytes [old size, old size + |c|) are c, the
bytes [0, old size) are the old ones, and complete, error and readers are
unchanged. -/
theorem C2_append_stores_chunk (b : stream_buffer_t) (c : List Nat) (junk : Nat → Nat)
    (hblock : b.data.length = b.capacity) (hsize : b.size ≤ b.capacity)
    (hcap : 0 < b.capacity) (hmax : b.size + c.length ≤ MAX_RESPONSE_SIZE) :
    ∃ b2, stream_buffer_append b c (some junk) = some (b2, 0) ∧
      b2.size = b.size + c.length ∧
      (b2.data.drop b.size).take c.length = c ∧
      b2.data.take b.size = b.data.take b.size ∧
      b2.complete = b.complete ∧ b2.error = b.error ∧ b2.readers = b.readers := by
  obtain ⟨blk, cap, hlen, hle, htake, happ⟩ :=
    append_returns b c junk hblock hsize hcap hmax
  have hcopy := copy_bytes blk c b.size (by rw [hlen]; exact hle)
  refine ⟨_, happ, rfl, ?_, ?_, rfl, rfl, rfl⟩
  · exact hcopy.2.1
  · exact hcopy.1.trans htake

/-- Witness of C2: three bytes appended to a buffer of capacity four that holds
two, which makes the block grow. -/
theorem C2_append_stores_chunk_witness :
    ∃ b2, stream_buffer_append buf_small [1, 2, 3] (some fun _ => 0) = some (b2, 0) ∧
      b2.size = buf_small.size + [1, 2, 3].length ∧
      (b2.data.drop buf_small.size).take [1, 2, 3].length = [1, 2, 3] ∧
      b2.data.take buf_small.size = buf_small.data.take buf_small.size ∧
      b2.complete = buf_small.complete ∧ b2.error = buf_small.error ∧
      b2.readers = buf_small.readers :=
  C2_append_stores_chunk buf_small [1, 2, 3] (fun _ => 0) (by decide) (by decide) (by decide)
    (by decide)

/-- A returning stream_buffer_append keeps size within capacity. -/
theorem append_size_le (b b2 : stream_buffer_t) (chunk : List Nat) (nd : Option (Nat → Nat))
    (ret : Int) (h : stream_buffer_append b chunk nd = some (b2, ret))
    (hinv : b.size ≤ b.capacity) : b2.size ≤ b2.capacity := by
  rcases append_cases b b2 chunk nd ret h with ⟨_, h2, _⟩ | ⟨_, _, hs, _, _, _, hc⟩
  · subst h2
    exact hinv
  · rcases hc with ⟨hc1, hc2⟩ | ⟨_, hc2⟩
    · rw [hs, hc1]
      exact hc2
    · rw [hs]
      exact grow_loop_ge _ _ _ _ hc2

/-- C3: every buffer reachable from create_stream_buffer by calls of
stream_buffer_append and stream_buffer_complete, successful or failing, has
0 <= size <= capacity. -/
theorem C3_size_le_capacity (b : stream_buffer_t) (h : BufReachable b) :
    0 ≤ b.size ∧ b.size ≤ b.capacity := by
  refine ⟨Nat.zero_le _, ?_⟩
  induction h with
  | create ok block b hb =>
    unfold create_stream_buffer at hb
    split_ifs at hb
    cases block with
    | none => simp at hb
    | some junk =>
      simp only [Option.some.injEq] at hb
      subst hb
      exact Nat.zero_le _
  | append b data nd b2 ret _ happ ih => exact append_size_le b b2 data nd ret happ ih
  | complete b _ ih => exact ih

/-- Witness of C3: the buffer just created, completed. -/
theorem C3_size_le_capacity_witness :
    0 ≤ (stream_buffer_complete buf_fresh).size ∧
      (stream_buffer_complete buf_fresh).size ≤ (stream_buffer_complete buf_fresh).capacity :=
  C3_size_le_capacity (stream_buffer_complete buf_fresh)
    (BufReachable.complete buf_fresh
      (BufReachable.create true (some fun _ => 0) buf_fresh rfl))

/-- Counterexample to C4: one append of 2^26 + 1 bytes to a fresh buffer succeeds
and doubles the capacity from 16384 up to 2^27 = 134217728, which is above
MAX_RESPONSE_SIZE = 104857600. -/
theorem C4_counterexample :
    ∃ b2, stream_buffer_append buf_fresh (List.replicate 67108865 0) (some fun _ => 0)
        = some (b2, 0) ∧
      AppendReachable b2 ∧ b2.capacity = 134217728 ∧ ¬ b2.capacity ≤ MAX_RESPONSE_SIZE := by
  obtain ⟨blk, cap, _, _, _, h⟩ :=
    append_returns buf_fresh (List.replicate 67108865 0) (fun _ => 0)
      (length_alloc_block _ _ _) (by decide) (by decide)
      (by rw [List.length_replicate]; decide)
  generalize hb2 : ({ buf_fresh with
      data := blk.take buf_fresh.size ++ List.replicate 67108865 0 ++
        blk.drop (buf_fresh.size + (List.replicate 67108865 0).length)
      capacity := cap
      size := buf_fresh.size + (List.replicate 67108865 0).length } : stream_buffer_t) = b2 at h
  have hreach : AppendReachable b2 :=
    AppendReachable.append buf_fresh _ _ b2 0
      (AppendReachable.create true (some fun _ => 0) buf_fresh rfl) h
  have hcap : b2.capacity = 134217728 := by
    rcases append_cases _ _ _ _ _ h with ⟨h1, _⟩ | ⟨_, _, _, _, _, _, hc⟩
    · cases h1
    · rw [List.length_replicate] at hc
      rcases hc with ⟨_, hc2⟩ | ⟨_, hc2⟩
      · exact absurd hc2 (by decide)
      · have hg : grow_loop 65 ((buf_fresh.capacity * 2) % SIZE_MOD)
            ((buf_fresh.size + 67108865) % SIZE_MOD) = some 134217728 := by decide
        rw [hg] at hc2
        exact (Option.some.inj hc2).symm
  refine ⟨b2, h, hreach, hcap, ?_⟩
  rw [hcap]
  decide

/-- A returning stream_buffer_append keeps the capacity of the form 16384 * 2^k and
below twice MAX_RESPONSE_SIZE, and the size within MAX_RESPONSE_SIZE. -/
theorem append_capacity_shape (b b2 : stream_buffer_t) (chunk : List Nat)
    (nd : Option (Nat → Nat)) (ret : Int)
    (h : stream_buffer_append b chunk nd = some (b2, ret))
    (hinv : (∃ k, b.capacity = 16384 * 2 ^ k) ∧ b.capacity < 2 * MAX_RESPONSE_SIZE ∧
      b.size ≤ MAX_RESPONSE_SIZE) :
    (∃ k, b2.capacity = 16384 * 2 ^ k) ∧ b2.capacity < 2 * MAX_RESPONSE_SIZE ∧
      b2.size ≤ MAX_RESPONSE_SIZE := by
  have hM : MAX_RESPONSE_SIZE = 104857600 := rfl
  have hS : SIZE_MOD = 18446744073709551616 := rfl
  rcases append_cases b b2 chunk nd ret h with ⟨_, h2, _⟩ | ⟨_, hle, hs, _, _, _, hc⟩
  · subst h2
    exact hinv
  · obtain ⟨⟨k, hk⟩, hlt, _⟩ := hinv
    rcases hc with ⟨hc1, _⟩ | ⟨hc1, hc2⟩
    · rw [hs, hc1]
      exact ⟨⟨k, hk⟩, hlt, hle⟩
    · have hdouble : (b.capacity * 2) % SIZE_MOD = b.capacity * 2 :=
        Nat.mod_eq_of_lt (by omega)
      rw [hdouble] at hc2
      obtain ⟨h1, j, hj⟩ := grow_loop_shape _ _ _ _ hc2 (by omega) (by omega)
      refine ⟨⟨k + (j + 1), ?_⟩, by omega, by omega⟩
      rw [hj, hk, pow_add, pow_succ]
      ring

/-- Every buffer reachable by appends has a capacity of the form 16384 * 2^k below
twice MAX_RESPONSE_SIZE and a size within MAX_RESPONSE_SIZE. -/
theorem append_reachable_shape (b : stream_buffer_t) (h : AppendReachable b) :
    (∃ k, b.capacity = 16384 * 2 ^ k) ∧ b.capacity < 2 * MAX_RESPONSE_SIZE ∧
      b.size ≤ MAX_RESPONSE_SIZE := by
  induction h with
  | create ok block b hb =>
    unfold create_stream_buffer at hb
    split_ifs at hb
    cases block with
    | none => simp at hb
    | some junk =>
      simp only [Option.some.injEq] at hb
      subst hb
      refine ⟨⟨0, rfl⟩, ?_, ?_⟩
      · show BUFFER_SIZE * 4 < 2 * MAX_RESPONSE_SIZE
        decide
      · show 0 ≤ MAX_RESPONSE_SIZE
        decide
  | append b data nd b2 ret _ happ ih => exact append_capacity_shape b b2 data nd ret happ ih

/-- C4 as amended: every buffer reachable from create_stream_buffer by calls of
stream_buffer_append has capacity 16384 * 2^k for some k, capacity at most
2^27 = 134217728 (the first such value that is not below MAX_RESPONSE_SIZE)
and size at most MAX_RESPONSE_SIZE. -/
theorem C4_capacity_bound (b : stream_buffer_t) (h : AppendReachable b) :
    (∃ k, b.capacity = 16384 * 2 ^ k) ∧ b.capacity ≤ 134217728 ∧
      b.size ≤ MAX_RESPONSE_SIZE := by
  have hM : MAX_RESPONSE_SIZE = 104857600 := rfl
  obtain ⟨⟨k, hk⟩, hlt, hs⟩ := append_reachable_shape b h
  refine ⟨⟨k, hk⟩, ?_, hs⟩
  have hk13 : k ≤ 13 := by
    by_contra hcon
    have h14 : 2 ^ 14 ≤ 2 ^ k := Nat.pow_le_pow_right (by norm_num) (by omega)
    have : (2 : Nat) ^ 14 = 16384 := by norm_num
    omega
  have h13 : 2 ^ k ≤ 2 ^ 13 := Nat.pow_le_pow_right (by norm_num) hk13
  have : (2 : Nat) ^ 13 = 8192 := by norm_num
  omega

/-- Appends of 4096 bytes, the chunk size of download_thread, reach every size
4096 * n within MAX_RESPONSE_SIZE and keep the buffer well formed. -/
theorem reach_by_chunks (n : Nat) (hn : 4096 * n ≤ MAX_RESPONSE_SIZE) :
    ∃ b, AppendReachable b ∧ b.size = 4096 * n ∧ b.data.length = b.capacity ∧
      0 < b.capacity ∧ b.size ≤ b.capacity := by
  induction n with
  | zero =>
    exact ⟨buf_fresh, AppendReachable.create true (some fun _ => 0) buf_fresh rfl, rfl,
      length_alloc_block _ _ _, by decide, by decide⟩
  | succ n ih =>
    obtain ⟨b, hr, hs, hblock, hcap, hle⟩ := ih (by omega)
    have hlen : (List.replicate 4096 0).length = 4096 := List.length_replicate _ _
    obtain ⟨blk, cap, hblk, hfit, _, happ⟩ :=
      append_returns b (List.replicate 4096 0) (fun _ => 0) hblock hle hcap
        (by rw [hlen, hs]; omega)
    have hcopy := copy_bytes blk (List.replicate 4096 0) b.size (by rw [hblk]; exact hfit)
    refine ⟨_, AppendReachable.append b _ _ _ 0 hr happ, ?_, ?_, ?_, ?_⟩
    · show b.size + (List.replicate 4096 0).length = 4096 * (n + 1)
      rw [hlen, hs]
      ring
    · exact hcopy.2.2.trans hblk
    · show 0 < cap
      rw [hlen] at hfit
      omega
    · exact hfit

/-- The capacity passes MAX_RESPONSE_SIZE also when the bytes arrive as download_thread
delivers them: after 16385 appends of 4096 bytes the size is 67112960 and the
capacity is above 104857600. -/
theorem capacity_exceeds_limit_by_chunks :
    ∃ b, AppendReachable b ∧ b.size = 4096 * 16385 ∧ MAX_RESPONSE_SIZE < b.capacity := by
  have hM : MAX_RESPONSE_SIZE = 104857600 := rfl
  obtain ⟨b, hr, hs, _, _, hle⟩ := reach_by_chunks 16385 (by decide)
  obtain ⟨⟨k, hk⟩, _, _⟩ := append_reachable_shape b hr
  refine ⟨b, hr, hs, ?_⟩
  have hk13 : 13 ≤ k := by
    by_contra hcon
    have h12 : 2 ^ k ≤ 2 ^ 12 := Nat.pow_le_pow_right (by norm_num) (by omega)
    have : (2 : Nat) ^ 12 = 4096 := by norm_num
    omega
  have h13 : 2 ^ 13 ≤ 2 ^ k := Nat.pow_le_pow_right (by norm_num) hk13
  have : (2 : Nat) ^ 13 = 8192 := by norm_num
  omega

/-- Witness of C4 as amended: the buffer just created. -/
theorem C4_capacity_bound_witness :
    (∃ k, buf_fresh.capacity = 16384 * 2 ^ k) ∧ buf_fresh.capacity ≤ 134217728 ∧
      buf_fresh.size ≤ MAX_RESPONSE_SIZE :=
  C4_capacity_bound buf_fresh (AppendReachable.create true (some fun _ => 0) buf_fresh rfl)

/-- Counterexample to C5: a created buffer is completed (complete = 1, size = 0);
stream_buffer_append with the one-byte chunk [9] then returns 0 and leaves
size = 1. -/
theorem C5_counterexample :
    (stream_buffer_complete buf_fresh).complete = 1 ∧
    (stream_buffer_complete buf_fresh).size = 0 ∧
    BufReachable (stream_buffer_complete buf_fresh) ∧
    ∃ b2, stream_buffer_append (stream_buffer_complete buf_fresh) [9] (some fun _ => 0)
        = some (b2, 0) ∧ b2.size = 1 ∧ b2.size ≠ (stream_buffer_complete buf_fresh).size := by
  refine ⟨rfl, rfl, BufReachable.complete buf_fresh
    (BufReachable.create true (some fun _ => 0) buf_fresh rfl), ?_⟩
  obtain ⟨blk, cap, _, _, _, h⟩ :=
    append_returns (stream_buffer_complete buf_fresh) [9] (fun _ => 0)
      (length_alloc_block _ _ _) (by decide) (by decide) (by decide)
  refine ⟨_, h, rfl, ?_⟩
  show (stream_buffer_complete buf_fresh).size + [9].length ≠ (stream_buffer_complete buf_fresh).size
  decide

/-- The flag complete is not read by stream_buffer_append: the call on a buffer
with another value of complete does the same and hands that value on. -/
theorem append_ignores_complete (b : stream_buffer_t) (chunk : List Nat)
    (nd : Option (Nat → Nat)) (v : Int) :
    stream_buffer_append { b with complete := v } chunk nd =
      (stream_buffer_append b chunk nd).map fun r => ({ r.1 with complete := v }, r.2) := by
  unfold stream_buffer_append
  simp only [gt_iff_lt]
  split_ifs with h1 h2
  · rfl
  · cases grow_loop 65 ((b.capacity * 2) % SIZE_MOD) ((b.size + chunk.length) % SIZE_MOD) with
    | none => rfl
    | some n =>
      cases nd with
      | none => rfl
      | some junk =>
        simp only [append_copy]
        split_ifs <;> rfl
  · simp only [append_copy]
    split_ifs <;> rfl

/-- C5 as amended: on a buffer whose complete flag is set, stream_buffer_complete
changes nothing and a failing stream_buffer_append leaves size unchanged,
while a stream_buffer_append that returns 0 stores the chunk as on an open
buffer (size becomes size + len): the function does not read complete, and
complete stays set. -/
theorem C5_size_after_complete (b : stream_buffer_t) (hc : b.complete = 1) :
    stream_buffer_complete b = b ∧
    (∀ chunk nd b2 ret, stream_buffer_append b chunk nd = some (b2, ret) →
      b2.complete = 1 ∧ (ret = -1 → b2.size = b.size) ∧
      (ret = 0 → b2.size = (b.size + chunk.length) % SIZE_MOD) ∧ (ret = -1 ∨ ret = 0)) ∧
    (∀ chunk nd,
      stream_buffer_append b chunk nd =
        (stream_buffer_append { b with complete := 0 } chunk nd).map
          fun r => ({ r.1 with complete := 1 }, r.2)) := by
  refine ⟨?_, ?_, ?_⟩
  · cases b
    simp only [stream_buffer_complete] at hc ⊢
    rw [hc]
  · intro chunk nd b2 ret h
    rcases append_cases b b2 chunk nd ret h with ⟨h1, h2, _⟩ | ⟨h1, _, hs, hcomp, _⟩
    · subst h2
      subst h1
      exact ⟨hc, fun _ => rfl, fun h0 => absurd h0 (by decide), Or.inl rfl⟩
    · subst h1
      exact ⟨hcomp.trans hc, fun h0 => absurd h0 (by decide), fun _ => hs, Or.inr rfl⟩
  · intro chunk nd
    have h := append_ignores_complete { b with complete := 0 } chunk nd 1
    have hb : ({ ({ b with complete := 0 } : stream_buffer_t) with complete := 1 }
        : stream_buffer_t) = b := by
      cases b
      simp only at hc ⊢
      rw [hc]
    rw [hb] at h
    exact h

/-- Witness of C5 as amended: the created buffer after stream_buffer_complete. -/
theorem C5_size_after_complete_witness :
    stream_buffer_complete (stream_buffer_complete buf_fresh) = stream_buffer_complete buf_fresh ∧
    (∀ chunk nd b2 ret,
      stream_buffer_append (stream_buffer_complete buf_fresh) chunk nd = some (b2, ret) →
      b2.complete = 1 ∧ (ret = -1 → b2.size = (stream_buffer_complete buf_fresh).size) ∧
      (ret = 0 → b2.size = ((stream_buffer_complete buf_fresh).size + chunk.length) % SIZE_MOD) ∧
      (ret = -1 ∨ ret = 0)) ∧
    (∀ chunk nd,
      stream_buffer_append (stream_buffer_complete buf_fresh) chunk nd =
        (stream_buffer_append { stream_buffer_complete buf_fresh with complete := 0 } chunk nd).map
          fun r => ({ r.1 with complete := 1 }, r.2)) :=
  C5_size_after_complete (stream_buffer_complete buf_fresh) rfl

/-! ## Cache: auxiliary facts on chains -/

theorem linked_iff (o : Option cache_entry_t) (pv nx : Option Nat) :
    linked o pv nx ↔ ∃ e, o = some e ∧ e.prev = pv ∧ e.next = nx := by
  cases o with
  | none => simp [linked]
  | some e => simp [linked]

theorem seg_congr (h h2 : Nat → Option cache_entry_t) (prev : Option Nat) (ps : List Nat)
    (nxt : Option Nat) (hsame : ∀ p ∈ ps, h2 p = h p) :
    seg h2 prev ps nxt ↔ seg h prev ps nxt := by
  induction ps generalizing prev with
  | nil => simp [seg]
  | cons p rest ih =>
    simp only [seg]
    rw [hsame p (List.mem_cons_self _ _),
      ih (some p) (fun q hq => hsame q (List.mem_cons_of_mem _ hq))]

theorem seg_append (h : Nat → Option cache_entry_t) (prev : Option Nat) (A B : List Nat)
    (nxt : Option Nat) :
    seg h prev (A ++ B) nxt ↔ seg h prev A (B.head?.or nxt) ∧ seg h (A.getLast?.or prev) B nxt := by
  induction A generalizing prev with
  | nil => simp [seg]
  | cons a A2 ih =>
    have hlast : (a :: A2).getLast?.or prev = A2.getLast?.or (some a) := by
      cases A2 with
      | nil => simp
      | cons x xs =>
        rw [List.getLast?_cons_cons]
        cases hx : (x :: xs).getLast? with
        | none => simp at hx
        | some y => simp
    have hhead : (A2 ++ B).head?.or nxt = A2.head?.or (B.head?.or nxt) := by
      cases A2 <;> simp
    show linked (h a) prev ((A2 ++ B).head?.or nxt) ∧ seg h (some a) (A2 ++ B) nxt ↔
      (linked (h a) prev (A2.head?.or (B.head?.or nxt)) ∧ seg h (some a) A2 (B.head?.or nxt)) ∧
        seg h ((a :: A2).getLast?.or prev) B nxt
    rw [ih (some a), hlast, hhead, and_assoc]

theorem seg_alloc (h : Nat → Option cache_entry_t) (prev : Option Nat) (ps : List Nat)
    (nxt : Option Nat) (hs : seg h prev ps nxt) (p : Nat) (hp : p ∈ ps) :
    ∃ e, h p = some e := by
  induction ps generalizing prev with
  | nil => simp at hp
  | cons q rest ih =>
    simp only [seg] at hs
    rcases List.mem_cons.mp hp with rfl | hin
    · obtain ⟨e, he, _⟩ := (linked_iff _ _ _).mp hs.1
      exact ⟨e, he⟩
    · exact ih (some q) hs.2 hin

/-- Writing the next pointer of the last node of a chain changes the chain's exit
pointer only. -/
theorem seg_set_last (h : Nat → Option cache_entry_t) (prev : Option Nat) (A : List Nat)
    (a : Nat) (nxt v : Option Nat) (hs : seg h prev (A ++ [a]) nxt) (hnd : (A ++ [a]).Nodup) :
    ∃ ea, h a = some ea ∧
      seg (Function.update h a (some { ea with next := v })) prev (A ++ [a]) v := by
  rw [seg_append] at hs
  obtain ⟨hA, ha⟩ := hs
  simp only [seg, List.head?_nil, Option.none_or, and_true] at ha
  obtain ⟨ea, hea, hp, _⟩ := (linked_iff _ _ _).mp ha
  refine ⟨ea, hea, ?_⟩
  rw [seg_append]
  have hnot : a ∉ A := by
    intro hin
    have := List.nodup_append.mp hnd
    exact this.2.2 hin (List.mem_singleton_self a)
  constructor
  · rw [seg_congr h]
    · exact hA
    · intro p hp2
      exact Function.update_noteq (fun (hpa : p = a) => hnot (hpa ▸ hp2)) _ _
  · simp only [seg, List.head?_nil, Option.none_or, and_true, Function.update_same]
    exact ⟨hp, rfl⟩

/-- Writing the prev pointer of the first node of a chain changes the chain's entry
pointer only. -/
theorem seg_set_first (h : Nat → Option cache_entry_t) (prev : Option Nat) (b : Nat)
    (B : List Nat) (nxt v : Option Nat) (hs : seg h prev (b :: B) nxt) (hnd : (b :: B).Nodup) :
    ∃ eb, h b = some eb ∧
      seg (Function.update h b (some { eb with prev := v })) v (b :: B) nxt := by
  simp only [seg] at hs
  obtain ⟨hb, hB⟩ := hs
  obtain ⟨eb, heb, _, hn⟩ := (linked_iff _ _ _).mp hb
  refine ⟨eb, heb, ?_⟩
  have hnot : b ∉ B := (List.nodup_cons.mp hnd).1
  simp only [seg, Function.update_same]
  constructor
  · exact ⟨rfl, hn⟩
  · rw [seg_congr h]
    · exact hB
    · intro p hp2
      exact Function.update_noteq (fun (hpb : p = b) => hnot (hpb ▸ hp2)) _ _

/-! ## Cache: the pointer assignments -/

theorem SameData.refl (m : Memory) : SameData m m := ⟨rfl, rfl, fun _ => rfl⟩

theorem SameData.trans {m m2 m3 : Memory} (h1 : SameData m m2) (h2 : SameData m2 m3) :
    SameData m m3 :=
  ⟨h2.1.trans h1.1, h2.2.1.trans h1.2.1, fun q => (h2.2.2 q).trans (h1.2.2 q)⟩

theorem set_next_spec (m : Memory) (p : Nat) (v : Option Nat) (e : cache_entry_t)
    (h : m.entries p = some e) :
    ∃ m2, set_next m p v = some m2 ∧
      m2.entries = Function.update m.entries p (some { e with next := v }) ∧
      m2.global_cache = m.global_cache ∧ SameData m m2 := by
  refine ⟨{ m with entries := Function.update m.entries p (some { e with next := v }) },
    by simp [set_next, h], rfl, rfl, rfl, rfl, ?_⟩
  intro q
  by_cases hq : q = p
  · subst hq
    simp [payload, h]
  · simp [payload, Function.update_noteq hq]

theorem set_prev_spec (m : Memory) (p : Nat) (v : Option Nat) (e : cache_entry_t)
    (h : m.entries p = some e) :
    ∃ m2, set_prev m p v = some m2 ∧
      m2.entries = Function.update m.entries p (some { e with prev := v }) ∧
      m2.global_cache = m.global_cache ∧ SameData m m2 := by
  refine ⟨{ m with entries := Function.update m.entries p (some { e with prev := v }) },
    by simp [set_prev, h], rfl, rfl, rfl, rfl, ?_⟩
  intro q
  by_cases hq : q = p
  · subst hq
    simp [payload, h]
  · simp [payload, Function.update_noteq hq]

/-- Line 176 on a chain A that ends just before entry: the chain now exits to the
old successor of entry, nothing else changes. -/
theorem unlink_prev_spec (m : Memory) (entry : Nat) (ee : cache_entry_t) (A : List Nat)
    (prev nxt : Option Nat) (he : m.entries entry = some ee) (hprev : ee.prev = A.getLast?)
    (hA : seg m.entries prev A nxt) (hnd : A.Nodup) :
    ∃ m2, unlink_prev entry m = some m2 ∧ seg m2.entries prev A ee.next ∧
      (∀ q, q ∉ A → m2.entries q = m.entries q) ∧
      m2.global_cache = m.global_cache ∧ SameData m m2 := by
  rcases List.eq_nil_or_concat A with hnil | ⟨A2, a, hcat⟩
  · subst hnil
    refine ⟨m, ?_, trivial, fun _ _ => rfl, rfl, SameData.refl m⟩
    simp only [List.getLast?_nil] at hprev
    simp [unlink_prev, he, hprev]
  · rw [List.concat_eq_append] at hcat
    subst hcat
    rw [List.getLast?_concat] at hprev
    obtain ⟨ea, hea, hs⟩ := seg_set_last m.entries prev A2 a nxt ee.next hA hnd
    obtain ⟨m2, hm2, hent, hgc, hsd⟩ := set_next_spec m a ee.next ea hea
    refine ⟨m2, ?_, ?_, ?_, hgc, hsd⟩
    · simp [unlink_prev, he, hprev, hm2]
    · rw [hent]
      exact hs
    · intro q hq
      rw [hent]
      exact Function.update_noteq (fun (hqa : q = a) => hq (by simp [hqa])) _ _

/-- Line 177 on a chain B that starts just after entry: the chain is now entered
from the old predecessor of entry, nothing else changes. -/
theorem unlink_next_spec (m : Memory) (entry : Nat) (ee : cache_entry_t) (B : List Nat)
    (prev nxt : Option Nat) (he : m.entries entry = some ee) (hnext : ee.next = B.head?)
    (hB : seg m.entries prev B nxt) (hnd : B.Nodup) :
    ∃ m2, unlink_next entry m = some m2 ∧ seg m2.entries ee.prev B nxt ∧
      (∀ q, q ∉ B → m2.entries q = m.entries q) ∧
      m2.global_cache = m.global_cache ∧ SameData m m2 := by
  cases B with
  | nil =>
    refine ⟨m, ?_, trivial, fun _ _ => rfl, rfl, SameData.refl m⟩
    simp only [List.head?_nil] at hnext
    simp [unlink_next, he, hnext]
  | cons b B2 =>
    simp only [List.head?_cons] at hnext
    obtain ⟨eb, heb, hs⟩ := seg_set_first m.entries prev b B2 nxt ee.prev hB hnd
    obtain ⟨m2, hm2, hent, hgc, hsd⟩ := set_prev_spec m b ee.prev eb heb
    refine ⟨m2, ?_, ?_, ?_, hgc, hsd⟩
    · simp [unlink_next, he, hnext, hm2]
    · rw [hent]
      exact hs
    · intro q hq
      rw [hent]
      exact Function.update_noteq (fun (hqb : q = b) => hq (by simp [hqb])) _ _

/-- Line 182 on a chain L whose last node is the tail: the chain now exits to
entry, nothing else changes. -/
theorem link_tail_spec (m : Memory) (entry : Nat) (L : List Nat) (prev nxt : Option Nat)
    (htail : m.global_cache.tail = L.getLast?) (hL : seg m.entries prev L nxt)
    (hnd : L.Nodup) :
    ∃ m2, link_tail entry m = some m2 ∧ seg m2.entries prev L (some entry) ∧
      (∀ q, q ∉ L → m2.entries q = m.entries q) ∧
      m2.global_cache = m.global_cache ∧ SameData m m2 := by
  rcases List.eq_nil_or_concat L with hnil | ⟨L2, t, hcat⟩
  · subst hnil
    refine ⟨m, ?_, trivial, fun _ _ => rfl, rfl, SameData.refl m⟩
    simp only [List.getLast?_nil] at htail
    simp [link_tail, htail]
  · rw [List.concat_eq_append] at hcat
    subst hcat
    rw [List.getLast?_concat] at htail
    obtain ⟨et, het, hs⟩ := seg_set_last m.entries prev L2 t nxt (some entry) hL hnd
    obtain ⟨m2, hm2, hent, hgc, hsd⟩ := set_next_spec m t (some entry) et het
    refine ⟨m2, ?_, ?_, ?_, hgc, hsd⟩
    · simp [link_tail, htail, hm2]
    · rw [hent]
      exact hs
    · intro q hq
      rw [hent]
      exact Function.update_noteq (fun (hqt : q = t) => hq (by simp [hqt])) _ _

/-- Lines 180-181: entry gets the tail as prev and NULL as next, nothing else
changes. -/
theorem link_entry_spec (m : Memory) (entry : Nat) (ee : cache_entry_t)
    (he : m.entries entry = some ee) :
    ∃ m2, link_entry entry m = some m2 ∧
      linked (m2.entries entry) m.global_cache.tail none ∧
      (∀ q, q ≠ entry → m2.entries q = m.entries q) ∧
      m2.global_cache = m.global_cache ∧ SameData m m2 := by
  obtain ⟨m1, hm1, hent1, hgc1, hsd1⟩ := set_prev_spec m entry m.global_cache.tail ee he
  have he1 : m1.entries entry = some { ee with prev := m.global_cache.tail } := by
    rw [hent1, Function.update_same]
  obtain ⟨m2, hm2, hent2, hgc2, hsd2⟩ := set_next_spec m1 entry none _ he1
  refine ⟨m2, ?_, ?_, ?_, hgc2.trans hgc1, hsd1.trans hsd2⟩
  · simp [link_entry, hm1, hm2]
  · rw [hent2, Function.update_same]
    exact ⟨rfl, rfl⟩
  · intro q hq
    rw [hent2, Function.update_noteq hq, hent1, Function.update_noteq hq]

/-- The promotion of cache_find on a well-formed list: the node entry moves from
its place to the tail and the other nodes keep their order. -/
theorem move_to_tail_spec (m : Memory) (A B : List Nat) (entry : Nat)
    (hl : LruList m (A ++ entry :: B)) :
    ∃ m2, move_to_tail m entry = some m2 ∧ LruList m2 (A ++ B ++ [entry]) ∧ SameData m m2 := by
  obtain ⟨hhead, htail, hnd, hseg⟩ := hl
  by_cases hB : B = []
  · subst hB
    refine ⟨m, ?_, ?_, SameData.refl m⟩
    · have ht : m.global_cache.tail = some entry := by
        rw [htail, List.getLast?_concat]
      simp [move_to_tail, ht]
    · rw [List.append_nil]
      exact ⟨hhead, htail, hnd, hseg⟩
  · -- the pieces of the list
    have hndA : A.Nodup := (List.nodup_append.mp hnd).1
    have hndeB : (entry :: B).Nodup := (List.nodup_append.mp hnd).2.1
    have hndB : B.Nodup := (List.nodup_cons.mp hndeB).2
    have heB : entry ∉ B := (List.nodup_cons.mp hndeB).1
    have hdisj : ∀ q, q ∈ A → q ∉ entry :: B := fun q hq hq2 =>
      (List.nodup_append.mp hnd).2.2 hq hq2
    have heA : entry ∉ A := fun hin => hdisj entry hin (List.mem_cons_self _ _)
    have hAB : ∀ q, q ∈ A → q ∉ B := fun q hq hq2 => hdisj q hq (List.mem_cons_of_mem _ hq2)
    have hndAB : (A ++ B).Nodup :=
      List.nodup_append.mpr ⟨hndA, hndB, fun q hq hq2 => hAB q hq hq2⟩
    have heAB : entry ∉ A ++ B := fun hin =>
      (List.mem_append.mp hin).elim heA heB
    obtain ⟨t, ht⟩ : ∃ t, B.getLast? = some t := by
      cases hg : B.getLast? with
      | none => exact absurd (List.getLast?_eq_none_iff.mp hg) hB
      | some t => exact ⟨t, rfl⟩
    have htB : t ∈ B := List.mem_of_mem_getLast? ht
    have hte : t ≠ entry := fun h => heB (h ▸ htB)
    have htail2 : m.global_cache.tail = some t := by
      rw [htail, List.getLast?_append_of_ne_nil _ (List.cons_ne_nil _ _)]
      cases B with
      | nil => exact absurd rfl hB
      | cons b B2 => rw [List.getLast?_cons_cons]; exact ht
    -- the chain, cut at entry
    rw [seg_append] at hseg
    obtain ⟨hA, hE⟩ := hseg
    simp only [List.head?_cons, Option.or_some, Option.or_none, seg] at hA hE
    obtain ⟨hlinked, hBseg⟩ := hE
    obtain ⟨ee, hee, hprev, hnext⟩ := (linked_iff _ _ _).mp hlinked
    -- line 176
    obtain ⟨m1, hm1, hA1, hfr1, hgc1, hsd1⟩ :=
      unlink_prev_spec m entry ee A none (some entry) hee hprev hA hndA
    have hee1 : m1.entries entry = some ee := (hfr1 entry heA).trans hee
    have hB1 : seg m1.entries (some entry) B none := by
      rw [seg_congr m.entries]
      · exact hBseg
      · intro q hq
        exact hfr1 q (fun hqA => hAB q hqA hq)
    -- line 177
    obtain ⟨m2, hm2, hB2, hfr2, hgc2, hsd2⟩ :=
      unlink_next_spec m1 entry ee B (some entry) none hee1 hnext hB1 hndB
    have hee2 : m2.entries entry = some ee := (hfr2 entry heB).trans hee1
    have hA2 : seg m2.entries none A ee.next := by
      rw [seg_congr m1.entries]
      · exact hA1
      · intro q hq
        exact hfr2 q (hAB q hq)
    have hAB2 : seg m2.entries none (A ++ B) none := by
      rw [seg_append]
      simp only [Option.or_none]
      rw [← hnext, ← hprev]
      exact ⟨hA2, hB2⟩
    -- line 178
    have hhead3 : ∃ m3, unlink_head entry m2 = some m3 ∧ m3.entries = m2.entries ∧
        m3.buffers = m2.buffers ∧ m3.global_cache.head = (A ++ B).head? ∧
        m3.global_cache.tail = some t ∧ m3.global_cache.count = m.global_cache.count := by
      unfold unlink_head
      rw [hgc2, hgc1, hhead]
      cases A with
      | nil =>
        simp only [List.nil_append, List.head?_cons, if_true, hee2]
        exact ⟨_, rfl, rfl, rfl, hnext, by simp [hgc2, hgc1, htail2], by simp [hgc2, hgc1]⟩
      | cons a A2 =>
        have hae : a ≠ entry := fun h => heA (h ▸ List.mem_cons_self _ _)
        simp only [List.cons_append, List.head?_cons, Option.some.injEq, hae, if_false]
        exact ⟨_, rfl, rfl, rfl, by rw [hgc2, hgc1, hhead]; rfl, by rw [hgc2, hgc1, htail2],
          by rw [hgc2, hgc1]⟩
    obtain ⟨m3, hm3, hent3, hbuf3, hhd3, htl3, hcnt3⟩ := hhead3
    have hsd3 : SameData m2 m3 := ⟨hbuf3, by rw [hcnt3, hgc2, hgc1], fun q => by
      simp [payload, hent3]⟩
    -- lines 180-181
    obtain ⟨m4, hm4, hl4, hfr4, hgc4, hsd4⟩ :=
      link_entry_spec m3 entry ee (by rw [hent3]; exact hee2)
    have hAB4 : seg m4.entries none (A ++ B) none := by
      rw [seg_congr m2.entries]
      · exact hAB2
      · intro q hq
        rw [hfr4 q (fun h => heAB (h ▸ hq)), hent3]
    -- line 182
    have htl4 : m4.global_cache.tail = (A ++ B).getLast? := by
      rw [hgc4, htl3, List.getLast?_append_of_ne_nil _ hB, ht]
    obtain ⟨m5, hm5, hAB5, hfr5, hgc5, hsd5⟩ :=
      link_tail_spec m4 entry (A ++ B) none none htl4 hAB4 hndAB
    have hl5 : linked (m5.entries entry) (some t) none := by
      rw [hfr5 entry heAB, ← htl3]
      exact hl4
    -- lines 183-184
    have hne : (A ++ B) ≠ [] := fun h => hB (List.append_eq_nil.mp h).2
    have hhd5 : m5.global_cache.head = (A ++ B).head? := by
      rw [hgc5, hgc4, hhd3]
    have hhd5ne : m5.global_cache.head ≠ none := by
      rw [hhd5]
      intro h
      exact hne (List.head?_eq_none_iff.mp h)
    refine ⟨set_tail entry m5, ?_, ⟨?_, ?_, ?_, ?_⟩, ?_⟩
    · have hif : some entry ≠ m.global_cache.tail := by
        rw [htail2]
        intro h
        exact hte (Option.some.inj h).symm
      simp [move_to_tail, hif, hm1, hm2, hm3, hm4, hm5]
    · simp only [set_tail, hhd5ne, if_false]
      rw [hhd5, List.head?_append_of_ne_nil _ hne]
    · simp only [set_tail, hhd5ne, if_false]
      rw [List.getLast?_concat]
    · rw [List.nodup_append]
      refine ⟨hndAB, List.nodup_singleton _, ?_⟩
      intro q hq hq2
      rw [List.mem_singleton] at hq2
      exact heAB (hq2 ▸ hq)
    · have hent : (set_tail entry m5).entries = m5.entries := by
        simp only [set_tail]
        split_ifs <;> rfl
      rw [hent, seg_append]
      refine ⟨hAB5, ?_⟩
      rw [List.getLast?_append_of_ne_nil _ hB, ht]
      simp only [Option.or_some, seg, List.head?_nil, Option.none_or, and_true]
      exact hl5
    · have hsd : SameData m m5 :=
        hsd1.trans (hsd2.trans (hsd3.trans (hsd4.trans hsd5)))
      refine ⟨?_, ?_, ?_⟩
      · simp only [set_tail]
        split_ifs <;> exact hsd.1
      · simp only [set_tail]
        split_ifs <;> exact hsd.2.1
      · intro q
        have : payload (set_tail entry m5) q = payload m5 q := by
          simp only [payload, set_tail]
          split_ifs <;> rfl
        rw [this]
        exact hsd.2.2 q

/-! ## Cache: cache_find -/

theorem set_next_same (m m2 : Memory) (p : Nat) (v : Option Nat)
    (h : set_next m p v = some m2) : SameData m m2 := by
  cases he : m.entries p with
  | none => simp [set_next, he] at h
  | some e =>
    obtain ⟨m3, hm3, _, _, hsd⟩ := set_next_spec m p v e he
    rw [h] at hm3
    cases hm3
    exact hsd

theorem set_prev_same (m m2 : Memory) (p : Nat) (v : Option Nat)
    (h : set_prev m p v = some m2) : SameData m m2 := by
  cases he : m.entries p with
  | none => simp [set_prev, he] at h
  | some e =>
    obtain ⟨m3, hm3, _, _, hsd⟩ := set_prev_spec m p v e he
    rw [h] at hm3
    cases hm3
    exact hsd

/-- The promotion never touches a buffer, count, or the url, buffer and timestamp of
a node, whatever the shape of the list. -/
theorem move_to_tail_same (m m2 : Memory) (entry : Nat)
    (h : move_to_tail m entry = some m2) : SameData m m2 := by
  unfold move_to_tail at h
  split_ifs at h with hne
  · cases h1 : unlink_prev entry m with
    | none => simp [h1] at h
    | some m1 =>
      have s1 : SameData m m1 := by
        unfold unlink_prev at h1
        cases he : m.entries entry with
        | none => simp [he] at h1
        | some e =>
          simp only [he] at h1
          cases hp : e.prev with
          | none =>
            simp only [hp, Option.some.injEq] at h1
            subst h1
            exact SameData.refl m
          | some q =>
            simp only [hp] at h1
            exact set_next_same _ _ _ _ h1
      cases h2 : unlink_next entry m1 with
      | none => simp [h1, h2] at h
      | some m3 =>
        have s2 : SameData m1 m3 := by
          unfold unlink_next at h2
          cases he : m1.entries entry with
          | none => simp [he] at h2
          | some e =>
            simp only [he] at h2
            cases hp : e.next with
            | none =>
              simp only [hp, Option.some.injEq] at h2
              subst h2
              exact SameData.refl m1
            | some q =>
              simp only [hp] at h2
              exact set_prev_same _ _ _ _ h2
        cases h3 : unlink_head entry m3 with
        | none => simp [h1, h2, h3] at h
        | some m4 =>
          have s3 : SameData m3 m4 := by
            unfold unlink_head at h3
            split_ifs at h3
            · cases he : m3.entries entry with
              | none => simp [he] at h3
              | some e =>
                simp only [he, Option.some.injEq] at h3
                subst h3
                exact ⟨rfl, rfl, fun _ => rfl⟩
            · simp only [Option.some.injEq] at h3
              subst h3
              exact SameData.refl m3
          cases h4 : link_entry entry m4 with
          | none => simp [h1, h2, h3, h4] at h
          | some m5 =>
            have s4 : SameData m4 m5 := by
              unfold link_entry at h4
              cases hq : set_prev m4 entry m4.global_cache.tail with
              | none => simp [hq] at h4
              | some mq =>
                simp only [hq] at h4
                exact (set_prev_same _ _ _ _ hq).trans (set_next_same _ _ _ _ h4)
            cases h5 : link_tail entry m5 with
            | none => simp [h1, h2, h3, h4, h5] at h
            | some m6 =>
              have s5 : SameData m5 m6 := by
                unfold link_tail at h5
                cases ht : m5.global_cache.tail with
                | none =>
                  simp only [ht, Option.some.injEq] at h5
                  subst h5
                  exact SameData.refl m5
                | some t =>
                  simp only [ht] at h5
                  exact set_next_same _ _ _ _ h5
              simp only [h1, h2, h3, h4, h5, Option.some.injEq] at h
              subst h
              have s6 : SameData m6 (set_tail entry m6) := by
                refine ⟨?_, ?_, ?_⟩
                · simp only [set_tail]
                  split_ifs <;> rfl
                · simp only [set_tail]
                  split_ifs <;> rfl
                · intro q
                  simp only [payload, set_tail]
                  split_ifs <;> rfl
              exact s1.trans (s2.trans (s3.trans (s4.trans (s5.trans s6))))
  · simp only [Option.some.injEq] at h
    subst h
    exact SameData.refl m

/-- A hit of the loop of cache_find: the node returned has the url looked for, is
not older than the TTL, and the memory is the old one with the node promoted. -/
theorem find_loop_hit (url : String) (now : Int) (m m2 : Memory) (fuel : Nat)
    (start : Option Nat) (r : Nat)
    (h : cache_find_loop url now m fuel start = some (m2, some r)) :
    ∃ e, m.entries r = some e ∧ e.url = url ∧ now - e.timestamp ≤ CACHE_TTL ∧
      move_to_tail m r = some m2 := by
  induction fuel generalizing start with
  | zero =>
    cases start with
    | none => simp [cache_find_loop] at h
    | some p => simp [cache_find_loop] at h
  | succ f ih =>
    cases start with
    | none => simp [cache_find_loop] at h
    | some p =>
      unfold cache_find_loop at h
      cases he : m.entries p with
      | none => simp [he] at h
      | some e =>
        simp only [he] at h
        split_ifs at h with hu ht
        · simp at h
        · cases hm : move_to_tail m p with
          | none => simp [hm] at h
          | some m1 =>
            simp only [hm, Option.some.injEq, Prod.mk.injEq] at h
            obtain ⟨h1, h2⟩ := h
            subst h1
            subst h2
            exact ⟨e, he, hu, not_lt.mp ht, hm⟩
        · exact ih _ h

/-- On a chain the loop of cache_find can only return a node of the chain. -/
theorem find_loop_mem (url : String) (now : Int) (m m2 : Memory) (fuel : Nat)
    (prev : Option Nat) (ps : List Nat) (r : Nat) (hs : seg m.entries prev ps none)
    (h : cache_find_loop url now m fuel ps.head? = some (m2, some r)) : r ∈ ps := by
  induction ps generalizing prev fuel with
  | nil => simp [cache_find_loop] at h
  | cons p rest ih =>
    simp only [seg, Option.or_none] at hs
    obtain ⟨e, he, _, hn⟩ := (linked_iff _ _ _).mp hs.1
    cases fuel with
    | zero => simp [cache_find_loop] at h
    | succ f =>
      simp only [List.head?_cons] at h
      unfold cache_find_loop at h
      simp only [he] at h
      split_ifs at h with hu ht
      · simp at h
      · cases hm : move_to_tail m p with
        | none => simp [hm] at h
        | some m1 =>
          simp only [hm, Option.some.injEq, Prod.mk.injEq] at h
          rw [← h.2]
          exact List.mem_cons_self _ _
      · rw [hn] at h
        exact List.mem_cons_of_mem _ (ih f (some p) hs.2 h)

/-- On a well-formed list cache_find returns as soon as fuel covers the list. -/
theorem find_loop_returns (url : String) (now : Int) (m : Memory) (A S : List Nat)
    (fuel : Nat) (hl : LruList m (A ++ S)) (hf : S.length ≤ fuel) :
    ∃ m2 r, cache_find_loop url now m fuel S.head? = some (m2, r) := by
  induction S generalizing A fuel with
  | nil => exact ⟨m, none, by cases fuel <;> simp [cache_find_loop]⟩
  | cons p rest ih =>
    cases fuel with
    | zero => simp at hf
    | succ f =>
      have hseg := hl.2.2.2
      rw [seg_append] at hseg
      have hp := hseg.2
      simp only [seg, Option.or_none] at hp
      obtain ⟨e, he, _, hn⟩ := (linked_iff _ _ _).mp hp.1
      simp only [List.head?_cons]
      unfold cache_find_loop
      simp only [he]
      split_ifs with hu ht
      · exact ⟨m, none, rfl⟩
      · obtain ⟨m2, hm2, _⟩ := move_to_tail_spec m A rest p hl
        exact ⟨m2, some p, by simp [hm2]⟩
      · rw [hn]
        have hl2 : LruList m ((A ++ [p]) ++ rest) := by
          rw [List.append_assoc]
          exact hl
        exact ih (A ++ [p]) f hl2 (by simpa using hf)

/-- C6: when cache_find(url) at time now returns an entry e, the url of e is url
and now - e.timestamp <= CACHE_TTL = 300, in the memory before the call and
in the memory after it: an entry older than the TTL is never returned. -/
theorem C6_find_returns_fresh_match (fuel : Nat) (url : String) (now : Int) (m m2 : Memory)
    (e : Nat) (h : cache_find fuel url now m = some (m2, some e)) :
    CACHE_TTL = 300 ∧
    ∃ ent, m.entries e = some ent ∧ ent.url = url ∧ now - ent.timestamp ≤ CACHE_TTL ∧
      ∃ ent2, m2.entries e = some ent2 ∧ ent2.url = url ∧ now - ent2.timestamp ≤ CACHE_TTL := by
  obtain ⟨ent, hent, hu, ht, hm⟩ := find_loop_hit url now m m2 fuel _ e h
  refine ⟨rfl, ent, hent, hu, ht, ?_⟩
  have hp := (move_to_tail_same m m2 e hm).2.2 e
  simp only [payload, hent, Option.map] at hp
  cases h2 : m2.entries e with
  | none => simp [h2] at hp
  | some ent2 =>
    simp only [h2, Option.some.injEq, Prod.mk.injEq] at hp
    exact ⟨ent2, rfl, hp.1.trans hu, by rw [hp.2.2]; exact ht⟩

/-- Witness of C6: the lookup of "u" at time 10 in mem_two returns node 1. -/
theorem C6_find_returns_fresh_match_witness :
    CACHE_TTL = 300 ∧
    ∃ ent, mem_two.entries 1 = some ent ∧ ent.url = "u" ∧ 10 - ent.timestamp ≤ CACHE_TTL ∧
      ∃ ent2, mem_two_promoted.entries 1 = some ent2 ∧ ent2.url = "u" ∧
        10 - ent2.timestamp ≤ CACHE_TTL :=
  C6_find_returns_fresh_match 5 "u" 10 mem_two mem_two_promoted 1 rfl

/-- A hit of cache_find on a well-formed list ps: the node returned is in ps and is
moved to the end. -/
theorem cache_find_hit_list (fuel : Nat) (url : String) (now : Int) (m m2 : Memory)
    (ps : List Nat) (e : Nat) (hl : LruList m ps)
    (h : cache_find fuel url now m = some (m2, some e)) :
    ∃ A B, ps = A ++ e :: B ∧ LruList m2 (A ++ B ++ [e]) ∧ SameData m m2 := by
  obtain ⟨_, _, _, _, hm⟩ := find_loop_hit url now m m2 fuel _ e h
  have hmem : e ∈ ps := by
    unfold cache_find at h
    rw [hl.1] at h
    exact find_loop_mem url now m m2 fuel none ps e hl.2.2.2 h
  obtain ⟨A, B, hps⟩ := List.append_of_mem hmem
  subst hps
  obtain ⟨m3, hm3, hl3, hsd⟩ := move_to_tail_spec m A B e hl
  rw [hm] at hm3
  cases hm3
  exact ⟨A, B, rfl, hl3, hsd⟩

/-- A miss of cache_find leaves the memory as it was. -/
theorem find_loop_miss (url : String) (now : Int) (m m2 : Memory) (fuel : Nat)
    (start : Option Nat) (h : cache_find_loop url now m fuel start = some (m2, none)) :
    m2 = m := by
  induction fuel generalizing start with
  | zero =>
    cases start with
    | none =>
      simp only [cache_find_loop, Option.some.injEq, Prod.mk.injEq, and_true] at h
      exact h.symm
    | some p => simp [cache_find_loop] at h
  | succ f ih =>
    cases start with
    | none =>
      simp only [cache_find_loop, Option.some.injEq, Prod.mk.injEq, and_true] at h
      exact h.symm
    | some p =>
      unfold cache_find_loop at h
      cases he : m.entries p with
      | none => simp [he] at h
      | some e =>
        simp only [he] at h
        split_ifs at h with hu ht
        · simp only [Option.some.injEq, Prod.mk.injEq, and_true] at h
          exact h.symm
        · cases hm : move_to_tail m p with
          | none => simp [hm] at h
          | some m1 => simp [hm] at h
        · exact ih _ h

/-- C7: on a well-formed cache whose LRU list is ps, a hit of cache_find on entry e
splits ps as A, e, B and leaves the list A, B, e: e is the tail (most
recently used), the other entries keep their relative order, the new list is
a permutation of the old one (it is ps with e erased and put last), and
count, the buffers and the url, buffer and timestamp of every entry are
unchanged. -/
theorem C7_hit_moves_entry_to_tail (fuel : Nat) (url : String) (now : Int) (m m2 : Memory)
    (ps : List Nat) (e : Nat) (hl : LruList m ps)
    (h : cache_find fuel url now m = some (m2, some e)) :
    ∃ A B, ps = A ++ e :: B ∧ LruList m2 (A ++ B ++ [e]) ∧
      m2.global_cache.tail = some e ∧
      A ++ B ++ [e] = ps.erase e ++ [e] ∧ (A ++ B ++ [e]).Perm ps ∧
      m2.global_cache.count = m.global_cache.count ∧ m2.buffers = m.buffers ∧
      ∀ q, payload m2 q = payload m q := by
  obtain ⟨A, B, hps, hl3, hsd⟩ := cache_find_hit_list fuel url now m m2 ps e hl h
  subst hps
  have heA : e ∉ A := fun hin =>
    (List.nodup_append.mp hl.2.2.1).2.2 hin (List.mem_cons_self _ _)
  refine ⟨A, B, rfl, hl3, ?_, ?_, ?_, hsd.2.1, hsd.1, hsd.2.2⟩
  · rw [hl3.2.1, List.getLast?_concat]
  · rw [List.erase_append_right _ heA, List.erase_cons_head]
  · have h1 : (A ++ B ++ [e]).Perm ([e] ++ (A ++ B)) := List.perm_append_comm
    have h2 : (A ++ e :: B).Perm (e :: (A ++ B)) := List.perm_middle
    exact h1.trans h2.symm

/-- Witness of C7: the lookup of "u" at time 10 in mem_two, whose list is 1, 2. -/
theorem C7_hit_moves_entry_to_tail_witness :
    ∃ A B, [1, 2] = A ++ 1 :: B ∧ LruList mem_two_promoted (A ++ B ++ [1]) ∧
      mem_two_promoted.global_cache.tail = some 1 ∧
      A ++ B ++ [1] = [1, 2].erase 1 ++ [1] ∧ (A ++ B ++ [1]).Perm [1, 2] ∧
      mem_two_promoted.global_cache.count = mem_two.global_cache.count ∧
      mem_two_promoted.buffers = mem_two.buffers ∧
      ∀ q, payload mem_two_promoted q = payload mem_two q :=
  C7_hit_moves_entry_to_tail 5 "u" 10 mem_two mem_two_promoted [1, 2] 1 (by decide) rfl

/-- On a well-formed cache cache_find returns once fuel covers the list. -/
theorem cache_find_returns (fuel : Nat) (url : String) (now : Int) (m : Memory)
    (ps : List Nat) (hl : LruList m ps) (hf : ps.length ≤ fuel) :
    ∃ m2 r, cache_find fuel url now m = some (m2, r) := by
  unfold cache_find
  rw [hl.1]
  exact find_loop_returns url now m [] ps fuel hl hf

/-! ## Cache: cache_add -/

/-- Lines 201-207 on a well-formed list: the head node leaves the list. -/
theorem unlink_front_spec (m : Memory) (old : Nat) (rest : List Nat)
    (hl : LruList m (old :: rest)) :
    ∃ oe m2, m.entries old = some oe ∧ unlink_front m old = some m2 ∧
      m2.global_cache.head = rest.head? ∧ m2.global_cache.tail = rest.getLast? ∧
      seg m2.entries none rest none ∧ m2.entries old = some oe ∧
      (∀ q, q ∉ rest → m2.entries q = m.entries q) ∧ SameData m m2 := by
  obtain ⟨_, htail, hnd, hseg⟩ := hl
  have hnot : old ∉ rest := (List.nodup_cons.mp hnd).1
  have hndr : rest.Nodup := (List.nodup_cons.mp hnd).2
  simp only [seg, Option.or_none] at hseg
  obtain ⟨hlk, hrest⟩ := hseg
  obtain ⟨oe, hoe, _, hnext⟩ := (linked_iff _ _ _).mp hlk
  cases rest with
  | nil =>
    simp only [List.head?_nil] at hnext
    refine ⟨oe, { m with global_cache := { m.global_cache with head := none, tail := none } },
      hoe, ?_, rfl, rfl, trivial, hoe, fun _ _ => rfl, rfl, rfl, fun _ => rfl⟩
    simp [unlink_front, hoe, hnext]
  | cons r R =>
    simp only [List.head?_cons] at hnext
    obtain ⟨er, her, hs⟩ := seg_set_first m.entries (some old) r R none none hrest hndr
    obtain ⟨m2, hm2, hent, hgc, hsd⟩ := set_prev_spec
      { m with global_cache := { m.global_cache with head := some r } } r none er her
    have hor : old ≠ r := fun h => hnot (h ▸ List.mem_cons_self _ _)
    refine ⟨oe, m2, hoe, ?_, ?_, ?_, ?_, ?_, ?_, hsd⟩
    · simp only [unlink_front, hoe, hnext]
      exact hm2
    · rw [hgc]
      rfl
    · rw [hgc]
      show m.global_cache.tail = (r :: R).getLast?
      rw [htail, List.getLast?_cons_cons]
    · rw [hent]
      exact hs
    · rw [hent, Function.update_noteq hor]
      exact hoe
    · intro q hq
      rw [hent]
      exact Function.update_noteq (fun (hqr : q = r) => hq (hqr ▸ List.mem_cons_self _ _)) _ _

/-- What one round of the eviction loop does on a well-formed list: if it returns,
the list lost its head and count dropped by one; it returns when the buffer
of the head has no readers. -/
theorem evict_head_spec (m : Memory) (old : Nat) (rest : List Nat)
    (hl : LruList m (old :: rest)) :
    ∃ oe, m.entries old = some oe ∧
      (∀ m2, evict_head m old = some m2 →
        LruList m2 rest ∧
        m2.global_cache.count = size_dec m.global_cache.count ∧
        m2.entries old = none ∧
        m2.buffers = Function.update m.buffers oe.buffer none ∧
        (∀ q, q ≠ old → payload m2 q = payload m q)) ∧
      (∀ b, m.buffers oe.buffer = some b → b.readers ≤ 0 →
        ∃ m2, evict_head m old = some m2) := by
  have hnot : old ∉ rest := (List.nodup_cons.mp hl.2.2.1).1
  have hndr : rest.Nodup := (List.nodup_cons.mp hl.2.2.1).2
  obtain ⟨oe, m1, hoe, hm1, hhd, htl, hseg, hoe1, _, hsd⟩ := unlink_front_spec m old rest hl
  refine ⟨oe, hoe, ?_, ?_⟩
  · intro m2 h
    simp only [evict_head, hm1, release_old, hoe1] at h
    cases hb : m1.buffers oe.buffer with
    | none => simp [hb] at h
    | some b =>
      simp only [hb] at h
      split_ifs at h with hr
      simp only [Option.some.injEq] at h
      subst h
      refine ⟨⟨hhd, htl, hndr, ?_⟩, ?_, ?_, ?_, ?_⟩
      · show seg (Function.update m1.entries old none) none rest none
        rw [seg_congr m1.entries]
        · exact hseg
        · intro q hq
          exact Function.update_noteq (fun (hqo : q = old) => hnot (hqo ▸ hq)) _ _
      · rw [← hsd.2.1]
      · show Function.update m1.entries old none old = none
        rw [Function.update_same]
      · show Function.update m1.buffers oe.buffer none = _
        rw [hsd.1]
      · intro q hq
        rw [← hsd.2.2 q]
        simp only [payload]
        rw [Function.update_noteq hq]
  · intro b hb hr
    rw [← hsd.1] at hb
    have hr2 : ¬ b.readers > 0 := not_lt.mpr hr
    simp only [evict_head, hm1, release_old, hoe1, hb, hr2, if_false]
    exact ⟨_, rfl⟩

/-- The eviction loop on a well-formed list of fewer than 50 nodes does nothing. -/
theorem evict_loop_idle (fuel : Nat) (m : Memory)
    (hlt : m.global_cache.count < MAX_CACHE_SIZE) : evict_loop fuel m = some m := by
  cases fuel with
  | zero => simp [evict_loop, not_le.mpr hlt]
  | succ f => simp [evict_loop, not_le.mpr hlt]

/-- The eviction loop on a well-formed list of exactly 50 nodes is one round. -/
theorem evict_loop_full (m : Memory) (old : Nat) (rest : List Nat)
    (hl : LruList m (old :: rest)) (hcount : m.global_cache.count = MAX_CACHE_SIZE) :
    evict_loop m.global_cache.count m = evict_head m old := by
  have hhead : m.global_cache.head = some old := hl.1
  rw [hcount]
  show evict_loop (49 + 1) m = evict_head m old
  unfold evict_loop
  rw [if_pos (le_of_eq hcount.symm)]
  simp only [hhead]
  cases hev : evict_head m old with
  | none => rfl
  | some m1 =>
    obtain ⟨_, _, hspec, _⟩ := evict_head_spec m old rest hl
    have hc := (hspec m1 hev).2.1
    rw [hcount] at hc
    have h49 : m1.global_cache.count < MAX_CACHE_SIZE := by
      rw [hc]
      decide
    exact evict_loop_idle 49 m1 h49

/-- Lines 229-244 on a well-formed list and a fresh node: the node is appended at
the tail with the given url, buffer and timestamp, and count goes up by one. -/
theorem install_entry_spec (url : String) (buffer : Nat) (now : Int) (p : Nat) (m : Memory)
    (ps : List Nat) (hl : LruList m ps) (hfresh : m.entries p = none) :
    ∃ m2, install_entry url buffer now p m = some (m2, some p) ∧
      LruList m2 (ps ++ [p]) ∧
      m2.global_cache.count = (m.global_cache.count + 1) % SIZE_MOD ∧
      m2.buffers = m.buffers ∧
      payload m2 p = some (url, buffer, now) ∧
      ∀ q, q ≠ p → payload m2 q = payload m q := by
  obtain ⟨hhead, htail, hnd, hseg⟩ := hl
  have hnot : p ∉ ps := by
    intro hin
    obtain ⟨e, he⟩ := seg_alloc _ _ _ _ hseg p hin
    rw [hfresh] at he
    cases he
  have hnd2 : (ps ++ [p]).Nodup := by
    rw [List.nodup_append]
    refine ⟨hnd, List.nodup_singleton _, ?_⟩
    intro q hq hq2
    rw [List.mem_singleton] at hq2
    exact hnot (hq2 ▸ hq)
  have hseg1 : seg (Function.update m.entries p
      (some { url := url, buffer := buffer, timestamp := now,
              prev := m.global_cache.tail, next := none })) none ps none := by
    rw [seg_congr m.entries]
    · exact hseg
    · intro q hq
      exact Function.update_noteq (fun (hqp : q = p) => hnot (hqp ▸ hq)) _ _
  rcases List.eq_nil_or_concat ps with hnil | ⟨L, t, hcat⟩
  · subst hnil
    simp only [List.getLast?_nil] at htail
    simp only [List.head?_nil] at hhead
    refine ⟨{ entries := Function.update m.entries p
                (some { url := url, buffer := buffer, timestamp := now,
                        prev := none, next := none })
              buffers := m.buffers
              global_cache :=
                { head := some p, tail := some p
                  count := (m.global_cache.count + 1) % SIZE_MOD } },
      by simp only [install_entry, htail], ⟨rfl, rfl, hnd2, ?_⟩, rfl, rfl, ?_, ?_⟩
    · simp only [List.nil_append, seg, List.head?_nil, Option.or_none, and_true,
        Function.update_same]
      exact ⟨rfl, rfl⟩
    · simp [payload]
    · intro q hq
      simp [payload, Function.update_noteq hq]
  · rw [List.concat_eq_append] at hcat
    subst hcat
    rw [List.getLast?_concat] at htail
    have htp : t ≠ p := fun h => hnot (by simp [h])
    rw [htail] at hseg1
    obtain ⟨et, het, hs⟩ := seg_set_last _ none L t none (some p) hseg1 hnd
    obtain ⟨m2, hm2, hent, hgc, hsd⟩ := set_next_spec
      { m with
        entries := Function.update m.entries p
          (some { url := url, buffer := buffer, timestamp := now,
                  prev := some t, next := none }) }
      t (some p) et het
    dsimp only at hent hgc
    have hne : L ++ [t] ≠ [] := by simp
    refine ⟨{ m2 with
              global_cache :=
                { m2.global_cache with
                  tail := some p
                  count := (m2.global_cache.count + 1) % SIZE_MOD } },
      by simp only [install_entry, htail, hm2], ⟨?_, ?_, hnd2, ?_⟩, ?_, ?_, ?_, ?_⟩
    · show m2.global_cache.head = _
      rw [hgc, List.head?_append_of_ne_nil _ hne]
      exact hhead
    · show some p = _
      rw [List.getLast?_concat]
    · show seg m2.entries none (L ++ [t] ++ [p]) none
      rw [seg_append]
      refine ⟨by rw [hent]; exact hs, ?_⟩
      rw [List.getLast?_concat]
      simp only [Option.or_some, seg, List.head?_nil, Option.or_none, and_true]
      rw [hent, Function.update_noteq htp.symm, Function.update_same]
      exact ⟨rfl, rfl⟩
    · show (m2.global_cache.count + 1) % SIZE_MOD = _
      rw [hgc]
    · exact hsd.1
    · have h1 := hsd.2.2 p
      simp only [payload] at h1 ⊢
      rw [h1]
      simp
    · intro q hq
      have h1 := hsd.2.2 q
      simp only [payload] at h1 ⊢
      rw [h1]
      simp [Function.update_noteq hq]

/-- The eviction phase of cache_add on a well-formed cache whose count is the length
of its list, at most 50: nothing below 50 nodes, one round at 50. -/
theorem evict_phase (m : Memory) (ps : List Nat) (hl : LruList m ps)
    (hcount : m.global_cache.count = ps.length) (hle : ps.length ≤ MAX_CACHE_SIZE) :
    (ps.length < MAX_CACHE_SIZE → evict_loop m.global_cache.count m = some m) ∧
    (ps.length = MAX_CACHE_SIZE →
      ∃ old rest, ps = old :: rest ∧ evict_loop m.global_cache.count m = evict_head m old) := by
  constructor
  · intro hlt
    exact evict_loop_idle _ m (by rw [hcount]; exact hlt)
  · intro hfull
    cases ps with
    | nil => exact absurd hfull (by decide)
    | cons old rest =>
      exact ⟨old, rest, rfl, evict_loop_full m old rest hl (hcount.trans hfull)⟩

theorem payload_eq_none (m : Memory) (p : Nat) : payload m p = none ↔ m.entries p = none := by
  simp [payload]

/-- C8: on a well-formed cache (list ps, count = length of ps, at most
MAX_CACHE_SIZE = 50) where malloc returns the fresh node p, cache_add(url,
buffer) at time now returns p. With exactly 50 entries and no readers on the
buffer of the head, the head node and its buffer are freed, the other 49
entries stay in their order and unchanged, p is appended at the tail with
(url, buffer, timestamp = now), and count is 50 again. With fewer than 50
entries nothing is removed: the list is ps followed by p and count is one
more. -/
theorem C8_add_evicts_head_when_full (url : String) (buffer : Nat) (now : Int) (p : Nat)
    (m : Memory) (ps : List Nat) (hl : LruList m ps)
    (hcount : m.global_cache.count = ps.length) (hle : ps.length ≤ MAX_CACHE_SIZE)
    (hreaders : ps.length = MAX_CACHE_SIZE →
      ∃ old oe b, ps.head? = some old ∧ m.entries old = some oe ∧
        m.buffers oe.buffer = some b ∧ b.readers = 0)
    (hfresh : m.entries p = none ∨ (ps.length = MAX_CACHE_SIZE ∧ ps.head? = some p)) :
    MAX_CACHE_SIZE = 50 ∧
    ∃ m2, cache_add url buffer now (some p) m = some (m2, some p) ∧
      payload m2 p = some (url, buffer, now) ∧
      (ps.length = MAX_CACHE_SIZE →
        LruList m2 (ps.tail ++ [p]) ∧ m2.global_cache.count = 50 ∧
        (∀ q, q ∈ ps.tail → payload m2 q = payload m q) ∧
        (∀ old oe, ps.head? = some old → m.entries old = some oe →
          m2.buffers = Function.update m.buffers oe.buffer none ∧
          (old ≠ p → m2.entries old = none))) ∧
      (ps.length < MAX_CACHE_SIZE →
        LruList m2 (ps ++ [p]) ∧ m2.global_cache.count = m.global_cache.count + 1 ∧
        m2.buffers = m.buffers ∧ ∀ q, q ∈ ps → payload m2 q = payload m q) := by
  have hS : SIZE_MOD = 18446744073709551616 := rfl
  have hC : MAX_CACHE_SIZE = 50 := rfl
  refine ⟨rfl, ?_⟩
  obtain ⟨hidle, hfullp⟩ := evict_phase m ps hl hcount hle
  rcases Nat.lt_or_ge ps.length MAX_CACHE_SIZE with hlt | hge
  · -- fewer than 50 entries
    have hf : m.entries p = none := by
      rcases hfresh with h | ⟨h, _⟩
      · exact h
      · omega
    obtain ⟨m2, hm2, hl2, hc2, hb2, hp2, hq2⟩ := install_entry_spec url buffer now p m ps hl hf
    refine ⟨m2, ?_, hp2, fun h => by omega, fun _ => ⟨hl2, ?_, hb2, ?_⟩⟩
    · simp only [cache_add, hidle hlt, hf]
      exact hm2
    · rw [hc2]
      exact Nat.mod_eq_of_lt (by omega)
    · intro q hq
      refine hq2 q (fun hqp => ?_)
      obtain ⟨e, he⟩ := seg_alloc _ _ _ _ hl.2.2.2 q hq
      rw [hqp, hf] at he
      cases he
  · -- exactly 50 entries
    have hfull : ps.length = MAX_CACHE_SIZE := le_antisymm hle hge
    obtain ⟨old, rest, hps, hev⟩ := hfullp hfull
    subst hps
    obtain ⟨old2, oe2, b, hh, hoe2, hb, hr⟩ := hreaders hfull
    simp only [List.head?_cons, Option.some.injEq] at hh
    subst hh
    obtain ⟨oe, hoe, hspec, hret⟩ := evict_head_spec m old rest hl
    rw [hoe2] at hoe
    cases hoe
    obtain ⟨m1, hm1⟩ := hret b hb (le_of_eq hr)
    obtain ⟨hl1, hc1, hfreed, hbuf1, hpay1⟩ := hspec m1 hm1
    have hf1 : m1.entries p = none := by
      by_cases hpo : p = old
      · rw [hpo]
        exact hfreed
      · rcases hfresh with h | ⟨_, h⟩
        · rw [← payload_eq_none, hpay1 p hpo, payload_eq_none]
          exact h
        · simp only [List.head?_cons, Option.some.injEq] at h
          exact absurd h.symm hpo
    obtain ⟨m2, hm2, hl2, hc2, hb2, hp2, hq2⟩ :=
      install_entry_spec url buffer now p m1 rest hl1 hf1
    have hnot : old ∉ rest := (List.nodup_cons.mp hl.2.2.1).1
    refine ⟨m2, ?_, hp2, fun _ => ⟨hl2, ?_, ?_, ?_⟩, fun h => by omega⟩
    · simp only [cache_add, hev, hm1, hf1]
      exact hm2
    · rw [hc2, hc1, hcount, hfull]
      decide
    · intro q hq
      have hqp : q ≠ p := by
        intro hqp
        obtain ⟨e, he⟩ := seg_alloc _ _ _ _ hl1.2.2.2 q hq
        rw [hqp, hf1] at he
        cases he
      rw [hq2 q hqp]
      exact hpay1 q (fun hqo => hnot (hqo ▸ hq))
    · intro old3 oe3 h3 h4
      simp only [List.head?_cons, Option.some.injEq] at h3
      subst h3
      rw [hoe2] at h4
      cases h4
      refine ⟨hb2.trans hbuf1, fun hne => ?_⟩
      rw [← payload_eq_none, hq2 old hne, payload_eq_none]
      exact hfreed

/-- Witness of C8: mem_full holds the 50 nodes 1, ..., 50; adding a fresh node 51
evicts node 1. -/
theorem C8_add_evicts_head_when_full_witness :
    MAX_CACHE_SIZE = 50 ∧
    ∃ m2, cache_add "w" 2000 400 (some 51) mem_full = some (m2, some 51) ∧
      payload m2 51 = some ("w", 2000, 400) ∧
      ((List.range' 1 50).length = MAX_CACHE_SIZE →
        LruList m2 ((List.range' 1 50).tail ++ [51]) ∧ m2.global_cache.count = 50 ∧
        (∀ q, q ∈ (List.range' 1 50).tail → payload m2 q = payload mem_full q) ∧
        (∀ old oe, (List.range' 1 50).head? = some old → mem_full.entries old = some oe →
          m2.buffers = Function.update mem_full.buffers oe.buffer none ∧
          (old ≠ 51 → m2.entries old = none))) ∧
      ((List.range' 1 50).length < MAX_CACHE_SIZE →
        LruList m2 (List.range' 1 50 ++ [51]) ∧
        m2.global_cache.count = mem_full.global_cache.count + 1 ∧
        m2.buffers = mem_full.buffers ∧
        ∀ q, q ∈ List.range' 1 50 → payload m2 q = payload mem_full q) :=
  C8_add_evicts_head_when_full "w" 2000 400 51 mem_full (List.range' 1 50) (by decide) (by decide)
    (by decide) (fun _ => ⟨1, _, _, rfl, rfl, rfl, rfl⟩) (Or.inl rfl)

/-- A returning cache_add keeps the cache well formed, count equal to the length of
the list, and the length within 50. -/
theorem cache_add_inv (url : String) (buffer : Nat) (now : Int) (new_entry : Option Nat)
    (m m2 : Memory) (r : Option Nat) (ps : List Nat) (hl : LruList m ps)
    (hcount : m.global_cache.count = ps.length) (hle : ps.length ≤ MAX_CACHE_SIZE)
    (h : cache_add url buffer now new_entry m = some (m2, r)) :
    ∃ ps2, LruList m2 ps2 ∧ m2.global_cache.count = ps2.length ∧
      ps2.length ≤ MAX_CACHE_SIZE := by
  have hS : SIZE_MOD = 18446744073709551616 := rfl
  have hC : MAX_CACHE_SIZE = 50 := rfl
  obtain ⟨hidle, hfullp⟩ := evict_phase m ps hl hcount hle
  unfold cache_add at h
  cases hev : evict_loop m.global_cache.count m with
  | none => simp [hev] at h
  | some m1 =>
    simp only [hev] at h
    have hinv1 : ∃ ps1, LruList m1 ps1 ∧ m1.global_cache.count = ps1.length ∧
        ps1.length < MAX_CACHE_SIZE := by
      rcases Nat.lt_or_ge ps.length MAX_CACHE_SIZE with hlt | hge
      · rw [hidle hlt] at hev
        cases hev
        exact ⟨ps, hl, hcount, hlt⟩
      · have hfull : ps.length = MAX_CACHE_SIZE := le_antisymm hle hge
        obtain ⟨old, rest, hps, hev2⟩ := hfullp hfull
        subst hps
        rw [hev2] at hev
        obtain ⟨_, _, hspec, _⟩ := evict_head_spec m old rest hl
        obtain ⟨hl1, hc1, _⟩ := hspec m1 hev
        have hlen : rest.length = 49 := by
          simp only [List.length_cons] at hfull
          omega
        refine ⟨rest, hl1, ?_, by omega⟩
        rw [hc1, hcount, hfull, hlen]
        decide
    obtain ⟨ps1, hl1, hc1, hlt1⟩ := hinv1
    cases new_entry with
    | none =>
      simp only [Option.some.injEq, Prod.mk.injEq] at h
      obtain ⟨hm, _⟩ := h
      subst hm
      exact ⟨ps1, hl1, hc1, le_of_lt hlt1⟩
    | some p =>
      simp only at h
      cases hp : m1.entries p with
      | some e => simp [hp] at h
      | none =>
        simp only [hp] at h
        obtain ⟨m3, hm3, hl3, hc3, _⟩ := install_entry_spec url buffer now p m1 ps1 hl1 hp
        rw [hm3] at h
        simp only [Option.some.injEq, Prod.mk.injEq] at h
        obtain ⟨hm, _⟩ := h
        subst hm
        refine ⟨ps1 ++ [p], hl3, ?_, ?_⟩
        · rw [hc3, hc1, List.length_append, List.length_singleton]
          exact Nat.mod_eq_of_lt (by omega)
        · rw [List.length_append, List.length_singleton]
          omega

/-- C9: in every memory reachable from the empty cache by calls of cache_find and
cache_add (with the buffers changing in between), the nodes reached from
head form a well-formed list ps, the count field equals the number of
entries of that list, and count <= MAX_CACHE_SIZE = 50. -/
theorem C9_count_is_length_and_bounded (m : Memory) (h : CacheReachable m) :
    MAX_CACHE_SIZE = 50 ∧
    ∃ ps, LruList m ps ∧ m.global_cache.count = ps.length ∧
      m.global_cache.count ≤ MAX_CACHE_SIZE := by
  refine ⟨rfl, ?_⟩
  have hinv : ∃ ps, LruList m ps ∧ m.global_cache.count = ps.length ∧
      ps.length ≤ MAX_CACHE_SIZE := by
    induction h with
    | init entries buffers =>
      exact ⟨[], ⟨rfl, rfl, List.nodup_nil, trivial⟩, rfl, Nat.zero_le _⟩
    | find fuel url now m m2 r _ hfind ih =>
      obtain ⟨ps, hl, hc, hle⟩ := ih
      cases r with
      | none =>
        have hm : m2 = m := find_loop_miss url now m m2 fuel _ hfind
        subst hm
        exact ⟨ps, hl, hc, hle⟩
      | some e =>
        obtain ⟨A, B, hps, hl2, hsd⟩ := cache_find_hit_list fuel url now m m2 ps e hl hfind
        subst hps
        have hlen : (A ++ B ++ [e]).length = (A ++ e :: B).length := by
          simp only [List.length_append, List.length_cons, List.length_nil]
          omega
        exact ⟨A ++ B ++ [e], hl2, by rw [hsd.2.1, hc, hlen], by rw [hlen]; exact hle⟩
    | add url buffer now new_entry m m2 r _ hadd ih =>
      obtain ⟨ps, hl, hc, hle⟩ := ih
      exact cache_add_inv url buffer now new_entry m m2 r ps hl hc hle hadd
    | env m buffers _ ih =>
      obtain ⟨ps, hl, hc, hle⟩ := ih
      exact ⟨ps, hl, hc, hle⟩
  obtain ⟨ps, hl, hc, hle⟩ := hinv
  exact ⟨ps, hl, hc, by rw [hc]; exact hle⟩

/-- Witness of C9: the memory after one cache_add on the empty cache. -/
theorem C9_count_is_length_and_bounded_witness :
    MAX_CACHE_SIZE = 50 ∧
    ∃ ps, LruList mem_first_add ps ∧ mem_first_add.global_cache.count = ps.length ∧
      mem_first_add.global_cache.count ≤ MAX_CACHE_SIZE :=
  C9_count_is_length_and_bounded mem_first_add
    (CacheReachable.add "u" 100 0 (some 1) mem_two_buffers mem_first_add (some 1)
      (CacheReachable.init _ _) rfl)

/-- C10 fails on the code: "u" is stored at time 0 (node 1, buffer 100); at time 301
the lookup misses because node 1 has expired, and the stale node stays in
the list; the miss is followed by cache_add("u", buffer 200) at time 301
(node 2). The lookup of "u" at time 302, one second after that cache_add,
stops at the stale node 1 and returns NULL, so the entry holding buffer 200
is not served. -/
theorem C10_stale_entry_hides_new_entry :
    cache_add "u" 100 0 (some 1) mem_two_buffers = some (mem_first_add, some 1) ∧
    cache_find 10 "u" 301 mem_first_add = some (mem_first_add, none) ∧
    cache_add "u" 200 301 (some 2) mem_first_add = some (mem_second_add, some 2) ∧
    CacheReachable mem_second_add ∧
    LruList mem_second_add [1, 2] ∧
    payload mem_second_add 1 = some ("u", 100, 0) ∧
    payload mem_second_add 2 = some ("u", 200, 301) ∧
    (301 : Int) ≤ 302 ∧ (302 : Int) ≤ 301 + CACHE_TTL ∧
    cache_find 10 "u" 302 mem_second_add = some (mem_second_add, none) := by
  have h1 : cache_add "u" 100 0 (some 1) mem_two_buffers = some (mem_first_add, some 1) := rfl
  have h2 : cache_find 10 "u" 301 mem_first_add = some (mem_first_add, none) := rfl
  have h3 : cache_add "u" 200 301 (some 2) mem_first_add = some (mem_second_add, some 2) := rfl
  have hr : CacheReachable mem_second_add :=
    CacheReachable.add "u" 200 301 (some 2) mem_first_add mem_second_add (some 2)
      (CacheReachable.find 10 "u" 301 mem_first_add mem_first_add none
        (CacheReachable.add "u" 100 0 (some 1) mem_two_buffers mem_first_add (some 1)
          (CacheReachable.init _ _) h1) h2) h3
  exact ⟨h1, h2, h3, hr, by decide, by decide, by decide, by decide, by decide, rfl⟩

/-! ## Cache: the bounds on the loops, and the lookup after an insertion -/

theorem evict_head_count (m m2 : Memory) (old : Nat) (h : evict_head m old = some m2) :
    m2.global_cache.count = size_dec m.global_cache.count := by
  unfold evict_head at h
  cases h1 : unlink_front m old with
  | none => simp [h1] at h
  | some m1 =>
    simp only [h1] at h
    have hc1 : m1.global_cache.count = m.global_cache.count := by
      unfold unlink_front at h1
      cases he : m.entries old with
      | none => simp [he] at h1
      | some oe =>
        simp only [he] at h1
        cases hn : oe.next with
        | none =>
          simp only [hn, Option.some.injEq] at h1
          subst h1
          rfl
        | some q =>
          simp only [hn] at h1
          exact (set_prev_same _ _ _ _ h1).2.1
    unfold release_old at h
    cases he : m1.entries old with
    | none => simp [he] at h
    | some oe =>
      simp only [he] at h
      cases hb : m1.buffers oe.buffer with
      | none => simp [hb] at h
      | some b =>
        simp only [hb] at h
        split_ifs at h
        simp only [Option.some.injEq] at h
        subst h
        rw [← hc1]

/-- The fuel count given to the eviction loop in cache_add loses nothing: any fuel
from count on gives the same result. -/
theorem evict_loop_fuel (f g : Nat) (m : Memory) (hf : m.global_cache.count ≤ f)
    (hg : m.global_cache.count ≤ g) : evict_loop f m = evict_loop g m := by
  have hC : MAX_CACHE_SIZE = 50 := rfl
  induction f generalizing m g with
  | zero =>
    rw [evict_loop_idle 0 m (by omega), evict_loop_idle g m (by omega)]
  | succ f ih =>
    by_cases hlt : m.global_cache.count < MAX_CACHE_SIZE
    · rw [evict_loop_idle _ m hlt, evict_loop_idle g m hlt]
    · obtain ⟨g2, rfl⟩ : ∃ g2, g = g2 + 1 := ⟨g - 1, by omega⟩
      unfold evict_loop
      rw [if_pos (not_lt.mp hlt), if_pos (not_lt.mp hlt)]
      cases hh : m.global_cache.head with
      | none => rfl
      | some old =>
        simp only
        cases hev : evict_head m old with
        | none => rfl
        | some m1 =>
          simp only
          have hc := evict_head_count m m1 old hev
          have hdec : size_dec m.global_cache.count = m.global_cache.count - 1 := by
            unfold size_dec
            rw [if_neg (by omega)]
          exact ih g2 m1 (by rw [hc, hdec]; omega) (by rw [hc, hdec]; omega)

/-- The loop of cache_find walks past nodes whose url differs from the one looked
for. -/
theorem find_loop_skip (url : String) (now : Int) (m : Memory) (A S : List Nat)
    (prev : Option Nat) (fuel : Nat) (hs : seg m.entries prev (A ++ S) none)
    (hurl : ∀ q, q ∈ A → ∀ e, m.entries q = some e → e.url ≠ url) :
    cache_find_loop url now m (A.length + fuel) (A ++ S).head? =
      cache_find_loop url now m fuel S.head? := by
  induction A generalizing prev with
  | nil => simp
  | cons a A2 ih =>
    simp only [List.cons_append, seg, Option.or_none] at hs
    obtain ⟨e, he, _, hn⟩ := (linked_iff _ _ _).mp hs.1
    have hne : e.url ≠ url := hurl a (List.mem_cons_self _ _) e he
    have hlen : (a :: A2).length + fuel = (A2.length + fuel) + 1 := by
      simp only [List.length_cons]
      omega
    rw [hlen]
    simp only [List.cons_append, List.head?_cons, cache_find_loop, he, hne, if_false]
    rw [hn]
    exact ih (some a) hs.2 (fun q hq => hurl q (List.mem_cons_of_mem _ hq))

/-- The lookup that works: if the entry p stored for url at time t is the tail and
no entry before it in the list has the same url, cache_find(url) at a time
now with now - t <= CACHE_TTL returns p. -/
theorem find_hits_tail_without_duplicate (url : String) (buffer : Nat) (t now : Int)
    (m : Memory) (L : List Nat) (p : Nat) (fuel : Nat) (hl : LruList m (L ++ [p]))
    (hp : payload m p = some (url, buffer, t))
    (hurl : ∀ q, q ∈ L → ∀ e, m.entries q = some e → e.url ≠ url)
    (hfresh : now - t ≤ CACHE_TTL) (hf : L.length + 1 ≤ fuel) :
    cache_find fuel url now m = some (m, some p) := by
  obtain ⟨f2, rfl⟩ : ∃ f2, fuel = L.length + (f2 + 1) := ⟨fuel - L.length - 1, by omega⟩
  unfold cache_find
  rw [hl.1, find_loop_skip url now m L [p] none (f2 + 1) hl.2.2.2 hurl]
  simp only [List.head?_cons]
  unfold cache_find_loop
  cases he : m.entries p with
  | none => simp [payload, he] at hp
  | some e =>
    simp only [payload, he, Option.map, Option.some.injEq, Prod.mk.injEq] at hp
    obtain ⟨hu, _, ht⟩ := hp
    have htail : m.global_cache.tail = some p := by
      rw [hl.2.1, List.getLast?_concat]
    have hnot : ¬ now - e.timestamp > CACHE_TTL := by
      rw [ht]
      exact not_lt.mpr hfresh
    simp [hu, hnot, move_to_tail, htail]

/-! ## Stream buffer: the growth loop -/

/-- The growth loop, when it exits without leaving size_t, has doubled its start
value the least number of times that reaches need. -/
theorem grow_loop_least (fuel c need n : Nat) (h : grow_loop fuel c need = some n)
    (hm : 2 * need ≤ SIZE_MOD) :
    ∃ k, n = c * 2 ^ k ∧ need ≤ n ∧ ∀ j, j < k → c * 2 ^ j < need := by
  induction fuel generalizing c with
  | zero => simp [grow_loop] at h
  | succ f ih =>
    unfold grow_loop at h
    split_ifs at h with hlt
    · have hmod : (c * 2) % SIZE_MOD = c * 2 := Nat.mod_eq_of_lt (by omega)
      rw [hmod] at h
      obtain ⟨k, hk, hge, hmin⟩ := ih (c * 2) h
      refine ⟨k + 1, by rw [hk, pow_succ]; ring, hge, ?_⟩
      intro j hj
      cases j with
      | zero => simpa using hlt
      | succ i =>
        have := hmin i (by omega)
        calc c * 2 ^ (i + 1) = c * 2 * 2 ^ i := by rw [pow_succ]; ring
          _ < need := this
    · simp only [Option.some.injEq] at h
      subst h
      exact ⟨0, by simp, Nat.le_of_not_lt hlt, fun j hj => absurd hj (Nat.not_lt_zero j)⟩

/-- C19: for a buffer with capacity >= 1 and an append with
capacity < size + len <= MAX_RESPONSE_SIZE, the growth loop of
stream_buffer_append exits and, realloc succeeding, the call returns 0 with
the new capacity old capacity * 2^k for the least k >= 1 with
old capacity * 2^k >= size + len; when size + len <= capacity a returning call
leaves the capacity unchanged. -/
theorem C19_growth_is_least_doubling (b : stream_buffer_t) (chunk : List Nat)
    (junk : Nat → Nat) (hcap : 1 ≤ b.capacity)
    (hmax : b.size + chunk.length ≤ MAX_RESPONSE_SIZE) :
    (b.capacity < b.size + chunk.length →
      ∃ k, 1 ≤ k ∧ b.size + chunk.length ≤ b.capacity * 2 ^ k ∧
        (∀ j, 1 ≤ j → j < k → b.capacity * 2 ^ j < b.size + chunk.length) ∧
        grow_loop 65 ((b.capacity * 2) % SIZE_MOD) ((b.size + chunk.length) % SIZE_MOD)
          = some (b.capacity * 2 ^ k) ∧
        ∃ b2, stream_buffer_append b chunk (some junk) = some (b2, 0) ∧
          b2.capacity = b.capacity * 2 ^ k) ∧
    (b.size + chunk.length ≤ b.capacity →
      ∀ nd b2 ret, stream_buffer_append b chunk nd = some (b2, ret) →
        b2.capacity = b.capacity) := by
  have hM : MAX_RESPONSE_SIZE = 104857600 := rfl
  have hS : SIZE_MOD = 18446744073709551616 := rfl
  have hneed : (b.size + chunk.length) % SIZE_MOD = b.size + chunk.length :=
    Nat.mod_eq_of_lt (by omega)
  constructor
  · intro hgrow
    have hdouble : (b.capacity * 2) % SIZE_MOD = b.capacity * 2 :=
      Nat.mod_eq_of_lt (by omega)
    obtain ⟨n, hn⟩ := grow_loop_returns 64 (b.capacity * 2) (b.size + chunk.length)
      (by omega) (by omega) (by omega)
      (by
        have h1 : 1 ≤ b.capacity * 2 := by omega
        calc b.size + chunk.length ≤ 1 * 2 ^ 64 := by norm_num; omega
          _ ≤ b.capacity * 2 * 2 ^ 64 := Nat.mul_le_mul_right _ h1)
    obtain ⟨k, hk, hge, hmin⟩ := grow_loop_least 65 _ _ n hn (by omega)
    have hnk : n = b.capacity * 2 ^ (k + 1) := by
      rw [hk, pow_succ]
      ring
    refine ⟨k + 1, by omega, by rw [← hnk]; exact hge, ?_, ?_, ?_⟩
    · intro j hj1 hjk
      obtain ⟨i, rfl⟩ : ∃ i, j = i + 1 := ⟨j - 1, by omega⟩
      have := hmin i (by omega)
      calc b.capacity * 2 ^ (i + 1) = b.capacity * 2 * 2 ^ i := by rw [pow_succ]; ring
        _ < b.size + chunk.length := this
    · rw [hneed, hdouble, hn, hnk]
    · refine ⟨{ data := (alloc_block b.data n junk).take b.size ++ chunk ++
                  (alloc_block b.data n junk).drop (b.size + chunk.length)
                size := b.size + chunk.length
                capacity := n
                complete := b.complete
                error := b.error
                readers := b.readers }, ?_, hnk⟩
      unfold stream_buffer_append
      simp only [hneed, gt_iff_lt]
      rw [if_neg (by omega), if_pos hgrow, hdouble, hn]
      simp only [append_copy, length_alloc_block, hneed]
      rw [if_pos hge]
  · intro hfit nd b2 ret h
    rcases append_cases b b2 chunk nd ret h with ⟨_, h2, _⟩ | ⟨_, _, _, _, _, _, hc⟩
    · subst h2
      rfl
    · rcases hc with ⟨hc1, _⟩ | ⟨hc1, _⟩
      · exact hc1
      · rw [hneed] at hc1
        omega

/-- Witness of C19: three bytes appended to a buffer of capacity four holding two
(two plus three exceeds four, so the capacity doubles once). -/
theorem C19_growth_is_least_doubling_witness :
    (buf_small.capacity < buf_small.size + [1, 2, 3].length →
      ∃ k, 1 ≤ k ∧ buf_small.size + [1, 2, 3].length ≤ buf_small.capacity * 2 ^ k ∧
        (∀ j, 1 ≤ j → j < k → buf_small.capacity * 2 ^ j < buf_small.size + [1, 2, 3].length) ∧
        grow_loop 65 ((buf_small.capacity * 2) % SIZE_MOD)
          ((buf_small.size + [1, 2, 3].length) % SIZE_MOD) = some (buf_small.capacity * 2 ^ k) ∧
        ∃ b2, stream_buffer_append buf_small [1, 2, 3] (some fun _ => 0) = some (b2, 0) ∧
          b2.capacity = buf_small.capacity * 2 ^ k) ∧
    (buf_small.size + [1, 2, 3].length ≤ buf_small.capacity →
      ∀ nd b2 ret, stream_buffer_append buf_small [1, 2, 3] nd = some (b2, ret) →
        b2.capacity = buf_small.capacity) :=
  C19_growth_is_least_doubling buf_small [1, 2, 3] (fun _ => 0) (by decide) (by decide)

/-! ## Reader: stream_to_client -/

/-- The bytes offered to a write and taken by it extend the bytes sent so far to the
next longer start of the buffer's bytes. -/
theorem sent_bytes_extend (data : List Nat) (size sent n : Nat) :
    (data.take size).take sent ++ ((data.drop sent).take (size - sent)).take n =
      (data.take size).take (sent + n) := by
  rw [← List.drop_take, List.take_add]

/-- The loop of writes keeps the bytes written equal to the first sent bytes of
the buffer's bytes. -/
theorem send_loop_out (sink : Nat → Nat → Int) (buf : stream_buffer_t) (fuel sent calls : Nat)
    (out : List Nat) (h : out = (buf.data.take buf.size).take sent) :
    (send_loop sink buf fuel sent calls out).2.2.2 =
      (buf.data.take buf.size).take (send_loop sink buf fuel sent calls out).2.1 := by
  induction fuel generalizing sent calls out with
  | zero =>
    simp only [send_loop]
    split_ifs <;> exact h
  | succ f ih =>
    simp only [send_loop]
    split_ifs with h1 h2
    · exact h
    · apply ih
      rw [h]
      exact sent_bytes_extend buf.data buf.size sent _
    · exact h

/-- The loop `while (1)` keeps the bytes written equal to the first sent bytes of
the buffer's bytes. -/
theorem stream_loop_out (sink : Nat → Nat → Int) (buf : stream_buffer_t) (fuel sent calls : Nat)
    (out : List Nat) (h : out = (buf.data.take buf.size).take sent) :
    (stream_loop sink buf fuel sent calls out).2.2.2 =
      (buf.data.take buf.size).take (stream_loop sink buf fuel sent calls out).2.1 := by
  induction fuel generalizing sent calls out with
  | zero => exact h
  | succ f ih =>
    simp only [stream_loop]
    split_ifs with h1 h2
    · exact h
    · exact h
    · have hs := send_loop_out sink buf f sent calls out h
      rcases hr : send_loop sink buf f sent calls out with ⟨st, sent2, calls2, out2⟩
      rw [hr] at hs
      cases st with
      | some st => exact hs
      | none =>
        simp only
        split_ifs
        · exact hs
        · exact ih sent2 calls2 out2 hs

/-- With a socket that takes at least one byte per write the loop of writes ends by
its condition once fuel covers the bytes left. -/
theorem send_loop_drains (sink : Nat → Nat → Int) (buf : stream_buffer_t)
    (hsink : ∀ k offered, 1 ≤ offered → 1 ≤ sink k offered) (fuel sent calls : Nat)
    (out : List Nat) (hf : buf.size - sent ≤ fuel) :
    (send_loop sink buf fuel sent calls out).1 = none ∧
      buf.size ≤ (send_loop sink buf fuel sent calls out).2.1 := by
  induction fuel generalizing sent calls out with
  | zero =>
    simp only [send_loop]
    split_ifs with h1
    · omega
    · exact ⟨rfl, Nat.le_of_not_lt h1⟩
  | succ f ih =>
    simp only [send_loop]
    split_ifs with h1 h2
    · have := hsink calls (buf.size - sent) (by omega)
      omega
    · have hn := hsink calls (buf.size - sent) (by omega)
      apply ih
      have : 1 ≤ (sink calls (buf.size - sent)).toNat := by omega
      omega
    · exact ⟨rfl, Nat.le_of_not_lt h1⟩

/-- The status, sent and out of stream_to_client are those of the loop run on the
buffer with readers incremented. -/
theorem stream_to_client_fields (fuel : Nat) (sink : Nat → Nat → Int) (buf : stream_buffer_t) :
    (stream_to_client fuel sink buf).status =
      (stream_loop sink { buf with readers := buf.readers + 1 } fuel 0 0 []).1 ∧
    (stream_to_client fuel sink buf).sent =
      (stream_loop sink { buf with readers := buf.readers + 1 } fuel 0 0 []).2.1 ∧
    (stream_to_client fuel sink buf).out =
      (stream_loop sink { buf with readers := buf.readers + 1 } fuel 0 0 []).2.2.2 := by
  unfold stream_to_client
  simp only
  rcases hr : stream_loop sink { buf with readers := buf.readers + 1 } fuel 0 0 []
    with ⟨st, sent, calls, out⟩
  cases st <;> exact ⟨rfl, rfl, rfl⟩

/-- C15: for a buffer with complete = 1 and error = 0 and a socket whose every
write takes between 1 and the offered number of bytes, stream_to_client
returns (status done, once fuel covers size + 1) having written exactly the
bytes [0, size) in order; and for every socket, at every step (every fuel),
the bytes written so far are a prefix of the buffer's bytes [0, size). -/
theorem C15_stream_delivers_buffer (b : stream_buffer_t) (sink : Nat → Nat → Int)
    (hc : b.complete = 1) (he : b.error = 0)
    (hsink : ∀ k offered, 1 ≤ offered → 1 ≤ sink k offered ∧ sink k offered ≤ (offered : Int)) :
    (∀ fuel, b.size + 1 ≤ fuel →
      (stream_to_client fuel sink b).status = stream_status.done ∧
      (stream_to_client fuel sink b).out = b.data.take b.size) ∧
    (∀ fuel (sink2 : Nat → Nat → Int),
      (stream_to_client fuel sink2 b).out <+: b.data.take b.size) := by
  constructor
  · intro fuel hf
    obtain ⟨f, rfl⟩ : ∃ f, fuel = f + 1 := ⟨fuel - 1, by omega⟩
    obtain ⟨hst, _, hout⟩ := stream_to_client_fields (f + 1) sink b
    rw [hst, hout]
    have hd := send_loop_drains sink { b with readers := b.readers + 1 }
      (fun k offered h => (hsink k offered h).1) f 0 0 [] (by show b.size - 0 ≤ f; omega)
    have ho := send_loop_out sink { b with readers := b.readers + 1 } f 0 0 [] (by simp)
    simp only [stream_loop]
    rw [if_neg (by simp [hc]), if_neg (by simp [he])]
    rcases hr : send_loop sink { b with readers := b.readers + 1 } f 0 0 []
      with ⟨st, sent2, calls2, out2⟩
    rw [hr] at hd ho
    obtain ⟨hd1, hd2⟩ := hd
    simp only at hd1 hd2 ho
    subst hd1
    simp only
    rw [if_pos ⟨by simp [hc], hd2⟩]
    refine ⟨rfl, ?_⟩
    show out2 = b.data.take b.size
    rw [ho]
    exact List.take_of_length_le (by rw [List.length_take]; omega)
  · intro fuel sink2
    obtain ⟨_, _, hout⟩ := stream_to_client_fields fuel sink2 b
    rw [hout, stream_loop_out sink2 { b with readers := b.readers + 1 } fuel 0 0 [] (by simp)]
    exact List.take_prefix _ _

/-- Witness of C15: the completed buffer buf_done read through a socket that takes
two bytes per write. -/
theorem C15_stream_delivers_buffer_witness :
    (∀ fuel, buf_done.size + 1 ≤ fuel →
      (stream_to_client fuel sink_two buf_done).status = stream_status.done ∧
      (stream_to_client fuel sink_two buf_done).out = buf_done.data.take buf_done.size) ∧
    (∀ fuel (sink2 : Nat → Nat → Int),
      (stream_to_client fuel sink2 buf_done).out <+: buf_done.data.take buf_done.size) :=
  C15_stream_delivers_buffer buf_done sink_two rfl rfl
    (fun k offered h => by
      unfold sink_two
      split_ifs with h2
      · exact ⟨by decide, by omega⟩
      · exact ⟨by decide, by omega⟩)

/-- C20: whenever stream_to_client returns (the buffer had error set, a write gave
n <= 0, or everything was sent of a completed buffer), the buffer after the
call is the buffer before it: readers has its old value and size, capacity,
the bytes, complete and error are untouched. -/
theorem C20_stream_leaves_buffer (fuel : Nat) (sink : Nat → Nat → Int) (b : stream_buffer_t)
    (h : (stream_to_client fuel sink b).status = stream_status.buffer_error ∨
      (stream_to_client fuel sink b).status = stream_status.write_failed ∨
      (stream_to_client fuel sink b).status = stream_status.done) :
    (stream_to_client fuel sink b).buf.readers = b.readers ∧
    (stream_to_client fuel sink b).buf.size = b.size ∧
    (stream_to_client fuel sink b).buf.capacity = b.capacity ∧
    (stream_to_client fuel sink b).buf.data = b.data ∧
    (stream_to_client fuel sink b).buf.complete = b.complete ∧
    (stream_to_client fuel sink b).buf.error = b.error ∧
    (stream_to_client fuel sink b).buf = b := by
  unfold stream_to_client at h ⊢
  simp only at h ⊢
  rcases hr : stream_loop sink { b with readers := b.readers + 1 } fuel 0 0 []
    with ⟨st, sent, calls, out⟩
  rw [hr] at h
  have hread : b.readers + 1 - 1 = b.readers := by omega
  cases st with
  | running => simp at h
  | waiting => simp at h
  | done => exact ⟨hread, rfl, rfl, rfl, rfl, rfl, by cases b; simp⟩
  | write_failed => exact ⟨hread, rfl, rfl, rfl, rfl, rfl, by cases b; simp⟩
  | buffer_error => exact ⟨hread, rfl, rfl, rfl, rfl, rfl, by cases b; simp⟩

/-- Witness of C20: buf_done read to the end through sink_two. -/
theorem C20_stream_leaves_buffer_witness :
    (stream_to_client 10 sink_two buf_done).buf.readers = buf_done.readers ∧
    (stream_to_client 10 sink_two buf_done).buf.size = buf_done.size ∧
    (stream_to_client 10 sink_two buf_done).buf.capacity = buf_done.capacity ∧
    (stream_to_client 10 sink_two buf_done).buf.data = buf_done.data ∧
    (stream_to_client 10 sink_two buf_done).buf.complete = buf_done.complete ∧
    (stream_to_client 10 sink_two buf_done).buf.error = buf_done.error ∧
    (stream_to_client 10 sink_two buf_done).buf = buf_done :=
  C20_stream_leaves_buffer 10 sink_two buf_done (Or.inr (Or.inr (by decide)))

/-! ## Producer: download_thread -/

/-- A returning stream_buffer_append leaves complete as it was and error as it was
or set to 1; a return of -1 comes with error = 1. -/
theorem append_flags (b b2 : stream_buffer_t) (chunk : List Nat) (nd : Option (Nat → Nat))
    (ret : Int) (h : stream_buffer_append b chunk nd = some (b2, ret)) :
    b2.complete = b.complete ∧ (b2.error = b.error ∨ b2.error = 1) ∧
      (ret < 0 → b2.error = 1) ∧ (ret = -1 ∨ ret = 0) := by
  rcases append_cases b b2 chunk nd ret h with ⟨h1, h2, _⟩ | ⟨h1, _, _, hc, he, _⟩
  · subst h2
    exact ⟨rfl, Or.inr rfl, fun _ => rfl, Or.inl h1⟩
  · subst h1
    exact ⟨hc, Or.inl he, fun h0 => absurd h0 (by decide), Or.inr rfl⟩

/-- The loop of reads is left by a failed append, with error = 1, or by a read that
gave n <= 0; it never clears complete or error. -/
theorem download_loop_spec (new_data : Nat → Option (Nat → Nat))
    (reads : List (Option (List Nat))) (k : Nat) (b b2 : stream_buffer_t) (way : dl_exit)
    (h : download_loop new_data reads k b = some (b2, way)) :
    (way = dl_exit.append_failed ∨ way = dl_exit.read_end) ∧
    (way = dl_exit.append_failed → b2.error = 1) ∧
    b2.complete = b.complete ∧ (b.error ≠ 0 → b2.error ≠ 0) := by
  induction reads generalizing k b with
  | nil => simp [download_loop] at h
  | cons r rest ih =>
    cases r with
    | none =>
      simp only [download_loop, Option.some.injEq, Prod.mk.injEq] at h
      obtain ⟨hb, hw⟩ := h
      subst hb
      subst hw
      exact ⟨Or.inr rfl, fun h0 => absurd h0 (by decide), rfl, fun h0 => h0⟩
    | some chunk =>
      simp only [download_loop] at h
      split_ifs at h with hpos
      · cases happ : stream_buffer_append b chunk (new_data k) with
        | none => simp [happ] at h
        | some r2 =>
          obtain ⟨b3, ret⟩ := r2
          simp only [happ] at h
          obtain ⟨hc3, he3, hfail, _⟩ := append_flags b b3 chunk (new_data k) ret happ
          have hkeep : b.error ≠ 0 → b3.error ≠ 0 := by
            intro h0
            rcases he3 with he3 | he3
            · rw [he3]
              exact h0
            · rw [he3]
              decide
          split_ifs at h with hret
          · simp only [Option.some.injEq, Prod.mk.injEq] at h
            obtain ⟨hb, hw⟩ := h
            subst hb
            subst hw
            exact ⟨Or.inl rfl, fun _ => hfail hret, hc3, hkeep⟩
          · obtain ⟨h1, h2, h3, h4⟩ := ih (k + 1) b3 h
            exact ⟨h1, h2, h3.trans hc3, fun h0 => h4 (hkeep h0)⟩
      · simp only [Option.some.injEq, Prod.mk.injEq] at h
        obtain ⟨hb, hw⟩ := h
        subst hb
        subst hw
        exact ⟨Or.inr rfl, fun h0 => absurd h0 (by decide), rfl, fun h0 => h0⟩

/-- In the loop of reads a read that fails has the same effect as end of file. -/
theorem download_loop_error_as_eof (new_data : Nat → Option (Nat → Nat))
    (reads : List (Option (List Nat))) (k : Nat) (b : stream_buffer_t) :
    download_loop new_data (reads ++ [none]) k b =
      download_loop new_data (reads ++ [some []]) k b := by
  induction reads generalizing k b with
  | nil => simp [download_loop]
  | cons r rest ih =>
    cases r with
    | none => simp [download_loop]
    | some chunk =>
      simp only [List.cons_append, download_loop]
      split_ifs with hpos
      · cases happ : stream_buffer_append b chunk (new_data k) with
        | none => rfl
        | some r2 =>
          obtain ⟨b3, ret⟩ := r2
          simp only
          split_ifs
          · rfl
          · exact ih (k + 1) b3
      · rfl

/-- C16 fails on the code: the origin delivers the two bytes 72, 84, which are
appended to a fresh buffer, and the next read returns a negative value.
download_thread leaves by the end of the loop and calls
stream_buffer_complete: the buffer ends with complete = 1 and error = 0,
exactly as when the second read is end of file. For every sequence of reads a
final failing read has the same outcome as a final end of file. -/
theorem C16_read_error_ends_as_success :
    (download_thread true 3 0 [some [72, 84], none] (fun _ => none) buf_fresh).map
        (fun r => (r.1.complete, r.1.error, r.1.size, r.2)) =
      some (1, 0, 2, dl_exit.read_end) ∧
    (download_thread true 3 0 [some [72, 84], some []] (fun _ => none) buf_fresh).map
        (fun r => (r.1.complete, r.1.error, r.1.size, r.2)) =
      some (1, 0, 2, dl_exit.read_end) ∧
    (∀ (reads : List (Option (List Nat))) (new_data : Nat → Option (Nat → Nat))
        (b : stream_buffer_t),
      download_thread true 3 0 (reads ++ [none]) new_data b =
        download_thread true 3 0 (reads ++ [some []]) new_data b) := by
  have happ : stream_buffer_append buf_fresh [72, 84] none =
      some ({ buf_fresh with
                data := buf_fresh.data.take 0 ++ [72, 84] ++ buf_fresh.data.drop 2
                size := 2 }, 0) := by
    unfold stream_buffer_append
    simp only [gt_iff_lt]
    rw [if_neg (by decide), if_neg (by decide)]
    simp only [append_copy]
    rw [if_pos (by
      show buf_fresh.size + 2 ≤ buf_fresh.data.length
      rw [show buf_fresh.data.length = BUFFER_SIZE * 4 from length_alloc_block _ _ _]
      decide)]
    rfl
  refine ⟨?_, ?_, ?_⟩
  · simp [download_thread, download_loop, happ, stream_buffer_complete]
    rfl
  · simp [download_thread, download_loop, happ, stream_buffer_complete]
    rfl
  · intro reads new_data b
    simp only [download_thread]
    rw [download_loop_error_as_eof]

/-- C17: on every way out of download_thread the buffer has complete = 1, and on
the ways out after a failed gethostbyname, socket, connect or
stream_buffer_append it also has error = 1; the way out is fixed by the
results of those calls. No operation on a buffer clears a flag:
download_thread, stream_buffer_append, stream_buffer_complete and
stream_to_client leave a flag that is not 0 different from 0. -/
theorem C17_producer_sets_flags (server_ok : Bool) (sock conn : Int)
    (reads : List (Option (List Nat))) (new_data : Nat → Option (Nat → Nat))
    (b b2 : stream_buffer_t) (way : dl_exit)
    (h : download_thread server_ok sock conn reads new_data b = some (b2, way)) :
    b2.complete = 1 ∧
    (way ≠ dl_exit.read_end → b2.error = 1) ∧
    (way = dl_exit.resolve_failed ↔ server_ok = false) ∧
    (way = dl_exit.socket_failed ↔ server_ok = true ∧ sock < 0) ∧
    (way = dl_exit.connect_failed ↔ server_ok = true ∧ 0 ≤ sock ∧ conn < 0) ∧
    (b.error ≠ 0 → b2.error ≠ 0) ∧
    (∀ (c : stream_buffer_t) chunk nd c2 ret, stream_buffer_append c chunk nd = some (c2, ret) →
      (c.complete ≠ 0 → c2.complete ≠ 0) ∧ (c.error ≠ 0 → c2.error ≠ 0)) ∧
    (∀ c : stream_buffer_t, (c.complete ≠ 0 → (stream_buffer_complete c).complete ≠ 0) ∧
      (c.error ≠ 0 → (stream_buffer_complete c).error ≠ 0)) ∧
    (∀ fuel sink (c : stream_buffer_t),
      (stream_to_client fuel sink c).buf.complete = c.complete ∧
      (stream_to_client fuel sink c).buf.error = c.error) := by
  have hops : (∀ (c : stream_buffer_t) chunk nd c2 ret,
      stream_buffer_append c chunk nd = some (c2, ret) →
      (c.complete ≠ 0 → c2.complete ≠ 0) ∧ (c.error ≠ 0 → c2.error ≠ 0)) ∧
    (∀ c : stream_buffer_t, (c.complete ≠ 0 → (stream_buffer_complete c).complete ≠ 0) ∧
      (c.error ≠ 0 → (stream_buffer_complete c).error ≠ 0)) ∧
    (∀ fuel sink (c : stream_buffer_t),
      (stream_to_client fuel sink c).buf.complete = c.complete ∧
      (stream_to_client fuel sink c).buf.error = c.error) := by
    refine ⟨?_, ?_, ?_⟩
    · intro c chunk nd c2 ret happ
      obtain ⟨hc, he, _, _⟩ := append_flags c c2 chunk nd ret happ
      refine ⟨fun h0 => by rw [hc]; exact h0, fun h0 => ?_⟩
      rcases he with he | he
      · rw [he]
        exact h0
      · rw [he]
        decide
    · intro c
      exact ⟨fun _ => by simp [stream_buffer_complete], fun h0 => h0⟩
    · intro fuel sink c
      unfold stream_to_client
      simp only
      rcases stream_loop sink { c with readers := c.readers + 1 } fuel 0 0 []
        with ⟨st, sent, calls, out⟩
      cases st <;> exact ⟨rfl, rfl⟩
  unfold download_thread at h
  split_ifs at h with h1 h2 h3
  · simp only [Option.some.injEq, Prod.mk.injEq] at h
    obtain ⟨hb, hw⟩ := h
    subst hb
    subst hw
    refine ⟨rfl, fun _ => rfl, by simp [h1], by simp [h1], by simp [h1], fun _ => by
      simp [stream_buffer_complete], hops⟩
  · have hs : server_ok = true := by simpa using h1
    simp only [Option.some.injEq, Prod.mk.injEq] at h
    obtain ⟨hb, hw⟩ := h
    subst hb
    subst hw
    refine ⟨rfl, fun _ => rfl, by simp [hs], by simp [hs, h2], ?_, fun _ => by
      simp [stream_buffer_complete], hops⟩
    exact ⟨fun h0 => (by cases h0), fun h0 => absurd h0.2.1 (not_le.mpr h2)⟩
  · have hs : server_ok = true := by simpa using h1
    simp only [Option.some.injEq, Prod.mk.injEq] at h
    obtain ⟨hb, hw⟩ := h
    subst hb
    subst hw
    refine ⟨rfl, fun _ => rfl, by simp [hs], by simp [hs, h2], by
      simp only [hs, true_and, true_iff]
      exact ⟨not_lt.mp h2, h3⟩, fun _ => by simp [stream_buffer_complete], hops⟩
  · have hs : server_ok = true := by simpa using h1
    cases hl : download_loop new_data reads 0 b with
    | none => simp [hl] at h
    | some r =>
      obtain ⟨b3, way3⟩ := r
      simp only [hl, Option.some.injEq, Prod.mk.injEq] at h
      obtain ⟨hb, hw⟩ := h
      subst hb
      subst hw
      obtain ⟨hway, herr, _, hkeep⟩ := download_loop_spec new_data reads 0 b b3 way3 hl
      refine ⟨rfl, ?_, ?_, ?_, ?_, hkeep, hops⟩
      · intro hne
        rcases hway with hw | hw
        · exact herr hw
        · exact absurd hw hne
      · rcases hway with hw | hw <;> simp [hw, hs]
      · rcases hway with hw | hw <;> simp [hw, hs, h2]
      · rcases hway with hw | hw
        · subst hw
          exact ⟨fun h0 => (by cases h0), fun h0 => absurd h0.2.2 h3⟩
        · subst hw
          exact ⟨fun h0 => (by cases h0), fun h0 => absurd h0.2.2 h3⟩

/-- Witness of C17: the origin sends two bytes and closes. -/
theorem C17_producer_sets_flags_witness :
    buf_downloaded.complete = 1 ∧
    (dl_exit.read_end ≠ dl_exit.read_end → buf_downloaded.error = 1) ∧
    (dl_exit.read_end = dl_exit.resolve_failed ↔ true = false) ∧
    (dl_exit.read_end = dl_exit.socket_failed ↔ true = true ∧ (3 : Int) < 0) ∧
    (dl_exit.read_end = dl_exit.connect_failed ↔ true = true ∧ (0 : Int) ≤ 3 ∧ (0 : Int) < 0) ∧
    (buf_small.error ≠ 0 → buf_downloaded.error ≠ 0) ∧
    (∀ (c : stream_buffer_t) chunk nd c2 ret, stream_buffer_append c chunk nd = some (c2, ret) →
      (c.complete ≠ 0 → c2.complete ≠ 0) ∧ (c.error ≠ 0 → c2.error ≠ 0)) ∧
    (∀ c : stream_buffer_t, (c.complete ≠ 0 → (stream_buffer_complete c).complete ≠ 0) ∧
      (c.error ≠ 0 → (stream_buffer_complete c).error ≠ 0)) ∧
    (∀ fuel sink (c : stream_buffer_t),
      (stream_to_client fuel sink c).buf.complete = c.complete ∧
      (stream_to_client fuel sink c).buf.error = c.error) :=
  C17_producer_sets_flags true 3 0 [some [72, 84], some []] (fun _ => none) buf_small
    buf_downloaded dl_exit.read_end rfl

/-- Every stream_buffer_append of at most BUFFER_SIZE bytes to a well-formed buffer
with size within MAX_RESPONSE_SIZE returns and leaves such a buffer. -/
theorem append_total (b : stream_buffer_t) (chunk : List Nat) (nd : Option (Nat → Nat))
    (hblock : b.data.length = b.capacity) (hsize : b.size ≤ b.capacity)
    (hcap : 0 < b.capacity) (hs : b.size ≤ MAX_RESPONSE_SIZE)
    (hlen : chunk.length ≤ BUFFER_SIZE) :
    ∃ b2 ret, stream_buffer_append b chunk nd = some (b2, ret) ∧
      b2.data.length = b2.capacity ∧ b2.size ≤ b2.capacity ∧ 0 < b2.capacity ∧
      b2.size ≤ MAX_RESPONSE_SIZE := by
  have hM : MAX_RESPONSE_SIZE = 104857600 := rfl
  have hS : SIZE_MOD = 18446744073709551616 := rfl
  have hB : BUFFER_SIZE = 4096 := rfl
  have hneed : (b.size + chunk.length) % SIZE_MOD = b.size + chunk.length :=
    Nat.mod_eq_of_lt (by omega)
  unfold stream_buffer_append
  simp only [hneed, gt_iff_lt]
  split_ifs with h1 h2
  · exact ⟨_, _, rfl, hblock, hsize, hcap, hs⟩
  · have hdouble : (b.capacity * 2) % SIZE_MOD = b.capacity * 2 :=
      Nat.mod_eq_of_lt (by omega)
    obtain ⟨n, hn⟩ := grow_loop_returns 64 (b.capacity * 2) (b.size + chunk.length)
      (by omega) (by omega) (by omega)
      (by
        have h3 : 1 ≤ b.capacity * 2 := by omega
        calc b.size + chunk.length ≤ 1 * 2 ^ 64 := by norm_num; omega
          _ ≤ b.capacity * 2 * 2 ^ 64 := Nat.mul_le_mul_right _ h3)
    have hge := grow_loop_ge _ _ _ _ hn
    rw [hdouble, hn]
    cases nd with
    | none => exact ⟨_, _, rfl, hblock, hsize, hcap, hs⟩
    | some junk =>
      simp only [append_copy, length_alloc_block, hneed]
      rw [if_pos hge]
      have hcopy := copy_bytes (alloc_block b.data n junk) chunk b.size
        (by rw [length_alloc_block]; exact hge)
      refine ⟨_, _, rfl, ?_, hge, ?_, ?_⟩
      · exact hcopy.2.2.trans (length_alloc_block _ _ _)
      · show 0 < n
        omega
      · show b.size + chunk.length ≤ MAX_RESPONSE_SIZE
        omega
  · have hfit : b.size + chunk.length ≤ b.data.length := by omega
    simp only [append_copy, hneed]
    rw [if_pos hfit]
    have hcopy := copy_bytes b.data chunk b.size hfit
    refine ⟨_, _, rfl, ?_, ?_, hcap, ?_⟩
    · exact hcopy.2.2.trans hblock
    · show b.size + chunk.length ≤ b.capacity
      omega
    · show b.size + chunk.length ≤ MAX_RESPONSE_SIZE
      omega

/-- The loop of reads is left whenever the origin at some point closes or fails and
delivers at most BUFFER_SIZE bytes per read. -/
theorem download_loop_returns (new_data : Nat → Option (Nat → Nat))
    (reads : List (Option (List Nat)))
    (hterm : ∃ r, r ∈ reads ∧ (r = none ∨ r = some []))
    (hchunks : ∀ c, some c ∈ reads → c.length ≤ BUFFER_SIZE) (k : Nat) (b : stream_buffer_t)
    (hblock : b.data.length = b.capacity) (hsize : b.size ≤ b.capacity)
    (hcap : 0 < b.capacity) (hs : b.size ≤ MAX_RESPONSE_SIZE) :
    ∃ b2 way, download_loop new_data reads k b = some (b2, way) := by
  induction reads generalizing k b with
  | nil =>
    obtain ⟨r, hr, _⟩ := hterm
    simp at hr
  | cons r rest ih =>
    cases r with
    | none => exact ⟨b, dl_exit.read_end, rfl⟩
    | some chunk =>
      simp only [download_loop]
      split_ifs with hpos
      · obtain ⟨b2, ret, happ, w1, w2, w3, w4⟩ := append_total b chunk (new_data k) hblock hsize
          hcap hs (hchunks chunk (List.mem_cons_self _ _))
        simp only [happ]
        split_ifs with hret
        · exact ⟨_, _, rfl⟩
        · apply ih _ (fun c hc => hchunks c (List.mem_cons_of_mem _ hc)) (k + 1) b2 w1 w2 w3 w4
          obtain ⟨r, hr, hr2⟩ := hterm
          rcases List.mem_cons.mp hr with h0 | h0
          · subst h0
            rcases hr2 with h5 | h5
            · cases h5
            · simp only [Option.some.injEq] at h5
              subst h5
              simp at hpos
          · exact ⟨r, h0, hr2⟩
      · exact ⟨_, _, rfl⟩

/-- Function download_thread returns on a well-formed buffer whenever the origin at
some point closes or fails and delivers at most BUFFER_SIZE bytes per read. -/
theorem download_thread_returns (server_ok : Bool) (sock conn : Int)
    (new_data : Nat → Option (Nat → Nat)) (reads : List (Option (List Nat)))
    (hterm : ∃ r, r ∈ reads ∧ (r = none ∨ r = some []))
    (hchunks : ∀ c, some c ∈ reads → c.length ≤ BUFFER_SIZE) (b : stream_buffer_t)
    (hblock : b.data.length = b.capacity) (hsize : b.size ≤ b.capacity)
    (hcap : 0 < b.capacity) (hs : b.size ≤ MAX_RESPONSE_SIZE) :
    ∃ b2 way, download_thread server_ok sock conn reads new_data b = some (b2, way) := by
  unfold download_thread
  split_ifs
  · exact ⟨_, _, rfl⟩
  · exact ⟨_, _, rfl⟩
  · exact ⟨_, _, rfl⟩
  · obtain ⟨b2, way, h⟩ := download_loop_returns new_data reads hterm hchunks 0 b hblock hsize
      hcap hs
    rw [h]
    exact ⟨_, _, rfl⟩

/-! ## Request parsing -/

/-- The function strstr returns the first occurrence: when needle stands right after
U and nowhere earlier, the offset found is the length of U. -/
theorem strstr_index_first (needle U rest : List Char) (hne : needle ≠ [])
    (hfirst : ∀ i, i < U.length → ¬ needle <+: (U ++ (needle ++ rest)).drop i) :
    strstr_index needle (U ++ (needle ++ rest)) = some U.length := by
  induction U with
  | nil =>
    cases needle with
    | nil => exact absurd rfl hne
    | cons c t =>
      simp only [List.nil_append, List.cons_append, strstr_index, List.length_nil]
      rw [if_pos]
      rw [List.isPrefixOf_iff_prefix]
      exact List.prefix_append (c :: t) rest
  | cons u U2 ih =>
    have h0 : ¬ needle <+: (u :: U2 ++ (needle ++ rest)) := by
      have := hfirst 0 (by simp)
      simpa using this
    have hrec : ∀ i, i < U2.length → ¬ needle <+: (U2 ++ (needle ++ rest)).drop i := by
      intro i hi
      have := hfirst (i + 1) (by simp only [List.length_cons]; omega)
      simpa using this
    show strstr_index needle (u :: (U2 ++ (needle ++ rest))) = some (U2.length + 1)
    rw [strstr_index, if_neg (by rw [List.isPrefixOf_iff_prefix]; exact h0), ih hrec]
    rfl

theorem strchr_index_absent (c : Char) (A : List Char) (h : c ∉ A) :
    strchr_index c A = none := by
  induction A with
  | nil => rfl
  | cons d A2 ih =>
    have hd : d ≠ c := fun hdc => h (hdc ▸ List.mem_cons_self _ _)
    simp only [strchr_index, if_neg hd, ih (fun hin => h (List.mem_cons_of_mem _ hin))]
    rfl

theorem strchr_index_found (c : Char) (A B : List Char) (h : c ∉ A) :
    strchr_index c (A ++ c :: B) = some A.length := by
  induction A with
  | nil => simp [strchr_index]
  | cons d A2 ih =>
    have hd : d ≠ c := fun hdc => h (hdc ▸ List.mem_cons_self _ _)
    show strchr_index c (d :: (A2 ++ c :: B)) = some (A2.length + 1)
    rw [strchr_index, if_neg hd, ih (fun hin => h (List.mem_cons_of_mem _ hin))]
    rfl

/-- The text " HTTP/" does not start inside U when U is a part Pre without spaces
followed by a part Q that does not contain " HTTP/". -/
theorem no_early_mark (Pre Q rest : List Char) (hpre : ∀ c, c ∈ Pre → c ≠ ' ')
    (hq : ¬ " HTTP/".toList <:+: Q) (i : Nat) (hi : i < (Pre ++ Q).length) :
    ¬ " HTTP/".toList <+: ((Pre ++ Q) ++ (" HTTP/".toList ++ rest)).drop i := by
  intro hpref
  have hN : " HTTP/".toList = [' ', 'H', 'T', 'T', 'P', '/'] := rfl
  by_cases hlt : i < Pre.length
  · -- the occurrence would start at a character of Pre, which is no space
    have hdrop : ((Pre ++ Q) ++ (" HTTP/".toList ++ rest)).drop i =
        Pre.drop i ++ (Q ++ (" HTTP/".toList ++ rest)) := by
      rw [List.append_assoc, List.drop_append_of_le_length (le_of_lt hlt)]
    rw [hdrop] at hpref
    cases hd : Pre.drop i with
    | nil =>
      have := congrArg List.length hd
      simp only [List.length_drop, List.length_nil] at this
      omega
    | cons c t =>
      have hc : c ∈ Pre := List.mem_of_mem_drop (hd ▸ List.mem_cons_self c t)
      rw [hd, hN, List.cons_append, List.cons_prefix_cons] at hpref
      exact hpre c hc hpref.1.symm
  · -- the occurrence would start inside Q
    have hge : Pre.length ≤ i := not_lt.mp hlt
    have hiQ : i - Pre.length < Q.length := by
      rw [List.length_append] at hi
      omega
    have hdrop : ((Pre ++ Q) ++ (" HTTP/".toList ++ rest)).drop i =
        Q.drop (i - Pre.length) ++ (" HTTP/".toList ++ rest) := by
      rw [List.append_assoc, List.drop_append_eq_append_drop,
        List.drop_of_length_le hge, List.nil_append,
        List.drop_append_of_le_length (le_of_lt hiQ)]
    rw [hdrop] at hpref
    have hVlen : 1 ≤ (Q.drop (i - Pre.length)).length := by
      rw [List.length_drop]
      omega
    by_cases hlong : 6 ≤ (Q.drop (i - Pre.length)).length
    · have h1 : " HTTP/".toList <+: Q.drop (i - Pre.length) :=
        List.prefix_of_prefix_length_le hpref (List.prefix_append _ _) hlong
      exact hq (h1.isInfix.trans (List.drop_suffix _ _).isInfix)
    · have hshort : (Q.drop (i - Pre.length)).length < " HTTP/".toList.length := by
        show _ < 6
        omega
      have hcut := hpref.drop (Q.drop (i - Pre.length)).length
      rw [List.drop_left, hN] at hcut
      generalize (Q.drop (i - Pre.length)).length = j at hcut hshort hVlen
      have hj5 : j < 6 := hshort
      interval_cases j
      all_goals
        simp only [List.drop_succ_cons, List.drop_zero, List.cons_append,
          List.cons_prefix_cons] at hcut
        exact absurd hcut.1 (by decide)

/-- A request that starts with "GET " and has its first " HTTP/" right after U is
rejected when U has 2048 characters or more and is otherwise parsed as the
URL U. -/
theorem parse_after_get (U rest : List Char) (host_cap path_cap : Nat)
    (hfirst : ∀ i, i < U.length →
      ¬ " HTTP/".toList <+: (U ++ (" HTTP/".toList ++ rest)).drop i) :
    parse_http_request ("GET ".toList ++ (U ++ (" HTTP/".toList ++ rest))) host_cap path_cap =
      if U.length ≥ 2048 then some parse_result.bad else parse_url U host_cap path_cap := by
  have hget := strstr_index_first "GET ".toList [] (U ++ (" HTTP/".toList ++ rest))
    (by decide) (by simp)
  simp only [List.nil_append, List.length_nil] at hget
  have hmark := strstr_index_first " HTTP/".toList U rest (by decide) hfirst
  have hdrop : ("GET ".toList ++ (U ++ (" HTTP/".toList ++ rest))).drop (0 + 4) =
      U ++ (" HTTP/".toList ++ rest) := List.drop_left' rfl
  unfold parse_http_request
  rw [hget]
  simp only
  rw [hdrop, hmark]
  simp only [List.take_left]

theorem atoi_digits_eq_foldl (P : List Char) (acc : Nat)
    (hP : ∀ c, c ∈ P → 48 ≤ c.toNat ∧ c.toNat ≤ 57) :
    atoi_digits P acc = P.foldl (fun a c => a * 10 + (c.toNat - 48)) acc := by
  induction P generalizing acc with
  | nil => rfl
  | cons c r ih =>
    simp only [atoi_digits, List.foldl_cons]
    rw [if_pos (hP c (List.mem_cons_self _ _))]
    exact ih _ (fun d hd => hP d (List.mem_cons_of_mem _ hd))

/-- On a string of decimal digits whose number fits int, atoi returns that
number. -/
theorem atoi_of_digits (P : List Char) (hP : ∀ c, c ∈ P → 48 ≤ c.toNat ∧ c.toNat ≤ 57)
    (hv : decimal_value P ≤ 2147483647) : atoi P = some (decimal_value P : Int) := by
  have hval : atoi_digits P 0 = decimal_value P := atoi_digits_eq_foldl P 0 hP
  unfold atoi
  cases P with
  | nil =>
    simp only [List.dropWhile_nil]
    rw [if_pos (by simp [atoi_digits])]
    rfl
  | cons c r =>
    have hc := hP c (List.mem_cons_self _ _)
    have hsp : isspace c = false := by
      unfold isspace
      simp only [decide_eq_false_iff_not, not_or, not_and, not_le]
      omega
    have hminus : c ≠ '-' := by
      intro h
      rw [h] at hc
      exact absurd hc.1 (by decide)
    have hplus : c ≠ '+' := by
      intro h
      rw [h] at hc
      exact absurd hc.1 (by decide)
    have hdw : List.dropWhile isspace (c :: r) = c :: r := by
      rw [List.dropWhile_cons, hsp]
      simp
    simp only [hdw]
    have hmatch : (match c :: r with
        | '-' :: r2 => -(atoi_digits r2 0 : Int)
        | '+' :: r2 => (atoi_digits r2 0 : Int)
        | _ => (atoi_digits (c :: r) 0 : Int)) = (atoi_digits (c :: r) 0 : Int) := by
      split
      · rename_i heq
        simp only [List.cons.injEq] at heq
        exact absurd heq.1 hminus
      · rename_i heq
        simp only [List.cons.injEq] at heq
        exact absurd heq.1 hplus
      · rfl
    rw [hmatch, hval]
    rw [if_pos ⟨by omega, by omega⟩]

theorem toDigitsCore_length (fuel n k : Nat) (acc : List Char) (hk : 1 ≤ k)
    (h : n < 10 ^ k) : (Nat.toDigitsCore 10 fuel n acc).length ≤ k + acc.length := by
  induction fuel generalizing n k acc with
  | zero => simp [Nat.toDigitsCore]
  | succ f ih =>
    simp only [Nat.toDigitsCore]
    split_ifs with h0
    · simp only [List.length_cons]
      omega
    · have hk2 : 2 ≤ k := by
        by_contra hcon
        have hk1 : k = 1 := by omega
        subst hk1
        have : n / 10 = 0 := Nat.div_eq_of_lt (by simpa using h)
        exact h0 this
      have hdiv : n / 10 < 10 ^ (k - 1) := by
        apply Nat.div_lt_of_lt_mul
        have : 10 ^ k = 10 * 10 ^ (k - 1) := by
          rw [← pow_succ']
          congr 1
          omega
        omega
      have := ih (n / 10) (k - 1) (Nat.digitChar (n % 10) :: acc) (by omega) hdiv
      simp only [List.length_cons] at this
      omega

/-- The text of a non-negative int under %d has at most ten characters. -/
theorem fmt_int_length (v : Int) (h0 : 0 ≤ v) (h : v ≤ 2147483647) :
    (fmt_int v).length ≤ 10 := by
  unfold fmt_int
  rw [if_neg (by omega)]
  have := toDigitsCore_length (v.toNat + 1) v.toNat 10 [] (by decide) (by
    have : (10 : Nat) ^ 10 = 10000000000 := by norm_num
    omega)
  simpa [Nat.toDigits] using this

/-- The port is cut off a host text `H[:P]` as the claim says: H has no colon, P is
a string of digits. -/
theorem split_port_spec (H path : List Char) (P : Option (List Char))
    (hH : ∀ c, c ∈ H → c ≠ ':')
    (hP : ∀ d, P = some d → (∀ c, c ∈ d → 48 ≤ c.toNat ∧ c.toNat ≤ 57) ∧
      decimal_value d ≤ 2147483647) :
    split_port (H ++ port_text P) path = some (parse_result.ok H path (port_number P)) := by
  have hcolon : ':' ∉ H := fun hin => hH ':' hin rfl
  unfold split_port
  cases P with
  | none =>
    simp only [port_text, List.append_nil, port_number]
    rw [strchr_index_absent ':' H hcolon]
  | some d =>
    obtain ⟨hd, hv⟩ := hP d rfl
    simp only [port_text, port_number]
    rw [strchr_index_found ':' H d hcolon]
    simp only
    have hdrop : (H ++ ':' :: d).drop (H.length + 1) = d := by
      have : H ++ ':' :: d = (H ++ [':']) ++ d := by simp
      rw [this]
      exact List.drop_left' (by simp)
    rw [hdrop, atoi_of_digits d hd hv, List.take_left]

/-- The URL `http://H[:P][/PATH]` is taken apart as the claim says when the host
text fits 256 bytes and the path 1024. -/
theorem parse_url_absolute (H : List Char) (P Q : Option (List Char))
    (hH : ∀ c, c ∈ H → c ≠ '/' ∧ c ≠ ':' ∧ c ≠ ' ')
    (hP : ∀ d, P = some d → (∀ c, c ∈ d → 48 ≤ c.toNat ∧ c.toNat ≤ 57) ∧
      decimal_value d ≤ 2147483647)
    (hhost : H.length + (port_text P).length < 256) (hpath : (path_text Q).length < 1024) :
    parse_url ("http://".toList ++ (H ++ port_text P) ++ path_text Q) 256 1024 =
      some (parse_result.ok H (path_or_root Q) (port_number P)) := by
  have hslash : '/' ∉ H ++ port_text P := by
    intro hin
    rcases List.mem_append.mp hin with h1 | h1
    · exact (hH '/' h1).1 rfl
    · cases P with
      | none => simp [port_text] at h1
      | some d =>
        simp only [port_text, List.mem_cons] at h1
        rcases h1 with h2 | h2
        · exact absurd h2 (by decide)
        · have := ((hP d rfl).1 '/' h2).1
          exact absurd this (by decide)
  have hpre : "http://".toList.isPrefixOf
      ("http://".toList ++ (H ++ port_text P) ++ path_text Q) = true := by
    rw [List.isPrefixOf_iff_prefix, List.append_assoc]
    exact List.prefix_append _ _
  have hdrop : ("http://".toList ++ (H ++ port_text P) ++ path_text Q).drop 7 =
      (H ++ port_text P) ++ path_text Q := by
    rw [List.append_assoc]
    exact List.drop_left' rfl
  unfold parse_url
  simp only [hpre, if_true, hdrop]
  have hsp := split_port_spec H (path_or_root Q) P (fun c hc => (hH c hc).2.1) hP
  cases Q with
  | none =>
    simp only [path_text, List.append_nil] at hpath ⊢
    rw [strchr_index_absent '/' _ hslash]
    simp only
    rw [if_pos ⟨by decide, by rw [List.length_append]; omega⟩]
    exact hsp
  | some q =>
    simp only [path_text] at hpath ⊢
    rw [strchr_index_found '/' _ q hslash]
    simp only [List.drop_left, List.take_left]
    rw [if_pos ⟨by simp only [List.length_cons] at hpath ⊢; omega,
      by rw [List.length_append]; omega⟩]
    exact hsp

/-- The request `GET http://H[:P][/PATH] HTTP/...` is parsed into H, the number of
P and the path when the host text fits 256 bytes and the path 1024. -/
theorem parse_absolute_get (H : List Char) (P Q : Option (List Char)) (rest : List Char)
    (hH : ∀ c, c ∈ H → c ≠ '/' ∧ c ≠ ':' ∧ c ≠ ' ')
    (hP : ∀ d, P = some d → (∀ c, c ∈ d → 48 ≤ c.toNat ∧ c.toNat ≤ 57) ∧
      decimal_value d ≤ 2147483647)
    (hQ : ∀ q, Q = some q → ¬ " HTTP/".toList <:+: q)
    (hhost : H.length + (port_text P).length < 256) (hpath : (path_text Q).length < 1024) :
    parse_http_request (absolute_get H P Q rest) 256 1024 =
      some (parse_result.ok H (path_or_root Q) (port_number P)) := by
  have hurl := parse_url_absolute H P Q hH hP hhost hpath
  have hnosp : ∀ c, c ∈ "http://".toList ++ (H ++ port_text P) → c ≠ ' ' := by
    intro c hc
    rcases List.mem_append.mp hc with h1 | h1
    · exact (by decide : ∀ c, c ∈ "http://".toList → c ≠ ' ') c h1
    rcases List.mem_append.mp h1 with h2 | h2
    · exact (hH c h2).2.2
    · cases P with
      | none => simp [port_text] at h2
      | some d =>
        simp only [port_text, List.mem_cons] at h2
        rcases h2 with h3 | h3
        · rw [h3]
          decide
        · intro hsp
          have := ((hP d rfl).1 c h3).1
          rw [hsp] at this
          exact absurd this (by decide)
  have hlen : ("http://".toList ++ (H ++ port_text P) ++ path_text Q).length < 2048 := by
    rw [List.length_append, List.length_append, List.length_append]
    have : "http://".toList.length = 7 := rfl
    omega
  unfold absolute_get
  cases Q with
  | none =>
    have hfirst := no_early_mark ("http://".toList ++ (H ++ port_text P)) [] rest hnosp
      (by
        rintro ⟨s, t, hst⟩
        have := congrArg List.length hst
        simp at this)
    simp only [List.append_nil] at hfirst
    simp only [path_text, List.append_nil] at hlen hurl ⊢
    rw [parse_after_get _ _ 256 1024 hfirst, if_neg (by omega)]
    exact hurl
  | some q =>
    have hpre : ∀ c, c ∈ ("http://".toList ++ (H ++ port_text P)) ++ ['/'] → c ≠ ' ' := by
      intro c hc
      rcases List.mem_append.mp hc with h1 | h1
      · exact hnosp c h1
      · rw [List.mem_singleton] at h1
        rw [h1]
        decide
    have hfirst := no_early_mark (("http://".toList ++ (H ++ port_text P)) ++ ['/']) q rest
      hpre (hQ q rfl)
    have hsame : ("http://".toList ++ (H ++ port_text P)) ++ ['/'] ++ q =
        "http://".toList ++ (H ++ port_text P) ++ path_text (some q) := by
      simp [path_text]
    rw [hsame] at hfirst
    rw [parse_after_get _ _ 256 1024 hfirst, if_neg (by omega)]
    exact hurl

/-- The key of a parsed request is not cut by the 2048 bytes of url. -/
theorem make_key_whole (H : List Char) (P Q : Option (List Char))
    (hP : ∀ d, P = some d → (∀ c, c ∈ d → 48 ≤ c.toNat ∧ c.toNat ≤ 57) ∧
      decimal_value d ≤ 2147483647)
    (hhost : H.length + (port_text P).length < 256) (hpath : (path_text Q).length < 1024) :
    make_key H (port_number P) (path_or_root Q) =
      String.mk (H ++ ':' :: fmt_int (port_number P) ++ path_or_root Q) := by
  have hport : (fmt_int (port_number P)).length ≤ 10 := by
    apply fmt_int_length
    · cases P with
      | none => decide
      | some d => exact Int.natCast_nonneg _
    · cases P with
      | none => decide
      | some d =>
        have := (hP d rfl).2
        simp only [port_number]
        omega
  have hq : (path_or_root Q).length ≤ 1024 := by
    cases Q with
    | none => simp [path_or_root]
    | some q =>
      simp only [path_text, path_or_root] at hpath ⊢
      omega
  unfold make_key
  rw [List.take_of_length_le]
  simp only [List.length_append, List.length_cons]
  omega

/-- A request whose URL is `http://h/` followed by n letters a is refused as soon
as the URL has 2048 characters. -/
theorem long_url_refused (n : Nat) (hn : 2048 ≤ n) :
    absolute_get ['h'] none (some (List.replicate n 'a')) "1.0".toList =
      "GET http://h/".toList ++ List.replicate n 'a' ++ " HTTP/1.0".toList ∧
    ¬ " HTTP/".toList <:+: List.replicate n 'a' ∧
    parse_http_request (absolute_get ['h'] none (some (List.replicate n 'a')) "1.0".toList)
      256 1024 = some parse_result.bad := by
  generalize hq0 : List.replicate n 'a' = q
  have hlen : q.length = n := by rw [← hq0, List.length_replicate]
  have hq : ¬ " HTTP/".toList <:+: q := by
    rintro ⟨s, t, hst⟩
    have hmem : ' ' ∈ List.replicate n 'a' := by
      rw [hq0, ← hst]
      simp
    exact absurd (List.eq_of_mem_replicate hmem) (by decide)
  refine ⟨by simp [absolute_get, port_text, path_text], hq, ?_⟩
  have hfirst := no_early_mark ("http://h/".toList) q "1.0".toList (by decide) hq
  have hshape : absolute_get ['h'] none (some q) "1.0".toList =
      "GET ".toList ++ (("http://h/".toList ++ q) ++
        (" HTTP/".toList ++ "1.0".toList)) := by
    simp [absolute_get, port_text, path_text]
  rw [hshape, parse_after_get _ _ 256 1024 hfirst]
  rw [if_pos (by rw [List.length_append, hlen]; omega)]

/-- Counterexample to C12: the request `GET http://h/aa...a HTTP/1.0` with 2048
letters a has the shape the claim asks for (host h, no port, a path without
" HTTP/"), and parse_http_request returns -1 because the URL has 2048
characters or more. -/
theorem C12_counterexample :
    absolute_get ['h'] none (some (List.replicate 2048 'a')) "1.0".toList =
      "GET http://h/".toList ++ List.replicate 2048 'a' ++ " HTTP/1.0".toList ∧
    ¬ " HTTP/".toList <:+: List.replicate 2048 'a' ∧
    parse_http_request (absolute_get ['h'] none (some (List.replicate 2048 'a')) "1.0".toList)
      256 1024 = some parse_result.bad :=
  long_url_refused 2048 (Nat.le_refl 2048)

/-- Claim C12, amended: for every request `GET http://H[:P][/PATH] HTTP/...` with H
free of slash, colon and space, P a string of decimal digits whose number fits
an int, PATH free of " HTTP/", the host text `H[:P]` shorter than 256
characters and the path shorter than 1024, parse_http_request returns 0 with
host H, the number of P as port (80 without `:P`) and path `/PATH` (`/`
without a slash after the host), and the key that handle_client prints is
`H:port/PATH` in full. For `GET http://example.test/a HTTP/1.0` the key is
`example.test:80/a`. -/
theorem C12_parse_absolute_get (H : List Char) (P Q : Option (List Char)) (rest : List Char)
    (hH : ∀ c, c ∈ H → c ≠ '/' ∧ c ≠ ':' ∧ c ≠ ' ')
    (hP : ∀ d, P = some d → (∀ c, c ∈ d → 48 ≤ c.toNat ∧ c.toNat ≤ 57) ∧
      decimal_value d ≤ 2147483647)
    (hQ : ∀ q, Q = some q → ¬ " HTTP/".toList <:+: q)
    (hhost : H.length + (port_text P).length < 256) (hpath : (path_text Q).length < 1024) :
    (parse_http_request (absolute_get H P Q rest) 256 1024 =
      some (parse_result.ok H (path_or_root Q) (port_number P)) ∧
    make_key H (port_number P) (path_or_root Q) =
      String.mk (H ++ ':' :: fmt_int (port_number P) ++ path_or_root Q)) ∧
    (parse_http_request "GET http://example.test/a HTTP/1.0".toList 256 1024 =
      some (parse_result.ok "example.test".toList "/a".toList 80) ∧
    make_key "example.test".toList 80 "/a".toList = "example.test:80/a") :=
  ⟨⟨parse_absolute_get H P Q rest hH hP hQ hhost hpath, make_key_whole H P Q hP hhost hpath⟩,
    by decide, by decide⟩

/-- Witness of C12: the request `GET http://proxy.test:8080/index.html HTTP/1.1` and
what follows it. -/
theorem C12_parse_absolute_get_witness :
    parse_http_request
      ("GET http://proxy.test:8080/index.html HTTP/1.1".toList ++ crlf ++ crlf) 256 1024 =
      some (parse_result.ok "proxy.test".toList "/index.html".toList 8080) ∧
    make_key "proxy.test".toList 8080 "/index.html".toList = "proxy.test:8080/index.html" := by
  have h := (C12_parse_absolute_get "proxy.test".toList (some "8080".toList)
    (some "index.html".toList) ("1.1".toList ++ crlf ++ crlf)
    (by decide) (by
      intro d hd
      cases hd
      decide) (by
      intro q hq
      cases hq
      decide) (by decide) (by decide)).1
  exact ⟨h.1, h.2⟩

/-- The function strstr returns NULL exactly when needle does not occur in the
string. -/
theorem strstr_index_none_iff (needle s : List Char) :
    strstr_index needle s = none ↔ ¬ needle <:+: s := by
  induction s with
  | nil =>
    rw [strstr_index, List.infix_nil]
    by_cases h : needle = []
    · subst h
      simp
    · have hp : needle.isPrefixOf [] = false := by
        cases needle with
        | nil => exact absurd rfl h
        | cons a t => rfl
      simp [hp, h]
  | cons c hay ih =>
    rw [strstr_index, List.infix_cons_iff]
    by_cases hp : needle.isPrefixOf (c :: hay) = true
    · rw [if_pos hp]
      have := List.isPrefixOf_iff_prefix.mp hp
      simp [this]
    · rw [if_neg hp, Option.map_eq_none', ih]
      have hnp : ¬ needle <+: c :: hay := fun h => hp (List.isPrefixOf_iff_prefix.mpr h)
      simp [hnp]

/-- The work of split_port never ends in the return of -1. -/
theorem split_port_not_bad (host path : List Char) :
    split_port host path ≠ some parse_result.bad := by
  unfold split_port
  split
  · split <;> simp
  · simp

/-- Past the length test no path of parse_http_request returns -1. -/
theorem parse_url_not_bad (url : List Char) (host_cap path_cap : Nat) :
    parse_url url host_cap path_cap ≠ some parse_result.bad := by
  unfold parse_url
  simp only
  split <;> split_ifs <;> first | exact split_port_not_bad _ _ | simp

/-- The returns of -1 in parse_http_request: no "GET ", no " HTTP/" after it, or
2048 characters or more between the two. -/
theorem parse_bad_iff (request : List Char) (host_cap path_cap : Nat) :
    parse_http_request request host_cap path_cap = some parse_result.bad ↔
      (¬ "GET ".toList <:+: request ∨
        ∃ i, strstr_index "GET ".toList request = some i ∧
          (¬ " HTTP/".toList <:+: request.drop (i + 4) ∨
            ∃ n, strstr_index " HTTP/".toList (request.drop (i + 4)) = some n ∧ 2048 ≤ n)) := by
  rw [← strstr_index_none_iff]
  unfold parse_http_request
  cases hget : strstr_index "GET ".toList request with
  | none => simp
  | some i =>
    simp only [Option.some.injEq, exists_eq_left', false_or]
    rw [← strstr_index_none_iff]
    cases hmark : strstr_index " HTTP/".toList (request.drop (i + 4)) with
    | none => simp
    | some n =>
      simp only [Option.some.injEq, exists_eq_left', false_or]
      by_cases hn : n ≥ 2048
      · simp [hn]
      · rw [if_neg hn]
        have := parse_url_not_bad ((request.drop (i + 4)).take n) host_cap path_cap
        simp only [this, false_iff]
        simpa using hn

/-- Claim C13 fails on the code: strstr looks for "GET " anywhere in the request. A
POST request with a header that quotes a GET line, and a request with the
method FORGET, are parsed with return 0, and handle_client starts a download
for them instead of answering 400. -/
theorem C13_other_method_is_accepted :
    parse_http_request
      ("POST http://example.test/a HTTP/1.0".toList ++ crlf ++
        "X-Original: GET http://example.test/b HTTP/1.0".toList ++ crlf ++ crlf) 256 1024 =
      some (parse_result.ok "example.test".toList "/b".toList 80) ∧
    parse_http_request ("FORGET http://example.test/a HTTP/1.0".toList ++ crlf ++ crlf)
      256 1024 = some (parse_result.ok "example.test".toList "/a".toList 80) ∧
    (handle_client (env_of 1 true true) 87
      ("POST http://example.test/a HTTP/1.0".toList ++ crlf ++
        "X-Original: GET http://example.test/b HTTP/1.0".toList ++ crlf ++ crlf)
      mem_empty).map Prod.snd = some (client_outcome.download 100) ∧
    (handle_client (env_of 1 true true) 41
      ("FORGET http://example.test/a HTTP/1.0".toList ++ crlf ++ crlf)
      mem_empty).map Prod.snd = some (client_outcome.download 100) := by
  refine ⟨by decide, by decide, by decide, by decide⟩

/-- Counterexample to C14: `GET /a HTTP/1.0` and `GET http:///a HTTP/1.0` return 0
with the empty host, and `GET http://h:abc/a HTTP/1.0` returns 0 with port 0. -/
theorem C14_counterexample :
    parse_http_request "GET /a HTTP/1.0".toList 256 1024 =
      some (parse_result.ok [] "/a".toList 80) ∧
    parse_http_request "GET http:///a HTTP/1.0".toList 256 1024 =
      some (parse_result.ok [] "/a".toList 80) ∧
    parse_http_request "GET http://h:abc/a HTTP/1.0".toList 256 1024 =
      some (parse_result.ok ['h'] "/a".toList 0) := by
  refine ⟨by decide, by decide, by decide⟩

/-- The returns of -1 for a request that begins with "GET ": no " HTTP/" after it,
or 2048 characters or more before the first " HTTP/". -/
theorem parse_get_bad_iff (tail : List Char) (host_cap path_cap : Nat) :
    parse_http_request ("GET ".toList ++ tail) host_cap path_cap = some parse_result.bad ↔
      (¬ " HTTP/".toList <:+: tail ∨
        ∃ n, strstr_index " HTTP/".toList tail = some n ∧ 2048 ≤ n) := by
  have hget : strstr_index "GET ".toList ("GET ".toList ++ tail) = some 0 := by
    have h := strstr_index_first "GET ".toList [] tail (by decide) (by simp)
    simpa using h
  have hdrop : ("GET ".toList ++ tail).drop (0 + 4) = tail := List.drop_left' rfl
  rw [← strstr_index_none_iff]
  unfold parse_http_request
  rw [hget]
  simp only [hdrop]
  cases hmark : strstr_index " HTTP/".toList tail with
  | none => simp
  | some n =>
    by_cases hn : n ≥ 2048
    · simp [hn]
    · have := parse_url_not_bad (tail.take n) host_cap path_cap
      simp only [if_neg hn, this, false_iff]
      simpa using hn

/-- Claim C14, amended: a request that begins with "GET " is answered with -1
exactly when no " HTTP/" follows the "GET " or 2048 characters or more lie
before the first " HTTP/"; the work on the URL (lines 63-87: host, path and
port) has no return of -1, so neither an empty host nor a port that is no
decimal number makes parse_http_request return -1. -/
theorem C14_get_rejected_only_for_missing_mark (tail url : List Char)
    (host_cap path_cap : Nat) :
    (parse_http_request ("GET ".toList ++ tail) host_cap path_cap = some parse_result.bad ↔
      (¬ " HTTP/".toList <:+: tail ∨
        ∃ n, strstr_index " HTTP/".toList tail = some n ∧ 2048 ≤ n)) ∧
    parse_url url host_cap path_cap ≠ some parse_result.bad :=
  ⟨parse_get_bad_iff tail host_cap path_cap, parse_url_not_bad url host_cap path_cap⟩

/-! ## Client handler: handle_client -/

/-- A run of handle_client is its two steps taken without another thread in
between. -/
theorem handle_client_as_steps (env : client_env) (total : Nat) (request : List Char)
    (m : Memory) :
    (run_schedule [0, 0]
      { mem := m
        clients := [{ env := env, total := total, request := request,
                      state := client_state.start }] }).map
        (fun s => (s.mem, client_states s)) =
      (handle_client env total request m).map
        (fun r => (r.1, [client_state.finished r.2])) := by
  simp only [run_schedule, sched_step, List.get?, client_step, handle_client]
  by_cases ht : total = 0
  · simp [ht, client_step, client_states]
  · simp only [ht, if_false]
    cases hl : client_lookup env request m with
    | none => simp
    | some r =>
      obtain ⟨m1, l⟩ := r
      cases l with
      | answered o => simp [client_step, client_states]
      | miss url =>
        simp only [List.set, List.get?, client_step]
        cases hi : client_install env url m1 with
        | none => simp
        | some r2 => simp [client_states]

/-- The eviction in cache_add frees the buffer of a node only after the node has
been taken off the list, and only when the buffer has no reader. -/
theorem evict_head_frees_idle (m m2 : Memory) (old : Nat) (h : evict_head m old = some m2) :
    ∃ m1 oe b, unlink_front m old = some m1 ∧ m1.entries old = some oe ∧
      m1.buffers oe.buffer = some b ∧ b.readers ≤ 0 ∧
      m2.entries old = none ∧ m2.buffers oe.buffer = none ∧
      m2.global_cache.head = m1.global_cache.head := by
  unfold evict_head at h
  cases h1 : unlink_front m old with
  | none => simp [h1] at h
  | some m1 =>
    simp only [h1, release_old] at h
    cases he : m1.entries old with
    | none => simp [he] at h
    | some oe =>
      simp only [he] at h
      cases hb : m1.buffers oe.buffer with
      | none => simp [hb] at h
      | some b =>
        simp only [hb] at h
        by_cases hr : b.readers > 0
        · simp [hr] at h
        · rw [if_neg hr, Option.some.injEq] at h
          subst h
          exact ⟨m1, oe, b, rfl, he, hb, not_lt.mp hr, by simp, by simp [free_stream_buffer], rfl⟩

/-- Claim C11 fails on the code: two clients ask for the same URL while the cache
is empty. When both have returned from cache_find before either calls
cache_add, the cache ends with two entries for the URL and two download
threads are started; when the clients run one after the other there is one
entry and one download thread, and the second client streams from the buffer
of the first. -/
theorem C11_two_lookups_before_add_start_two_downloads :
    run_schedule [0, 1, 0, 1] two_clients = some two_clients_raced ∧
    LruList two_clients_raced.mem [1, 2] ∧
    entries_for "example.test:80/a" two_clients_raced.mem [1, 2] = [1, 2] ∧
    client_states two_clients_raced =
      [client_state.finished (client_outcome.download 100),
       client_state.finished (client_outcome.download 200)] ∧
    producers_started two_clients_raced = 2 ∧
    run_schedule [0, 0, 1, 1] two_clients = some two_clients_in_turn ∧
    LruList two_clients_in_turn.mem [1] ∧
    entries_for "example.test:80/a" two_clients_in_turn.mem [1] = [1] ∧
    client_states two_clients_in_turn =
      [client_state.finished (client_outcome.download 100),
       client_state.finished (client_outcome.stream 100)] ∧
    producers_started two_clients_in_turn = 1 := by
  refine ⟨rfl, by decide, by decide, by decide, by decide, rfl, by decide, by decide,
    by decide, by decide⟩

/-- Claim C18 fails on the code: a client asks for a URL that is not cached and
pthread_create fails (or malloc of the download arguments does). The run
frees the new buffer and leaves its entry in the LRU list, so the entry of
the cache refers to a freed buffer, and the next request for the URL reads
the flags of the freed buffer. -/
theorem C18_failed_start_frees_listed_buffer :
    handle_client (env_of 1 true false) 38 request_a mem_empty =
      some (mem_thread_failed, client_outcome.dropped) ∧
    handle_client (env_of 1 false true) 38 request_a mem_empty =
      some (mem_thread_failed, client_outcome.dropped) ∧
    LruList mem_thread_failed [1] ∧
    payload mem_thread_failed 1 = some ("example.test:80/a", 100, 0) ∧
    mem_thread_failed.buffers 100 = none ∧
    (cache_find 60 "example.test:80/a" 0 mem_thread_failed).map Prod.snd = some (some 1) ∧
    handle_client (env_of 2 true true) 38 request_a mem_thread_failed = none := by
  refine ⟨rfl, rfl, by decide, by decide, rfl, by decide, rfl⟩

end Proxy
